import Mathlib

/-!
Fast exhaustive search over GF(2)  (`main.c`)

A shallow embedding of the kernel of `main.c`:

* `reduce_sys`            (lines 39-51)   folds every `x_v^2` coefficient into `x_v`;
* `diff_eq`, `find_partial_derivs` (lines 168-211) first-order partial derivatives;
* `fast_exhaustive_search` (lines 213-281) the Gray-code enumeration;
* `verify_sols`           (lines 283-306) the naive verifier.

Conventions of the embedding.

* `uint8_t`, `uint64_t` and `bool` values are natural numbers.  A `uint8_t **` system is a
  `List (List Nat)` (one row per equation), a `uint8_t *` vector is a `List Nat`.
  Reading `a[i]` is `a.getD i 0`, writing `a[i] = v` is `a.set i v`.
* 64-bit results that can leave the word are reduced `% 2 ^ 64` (`++count`, `term << eq_idx`,
  `0x1UL << n`).  Index arithmetic uses the subtraction of `Nat`; for a row length
  `xvar_num = n(n+1)/2 + n + 1` no such subtraction goes below zero.
* Storing an integer into a `bool` is `toBool` (non-zero becomes `1`).
* A failing `assert` aborts the program: `fast_exhaustive_search` returns `none` for exactly
  those runs.
* `printf` calls are not part of the embedding.
-/

namespace FES

/-! ## Index macros (lines 75-82) -/

/-- Macro `cbinom2(n)`: `((n) * ((n)+1)) / 2`. -/
def cbinom2 (n : Nat) : Nat := (n * (n + 1)) / 2

/-- Macro `deg2midx2(var1_idx, var2_idx)`: the slot of the monomial `x_var1 * x_var2`. -/
def deg2midx2 (var1_idx var2_idx : Nat) : Nat :=
  if var2_idx > var1_idx then cbinom2 var2_idx + var1_idx else cbinom2 var1_idx + var2_idx

/-- Macro `deg2midx1(vnum, var1_idx)`: the slot of the monomial `x_var1`. -/
def deg2midx1 (vnum var1_idx : Nat) : Nat := cbinom2 vnum + var1_idx

/-! ## `reduce_sys` (lines 39-51) -/

/-- The inner `for (i = 0, sqr_term_idx = 0; i < var_idx; i++) sqr_term_idx += i + 2;`. -/
def sqr_term_idx (var_idx : Nat) : Nat :=
  (List.range var_idx).foldl (fun acc i => acc + (i + 2)) 0

/-- One pass of the `var_idx` loop of `reduce_sys` over a single row `(*mqs)[eq_idx]`. -/
def reduce_row (var_num xvar_num : Nat) (row : List Nat) : List Nat :=
  (List.range var_num).foldl
    (fun r var_idx =>
      let s := sqr_term_idx var_idx
      let l := xvar_num - 2 - (var_num - 1 - var_idx)
      (r.set l (r.getD l 0 ^^^ r.getD s 0)).set s 0)
    row

/-- Function `reduce_sys`: the `eq_idx` loop rewrites every row in place. -/
def reduce_sys (mqs : List (List Nat)) (eq_num var_num xvar_num : Nat) : List (List Nat) :=
  (List.range eq_num).foldl
    (fun sys eq_idx => sys.set eq_idx (reduce_row var_num xvar_num (sys.getD eq_idx [])))
    mqs

/-! ## `diff_eq` and `find_partial_derivs` (lines 168-211) -/

/-- Conversion of an integer to a C `bool`. -/
def toBool (x : Nat) : Nat := if x = 0 then 0 else 1

/-- The `for (j = 1; j <= i; ++j) result[i - j] ^= func[cursor - j];` loop of `diff_eq`. -/
def diff_inner (func : List Nat) (i cursor : Nat) (result : List Nat) : List Nat :=
  (List.range' 1 i).foldl
    (fun res j => res.set (i - j) (toBool (res.getD (i - j) 0 ^^^ func.getD (cursor - j) 0)))
    result

/-- The body of the `i` loop of `diff_eq` (without the cursor update). -/
def diff_body (func : List Nat) (idx i cursor : Nat) (result : List Nat) : List Nat :=
  if i = idx then diff_inner func i cursor result
  else result.set i (toBool (result.getD i 0 ^^^ func.getD (cursor - (i - idx)) 0))

/-- The loop `for (i = ...; i >= bound; --i)` of `diff_eq`, entered with the current `i`.
In `diff_eq` the bound is at least `1`, so the loop is always left before `--i` could
pass below zero; the case `i = 0` below is the exit `0 >= bound` being false. -/
def diff_loop (func : List Nat) (idx bound : Nat) : Nat → Nat → List Nat → List Nat
  | 0, _, result => result
  | i + 1, cursor, result =>
    if i + 1 ≥ bound then
      diff_loop func idx bound i (cursor - (i + 1 + 1)) (diff_body func idx (i + 1) cursor result)
    else result

/-- Function `diff_eq`: the coefficient vector (length `var_num + 1`) of the partial
derivative of `func` with respect to `x_idx`.  The `assert(idx < var_num)` holds at the only
call site (`find_partial_derivs`). -/
def diff_eq (func : List Nat) (term_num var_num idx : Nat) : List Nat :=
  let result := List.replicate (var_num + 1) 0
  let result := result.set var_num (toBool (func.getD (term_num - 1 - (var_num - idx)) 0))
  let cursor := term_num - 1 - var_num - 1
  let bound := if 0 = idx then 1 else idx
  diff_loop func idx bound (var_num - 1) cursor result

/-- Function `find_partial_derivs`: `derivs[eq_idx][var_idx]` is the `diff_eq` result for
equation `eq_idx` and variable `var_idx`. -/
def find_partial_derivs (mqs : List (List Nat)) (eq_num term_num var_num : Nat) :
    List (List (List Nat)) :=
  (List.range eq_num).map fun eq_idx =>
    (List.range var_num).map fun var_idx =>
      diff_eq (mqs.getD eq_idx []) term_num var_num var_idx

/-- Read `derivs[eq_idx][var_idx][i]`. -/
def derivs_get (derivs : List (List (List Nat))) (eq_idx var_idx i : Nat) : Nat :=
  ((derivs.getD eq_idx []).getD var_idx []).getD i 0

/-! ## `fast_exhaustive_search` (lines 213-281) -/

/-- Read `t[i][j]` of a two-dimensional table. -/
def get2 (t : List (List Nat)) (i j : Nat) : Nat := (t.getD i []).getD j 0

/-- Write `t[i][j] = v` of a two-dimensional table. -/
def set2 (t : List (List Nat)) (i j v : Nat) : List (List Nat) :=
  t.set i ((t.getD i []).set j v)

/-- Lines 222-232: the packed second-order table.  `pdiff2[i][var_idx] |= term << eq_idx`
with `term = derivs[eq_idx][var_idx][i]`. -/
def build_pdiff2 (derivs : List (List (List Nat))) (var_num eq_num : Nat) : List (List Nat) :=
  (List.range var_num).foldl
    (fun p var_idx =>
      (List.range var_num).foldl
        (fun p i =>
          (List.range eq_num).foldl
            (fun p eq_idx =>
              let term := derivs_get derivs eq_idx var_idx i
              set2 p i var_idx (get2 p i var_idx ||| (term <<< eq_idx) % 2 ^ 64))
            p)
        p)
    (List.replicate var_num (List.replicate var_num 0))

/-- The `term` of lines 238-242. -/
def pdiff_eval_term (mqs : List (List Nat)) (derivs : List (List (List Nat)))
    (var_num eq_idx var_idx : Nat) : Nat :=
  if 0 = var_idx then (mqs.getD eq_idx []).getD (deg2midx1 var_num 0) 0
  else (mqs.getD eq_idx []).getD (deg2midx1 var_num var_idx) 0
        ^^^ derivs_get derivs eq_idx var_idx (var_idx - 1)

/-- Lines 234-246: the initial packed first-order evaluations `pdiff_eval`. -/
def init_pdiff_eval (mqs : List (List Nat)) (derivs : List (List (List Nat)))
    (var_num eq_num : Nat) : List Nat :=
  (List.range var_num).foldl
    (fun pe var_idx =>
      (List.range eq_num).foldl
        (fun pe eq_idx =>
          let term := pdiff_eval_term mqs derivs var_num eq_idx var_idx
          pe.set var_idx (pe.getD var_idx 0 ||| (term <<< eq_idx) % 2 ^ 64))
        pe)
    (List.replicate var_num 0)

/-- Lines 252-258: the packed evaluation of all equations at the zero vector. -/
def init_func_eval (mqs : List (List Nat)) (eq_num xvar_num : Nat) : Nat :=
  (List.range eq_num).foldl
    (fun func_eval eq_idx =>
      let term := (mqs.getD eq_idx []).getD (xvar_num - 1) 0
      func_eval ||| (term <<< eq_idx) % 2 ^ 64)
    0

/-- The three `assert(0x1UL == term || 0x0UL == term)` sites (lines 228, 243, 256): true iff
no assertion fails during the run. -/
def asserts_hold (mqs : List (List Nat)) (derivs : List (List (List Nat)))
    (var_num eq_num xvar_num : Nat) : Bool :=
  ((List.range var_num).all fun var_idx =>
    (List.range var_num).all fun i =>
      (List.range eq_num).all fun eq_idx =>
        let term := derivs_get derivs eq_idx var_idx i
        decide (1 = term ∨ 0 = term))
  && ((List.range var_num).all fun var_idx =>
    (List.range eq_num).all fun eq_idx =>
      let term := pdiff_eval_term mqs derivs var_num eq_idx var_idx
      decide (1 = term ∨ 0 = term))
  && ((List.range eq_num).all fun eq_idx =>
      let term := (mqs.getD eq_idx []).getD (xvar_num - 1) 0
      decide (1 = term ∨ 0 = term))

/-- The `__builtin_ctzll` loop: trailing zero bits among the lowest `fuel` bits. -/
def ctz_aux : Nat → Nat → Nat
  | 0, _ => 0
  | fuel + 1, x => if x % 2 = 1 then 0 else 1 + ctz_aux fuel (x / 2)

/-- Intrinsic `__builtin_ctzll`: the number of trailing zero bits of a non-zero 64-bit word.
The C result for `0` is unspecified; the embedding gives `64` there, and the search never
asks for it. -/
def ctzll (x : Nat) : Nat := ctz_aux 64 x

/-- The variables of the enumeration loop. -/
structure SearchState where
  func_eval : Nat
  count : Nat
  pdiff_eval : List Nat
  deriving DecidableEq

/-- One iteration of the `while` loop (lines 263-271). -/
def search_step (pdiff2 : List (List Nat)) (s : SearchState) : SearchState :=
  let count := (s.count + 1) % 2 ^ 64
  let fp_idx := ctzll count
  let pdiff_eval :=
    if count &&& (count - 1) ≠ 0 then
      let pre_fp_idx := ctzll (count ^^^ (1 <<< fp_idx) % 2 ^ 64)
      s.pdiff_eval.set fp_idx (s.pdiff_eval.getD fp_idx 0 ^^^ get2 pdiff2 fp_idx pre_fp_idx)
    else s.pdiff_eval
  { func_eval := s.func_eval ^^^ pdiff_eval.getD fp_idx 0
    count := count
    pdiff_eval := pdiff_eval }

/-- The loop `while (func_eval && count < bound)`, run for at most `fuel` iterations.
`fast_exhaustive_search` supplies `fuel = bound`; `count` grows by one in every iteration, so
the loop condition fails before that fuel is used up. -/
def search_loop (pdiff2 : List (List Nat)) (bound : Nat) : Nat → SearchState → SearchState
  | 0, s => s
  | fuel + 1, s =>
    if s.func_eval ≠ 0 ∧ s.count < bound then search_loop pdiff2 bound fuel (search_step pdiff2 s)
    else s

/-- Lines 277-279: `solution[var_idx] = ((count ^ (count >> 1)) >> var_idx) & 0x1UL`. -/
def fill_solution (count var_num : Nat) (solution : List Nat) : List Nat :=
  (List.range var_num).foldl
    (fun sol var_idx => sol.set var_idx (((count ^^^ (count >>> 1)) >>> var_idx) &&& 1))
    solution

/-- What `fast_exhaustive_search` leaves behind: the loop variables `func_eval` and `count`
at loop exit and the caller's `solution` buffer.  A solution is reported ("found valid
solution", buffer written) iff `func_eval = 0`. -/
structure SearchResult where
  func_eval : Nat
  count : Nat
  solution : List Nat
  deriving DecidableEq

/-- Line 261: `bound = (0x1UL << var_num) - 1`. -/
def search_bound (var_num : Nat) : Nat := (1 <<< var_num) % 2 ^ 64 - 1

/-- The loop variables as the `while` loop is entered (lines 234-260). -/
def search_init (mqs : List (List Nat)) (var_num eq_num xvar_num : Nat) : SearchState :=
  let derivs := find_partial_derivs mqs eq_num xvar_num var_num
  { func_eval := init_func_eval mqs eq_num xvar_num
    count := 0
    pdiff_eval := init_pdiff_eval mqs derivs var_num eq_num }

/-- The loop variables after at most `k` iterations of the `while` loop: `k = 0` is the state
before the loop, and once the loop condition fails the state no longer changes. -/
def search_run (mqs : List (List Nat)) (var_num eq_num xvar_num k : Nat) : SearchState :=
  let derivs := find_partial_derivs mqs eq_num xvar_num var_num
  search_loop (build_pdiff2 derivs var_num eq_num) (search_bound var_num) k
    (search_init mqs var_num eq_num xvar_num)

/-- Function `fast_exhaustive_search`.  The argument `solution` is the caller's buffer as it
is before the call.  The result is `none` iff an `assert` fails. -/
def fast_exhaustive_search (mqs : List (List Nat)) (var_num eq_num xvar_num : Nat)
    (solution : List Nat) : Option SearchResult :=
  let derivs := find_partial_derivs mqs eq_num xvar_num var_num
  if asserts_hold mqs derivs var_num eq_num xvar_num then
    let s := search_run mqs var_num eq_num xvar_num (search_bound var_num)
    some
      { func_eval := s.func_eval
        count := s.count
        solution := if s.func_eval = 0 then fill_solution s.count var_num solution
                    else solution }
  else none

/-! ## `verify_sols` (lines 283-306) -/

/-- The value `res` that `verify_sols` computes for one equation `sys[i]`. -/
def eval_eq (row solution : List Nat) (var_num xvar_num : Nat) : Nat :=
  let res :=
    (List.range var_num).foldl
      (fun res mul_1 =>
        (List.range' mul_1 (var_num - mul_1)).foldl
          (fun res mul_2 =>
            if row.getD (deg2midx2 mul_1 mul_2) 0 = 1 then
              res ^^^ (solution.getD mul_1 0 &&& solution.getD mul_2 0)
            else res)
          res)
      0
  let res :=
    (List.range var_num).foldl
      (fun res var_idx => res ^^^ (solution.getD var_idx 0 &&& row.getD (deg2midx1 var_num var_idx) 0))
      res
  res ^^^ row.getD (xvar_num - 1) 0

/-- Function `verify_sols`: `false` as soon as one equation evaluates to `1`. -/
def verify_sols (sys : List (List Nat)) (solution : List Nat) (var_num eq_num xvar_num : Nat) :
    Bool :=
  (List.range eq_num).all fun i => decide (eval_eq (sys.getD i []) solution var_num xvar_num ≠ 1)

/-! ## `main` (lines 18-36, with `read_challenge` line 165) -/

/-- Row length computed by `read_challenge` (line 157). -/
def xvar_num_of (var_num : Nat) : Nat := var_num * (var_num + 1) / 2 + var_num + 1

/-- The loop of lines 29-30, `for (i = 0; i < var_num - 1; i++) printf("%d, ", solution[i]);`,
entered at index `i` with `todo` iterations left; `out` collects the values printed so far.
The result is `none` when a read `solution[i]` falls outside the buffer. -/
def print_loop (solution : List Nat) : Nat → Nat → List Nat → Option (List Nat)
  | 0, _, out => some out
  | todo + 1, i, out =>
    match solution[i]? with
    | none => none
    | some x => print_loop solution todo (i + 1) (out ++ [x])

/-- Lines 29-31 with `last` standing for the value of `var_num - 1`: the loop prints
`solution[0 .. last - 1]`, line 31 prints `solution[last]`.  The result is `none` when a
read falls outside the buffer. -/
def print_upto (solution : List Nat) (last : Nat) : Option (List Nat) :=
  match print_loop solution last 0 [] with
  | none => none
  | some out =>
    match solution[last]? with
    | none => none
    | some x => some (out ++ [x])

/-- Lines 28-31: the solution vector as `main` prints it.  The loop bound and the last index
are `var_num - 1` computed in `uint64_t`, which wraps to `2^64 - 1` for `var_num = 0`. -/
def print_solution (solution : List Nat) (var_num : Nat) : Option (List Nat) :=
  print_upto solution ((var_num + 2 ^ 64 - 1) % 2 ^ 64)

/-- How a run of `main` ends, after `read_challenge` has parsed the system. -/
inductive MainOutcome where
  /-- An `assert` of `fast_exhaustive_search` failed. -/
  | assert_failed
  /-- The verifier rejected the buffer: "solution invalid" is printed. -/
  | solution_invalid (r : SearchResult)
  /-- The verifier accepted the buffer: "solution valid" and the vector `printed`. -/
  | solution_valid (r : SearchResult) (printed : List Nat)
  /-- The verifier accepted the buffer, "solution valid" is printed, and the print loop of
  lines 29-31 then reads outside the solution buffer. -/
  | out_of_bounds (r : SearchResult)
  deriving DecidableEq

/-- Function `main` (lines 18-36) on the parsed system `mqs`: `read_challenge` ends with
`reduce_sys` (line 165), then `fast_exhaustive_search` runs on the buffer `solution`
(`uint8_t solution[var_num]`, line 24), then `verify_sols` judges whatever the buffer holds
and, if it accepts, the vector is printed.  Nothing in `main` or `read_challenge` inspects
`var_num` or `eq_num` before the search. -/
def main (mqs : List (List Nat)) (var_num eq_num : Nat) (solution : List Nat) : MainOutcome :=
  let xvar_num := xvar_num_of var_num
  let sys := reduce_sys mqs eq_num var_num xvar_num
  match fast_exhaustive_search sys var_num eq_num xvar_num solution with
  | none => MainOutcome.assert_failed
  | some r =>
    if verify_sols sys r.solution var_num eq_num xvar_num then
      match print_solution r.solution var_num with
      | some printed => MainOutcome.solution_valid r printed
      | none => MainOutcome.out_of_bounds r
    else MainOutcome.solution_invalid r

/-! ## The polynomials over GF(2) that the rows stand for -/

/-- The value in GF(2) of the quadratic polynomial stored in `row`, at the point `x`:
the sum of `a_ij * x_i * x_j` over `i ≤ j` (coefficient at index `j(j+1)/2 + i`), plus the
sum of `b_i * x_i` (coefficient at index `n(n+1)/2 + i`), plus the constant (index `T - 1`). -/
def gf2_poly (row : List Nat) (n T : Nat) (x : Nat → ZMod 2) : ZMod 2 :=
  (∑ j in Finset.range n, ∑ i in Finset.range (j + 1),
      (row.getD (j * (j + 1) / 2 + i) 0 : ZMod 2) * x i * x j)
  + (∑ i in Finset.range n, (row.getD (n * (n + 1) / 2 + i) 0 : ZMod 2) * x i)
  + (row.getD (T - 1) 0 : ZMod 2)

/-- A vector of `uint8_t` read as a point of GF(2)^n. -/
def point_of (x : List Nat) : Nat → ZMod 2 := fun i => (x.getD i 0 : ZMod 2)

/-- The GF(2) value of an equation at a solution vector. -/
def gf2_eval (row : List Nat) (n T : Nat) (x : List Nat) : ZMod 2 :=
  gf2_poly row n T (point_of x)

/-! ## Well-formed inputs -/

/-- A system of `m` equations in `n` variables: `m` rows of length `T = n(n+1)/2 + n + 1`. -/
def Shape (sys : List (List Nat)) (n m T : Nat) : Prop :=
  sys.length = m ∧ T = n * (n + 1) / 2 + n + 1 ∧ ∀ row ∈ sys, row.length = T

instance (sys : List (List Nat)) (n m T : Nat) : Decidable (Shape sys n m T) := by
  unfold Shape; infer_instance

/-- All coefficients of the system are `0` or `1`. -/
def Coeffs01 (sys : List (List Nat)) : Prop := ∀ row ∈ sys, ∀ c ∈ row, c ≤ 1

instance (sys : List (List Nat)) : Decidable (Coeffs01 sys) := by
  unfold Coeffs01; infer_instance

/-- All entries of the vector are `0` or `1`. -/
def Bits01 (x : List Nat) : Prop := ∀ c ∈ x, c ≤ 1

instance (x : List Nat) : Decidable (Bits01 x) := by
  unfold Bits01; infer_instance

/-- Every square-monomial slot `v(v+1)/2 + v` of every row is zero, as `reduce_sys` leaves
the system. -/
def SquareFree (sys : List (List Nat)) (n : Nat) : Prop :=
  ∀ row ∈ sys, ∀ v, v < n → row.getD (v * (v + 1) / 2 + v) 0 = 0

instance (sys : List (List Nat)) (n : Nat) : Decidable (SquareFree sys n) := by
  unfold SquareFree; infer_instance

/-- The coefficient of `x_i * x_j` read as an upper-triangular matrix over GF(2):
the slot `j(j+1)/2 + i` for `i ≤ j`, and `0` below the diagonal. -/
def upper (row : List Nat) (i j : Nat) : ZMod 2 :=
  if i ≤ j then (row.getD (cbinom2 j + i) 0 : ZMod 2) else 0

/-- The value at the point `x` of the affine polynomial with coefficient vector `d` of
length `n + 1` (linear coefficients first, constant last), as `diff_eq` produces it. -/
def affine_poly (d : List Nat) (n : Nat) (x : Nat → ZMod 2) : ZMod 2 :=
  (d.getD n 0 : ZMod 2) + ∑ i in Finset.range n, (d.getD i 0 : ZMod 2) * x i

/-- The affine polynomial `d` evaluated on machine values:
`d[n] XOR (XOR over i < n of d[i] AND x_i)`. -/
def affine_eval (d x : List Nat) (n : Nat) : Nat :=
  (List.range n).foldl (fun acc i => acc ^^^ (d.getD i 0 &&& x.getD i 0)) (d.getD n 0)

/-- The vector `x` with entry `v` flipped between `0` and `1`. -/
def flip_bit (x : List Nat) (v : Nat) : List Nat := x.set v (1 - x.getD v 0)

/-- The packing loop shared by lines 226-230, 237-245 and 254-258: starting from the word
`init`, `word |= term << eq_idx` for every `eq_idx < eq_num`. -/
def pack_bits (term : Nat → Nat) (eq_num init : Nat) : Nat :=
  (List.range eq_num).foldl (fun acc eq_idx => acc ||| (term eq_idx <<< eq_idx) % 2 ^ 64) init

/-- A square `n` by `n` table. -/
def Table (n : Nat) (p : List (List Nat)) : Prop :=
  p.length = n ∧ ∀ i, i < n → (p.getD i []).length = n

/-- The Gray code `g(c) = c XOR (c >> 1)` of line 278. -/
def gray (c : Nat) : Nat := c ^^^ (c >>> 1)

/-- Bit `e` of a machine word as an element of GF(2). -/
def bitz (w e : Nat) : ZMod 2 := if w.testBit e then 1 else 0

/-- The point of GF(2)^n visited at step `c`: `x_v` is bit `v` of `g(c)`. -/
def gray_point (c : Nat) : Nat → ZMod 2 := fun v => bitz (gray c) v

/-- The solution vector decoded from step `c`: `x_v = (g(c) >> v) & 1` for `v < n`. -/
def decode (c n : Nat) : List Nat := (List.range n).map fun v => (gray c >>> v) &&& 1

/-- The inputs of the search that the specification calls valid:
`1 ≤ var_num ≤ 63`, `eq_num ≤ 64`, rows of the right length, coefficients `0` or `1`. -/
def ValidSystem (sys : List (List Nat)) (n m T : Nat) : Prop :=
  1 ≤ n ∧ n ≤ 63 ∧ m ≤ 64 ∧ Shape sys n m T ∧ Coeffs01 sys

instance (sys : List (List Nat)) (n m T : Nat) : Decidable (ValidSystem sys n m T) := by
  unfold ValidSystem; infer_instance

/-- The invariant of the enumeration loop, at the loop head.

* `fe`: bit `e` of `func_eval` is equation `e` at the point `g(count)`, and the bits from
  `eq_num` on are zero;
* `pe`: for every variable `v`, if `2^v (2q+1)` is the next step that toggles `x_v`, then
  `pdiff_eval[v]` packs the derivative with respect to `x_v` at the point visited just
  before the previous toggle of `x_v` (before the first one, when there is no previous);
* `first`: none of the points visited before `g(count)` is a common root. -/
structure SearchInv (sys : List (List Nat)) (n m T : Nat) (s : SearchState) : Prop where
  count_lt : s.count < 2 ^ n
  len : s.pdiff_eval.length = n
  fe : ∀ e, bitz s.func_eval e =
    if e < m then gf2_poly (sys.getD e []) n T (gray_point s.count) else 0
  pe : ∀ v q, v < n → s.count < 2 ^ v * (2 * q + 1) →
    2 ^ v * (2 * q + 1) ≤ s.count + 2 ^ (v + 1) →
    ∀ e, bitz (s.pdiff_eval.getD v 0) e =
      if e < m then affine_poly (diff_eq (sys.getD e []) T n v) n
        (gray_point (2 ^ v * (2 * (q - 1) + 1) - 1)) else 0
  first : ∀ c, c < s.count → ∃ e, e < m ∧ gf2_poly (sys.getD e []) n T (gray_point c) ≠ 0

/-- The number whose bit `i` is the parity of entry `i` of the vector. -/
def encode : List Nat → Nat
  | [] => 0
  | b :: t => b % 2 + 2 * encode t

/-- The vector `x` is a common root of the `m` equations of the system over GF(2). -/
def IsRoot (sys : List (List Nat)) (n m T : Nat) (x : List Nat) : Prop :=
  ∀ e, e < m → gf2_eval (sys.getD e []) n T x = 0

instance (sys : List (List Nat)) (n m T : Nat) (x : List Nat) : Decidable (IsRoot sys n m T x) := by
  unfold IsRoot; infer_instance

/-! # Theorems -/

/-! ## Index arithmetic -/

theorem cbinom2_succ (v : Nat) : cbinom2 (v + 1) = cbinom2 v + (v + 1) := by
  unfold cbinom2
  have h : (v + 1) * (v + 1 + 1) = v * (v + 1) + 2 * (v + 1) := by ring
  rw [h, Nat.add_mul_div_left _ _ (by decide : 0 < 2)]

theorem cbinom2_zero : cbinom2 0 = 0 := by decide

theorem cbinom2_mono {a b : Nat} (h : a ≤ b) : cbinom2 a ≤ cbinom2 b := by
  induction h with
  | refl => exact le_refl _
  | step _ ih => rw [cbinom2_succ]; omega

/-- For `a < b` the whole block of column `a` lies before column `b`. -/
theorem cbinom2_lt {a b : Nat} (h : a < b) : cbinom2 a + a < cbinom2 b := by
  have h1 : cbinom2 (a + 1) ≤ cbinom2 b := cbinom2_mono h
  rw [cbinom2_succ] at h1
  omega

theorem sqr_term_idx_eq (v : Nat) : sqr_term_idx v = cbinom2 v + v := by
  unfold sqr_term_idx
  induction v with
  | zero => simp [cbinom2_zero]
  | succ v ih =>
    rw [List.range_succ, List.foldl_append, ih, cbinom2_succ]
    simp only [List.foldl_cons, List.foldl_nil]
    omega

theorem deg2midx2_of_le {a b : Nat} (h : a ≤ b) : deg2midx2 a b = cbinom2 b + a := by
  unfold deg2midx2
  split
  · rfl
  · have : a = b := by omega
    subst this; rfl

theorem deg2midx2_comm (a b : Nat) : deg2midx2 a b = deg2midx2 b a := by
  rcases Nat.lt_trichotomy a b with h | h | h
  · rw [deg2midx2_of_le (le_of_lt h)]; unfold deg2midx2; simp [h, Nat.lt_asymm h]
  · subst h; rfl
  · rw [deg2midx2_of_le (le_of_lt h)]; unfold deg2midx2; simp [h, Nat.lt_asymm h]

/-! ## Lists as arrays -/

theorem getD_set_nat (l : List Nat) (i j v : Nat) :
    (l.set i v).getD j 0 = if i = j ∧ i < l.length then v else l.getD j 0 := by
  simp only [List.getD_eq_getElem?_getD, List.getElem?_set]
  by_cases hij : i = j
  · subst hij
    by_cases hl : i < l.length
    · simp [hl]
    · have hn : l[i]? = none := List.getElem?_eq_none (Nat.le_of_not_lt hl)
      simp [hl, hn]
  · simp [hij]

theorem getD_set_self {l : List Nat} {i : Nat} (v : Nat) (h : i < l.length) :
    (l.set i v).getD i 0 = v := by
  rw [getD_set_nat]; simp [h]

theorem getD_set_ne {l : List Nat} {i j : Nat} (v : Nat) (h : i ≠ j) :
    (l.set i v).getD j 0 = l.getD j 0 := by
  rw [getD_set_nat]; simp [h]

/-! ## `reduce_sys` -/

/-- The first `j` iterations of the `var_idx` loop of `reduce_sys` on one row. -/
theorem reduce_row_eq (n T : Nat) (row : List Nat) :
    reduce_row n T row = (List.range n).foldl
      (fun r v => (r.set (T - 2 - (n - 1 - v)) (r.getD (T - 2 - (n - 1 - v)) 0 ^^^
        r.getD (sqr_term_idx v) 0)).set (sqr_term_idx v) 0) row := rfl

theorem reduce_prefix_length (n T : Nat) (row : List Nat) (j : Nat) :
    ((List.range j).foldl
      (fun r v => (r.set (T - 2 - (n - 1 - v)) (r.getD (T - 2 - (n - 1 - v)) 0 ^^^
        r.getD (sqr_term_idx v) 0)).set (sqr_term_idx v) 0) row).length = row.length := by
  induction j with
  | zero => simp
  | succ j ih => rw [List.range_succ, List.foldl_append]; simpa using ih

theorem reduce_row_length (n T : Nat) (row : List Nat) :
    (reduce_row n T row).length = row.length := by
  rw [reduce_row_eq]; exact reduce_prefix_length n T row n

/-- Slot-by-slot description of the row after the first `j` iterations. -/
theorem reduce_prefix_getD (n : Nat) (row : List Nat) (hlen : row.length = cbinom2 n + n + 1)
    (j : Nat) (hj : j ≤ n) (k : Nat) :
    ((List.range j).foldl
      (fun r v => (r.set (cbinom2 n + n + 1 - 2 - (n - 1 - v))
        (r.getD (cbinom2 n + n + 1 - 2 - (n - 1 - v)) 0 ^^^
        r.getD (sqr_term_idx v) 0)).set (sqr_term_idx v) 0) row).getD k 0 =
      if ∃ v, v < j ∧ k = cbinom2 v + v then 0
      else if cbinom2 n ≤ k ∧ k < cbinom2 n + j then
        row.getD k 0 ^^^ row.getD (cbinom2 (k - cbinom2 n) + (k - cbinom2 n)) 0
      else row.getD k 0 := by
  induction j generalizing k with
  | zero =>
    simp only [List.range_zero, List.foldl_nil]
    rw [if_neg (by rintro ⟨v, hv, _⟩; omega), if_neg (by omega)]
  | succ j ih =>
    have hjn : j < n := hj
    have hjle : j ≤ n := le_of_lt hjn
    rw [List.range_succ, List.foldl_append]
    simp only [List.foldl_cons, List.foldl_nil]
    have hlenp := reduce_prefix_length n (cbinom2 n + n + 1) row j
    rw [hlen] at hlenp
    have hs : sqr_term_idx j = cbinom2 j + j := sqr_term_idx_eq j
    have hl : cbinom2 n + n + 1 - 2 - (n - 1 - j) = cbinom2 n + j := by omega
    have hsn : cbinom2 j + j < cbinom2 n := cbinom2_lt hjn
    rw [hs, hl]
    -- square slots of smaller variables lie strictly before the one of `j`
    have hsq_lt : ∀ v, v < j → cbinom2 v + v < cbinom2 j + j := fun v hv => by
      have := cbinom2_lt hv; omega
    by_cases hk1 : k = cbinom2 j + j
    · subst hk1
      rw [getD_set_self _ (by rw [List.length_set, hlenp]; omega)]
      rw [if_pos ⟨j, Nat.lt_succ_self j, rfl⟩]
    · rw [getD_set_ne _ (Ne.symm hk1)]
      by_cases hk2 : k = cbinom2 n + j
      · subst hk2
        rw [getD_set_self _ (by rw [hlenp]; omega)]
        rw [ih hjle (cbinom2 n + j), ih hjle (cbinom2 j + j)]
        have e1 : ¬ ∃ v, v < j ∧ cbinom2 n + j = cbinom2 v + v := by
          rintro ⟨v, hv, he⟩
          have := cbinom2_lt (lt_trans hv hjn); omega
        have e2 : ¬ ∃ v, v < j ∧ cbinom2 j + j = cbinom2 v + v := by
          rintro ⟨v, hv, he⟩
          have := hsq_lt v hv; omega
        have e3 : ¬ ∃ v, v < j + 1 ∧ cbinom2 n + j = cbinom2 v + v := by
          rintro ⟨v, hv, he⟩
          have := cbinom2_lt (lt_of_lt_of_le hv hjn); omega
        rw [if_neg e1, if_neg e2, if_neg e3]
        rw [if_neg (by omega), if_neg (by omega), if_pos (by omega)]
        have : cbinom2 n + j - cbinom2 n = j := by omega
        rw [this]
      · rw [getD_set_ne _ (Ne.symm hk2), ih hjle k]
        by_cases hex : ∃ v, v < j ∧ k = cbinom2 v + v
        · obtain ⟨v, hv, he⟩ := hex
          rw [if_pos ⟨v, hv, he⟩, if_pos ⟨v, Nat.lt_succ_of_lt hv, he⟩]
        · have hex2 : ¬ ∃ v, v < j + 1 ∧ k = cbinom2 v + v := by
            rintro ⟨v, hv, he⟩
            rcases Nat.lt_succ_iff_lt_or_eq.mp hv with h | h
            · exact hex ⟨v, h, he⟩
            · subst h; exact hk1 he
          rw [if_neg hex, if_neg hex2]
          by_cases hlin : cbinom2 n ≤ k ∧ k < cbinom2 n + j
          · rw [if_pos hlin, if_pos (by omega)]
          · rw [if_neg hlin, if_neg (by omega)]

/-- Slot-by-slot description of `reduce_row` on a row of the right length. -/
theorem reduce_row_getD (n : Nat) (row : List Nat) (hlen : row.length = cbinom2 n + n + 1)
    (k : Nat) :
    (reduce_row n (cbinom2 n + n + 1) row).getD k 0 =
      if ∃ v, v < n ∧ k = cbinom2 v + v then 0
      else if cbinom2 n ≤ k ∧ k < cbinom2 n + n then
        row.getD k 0 ^^^ row.getD (cbinom2 (k - cbinom2 n) + (k - cbinom2 n)) 0
      else row.getD k 0 := by
  rw [reduce_row_eq]
  exact reduce_prefix_getD n row hlen n (le_refl n) k

theorem getD_set_row (l : List (List Nat)) (i j : Nat) (v : List Nat) :
    (l.set i v).getD j [] = if i = j ∧ i < l.length then v else l.getD j [] := by
  simp only [List.getD_eq_getElem?_getD, List.getElem?_set]
  by_cases hij : i = j
  · subst hij
    by_cases hl : i < l.length
    · simp [hl]
    · have hn : l[i]? = none := List.getElem?_eq_none (Nat.le_of_not_lt hl)
      simp [hl, hn]
  · simp [hij]

theorem list_ext_getD {a b : List Nat} (hlen : a.length = b.length)
    (h : ∀ k, k < a.length → a.getD k 0 = b.getD k 0) : a = b := by
  apply List.ext_getElem hlen
  intro k h1 h2
  have := h k h1
  rwa [List.getD_eq_getElem _ _ h1, List.getD_eq_getElem _ _ h2] at this

theorem reduce_sys_upto (mqs : List (List Nat)) (n T j : Nat) :
    ((List.range j).foldl
      (fun sys eq_idx => sys.set eq_idx (reduce_row n T (sys.getD eq_idx []))) mqs).length
        = mqs.length ∧
    ∀ e, ((List.range j).foldl
      (fun sys eq_idx => sys.set eq_idx (reduce_row n T (sys.getD eq_idx []))) mqs).getD e []
        = if e < j ∧ e < mqs.length then reduce_row n T (mqs.getD e []) else mqs.getD e [] := by
  induction j with
  | zero => simp
  | succ j ih =>
    rw [List.range_succ, List.foldl_append]
    simp only [List.foldl_cons, List.foldl_nil]
    refine ⟨by simpa using ih.1, fun e => ?_⟩
    rw [getD_set_row, ih.1, ih.2 j, ih.2 e]
    by_cases hje : j = e
    · subst hje
      by_cases hl : j < mqs.length
      · simp [hl]
      · simp [hl]
    · by_cases hlt : e < j
      · simp [hje, hlt, Nat.lt_succ_of_lt hlt]
      · have : ¬ e < j + 1 := by omega
        simp [hje, hlt, this]

theorem reduce_sys_length (mqs : List (List Nat)) (m n T : Nat) :
    (reduce_sys mqs m n T).length = mqs.length :=
  (reduce_sys_upto mqs n T m).1

theorem reduce_sys_getD (mqs : List (List Nat)) (m n T : Nat) (hm : mqs.length = m) (e : Nat)
    (he : e < m) :
    (reduce_sys mqs m n T).getD e [] = reduce_row n T (mqs.getD e []) := by
  have := (reduce_sys_upto mqs n T m).2 e
  rw [if_pos ⟨he, by omega⟩] at this
  exact this

theorem reduce_sys_eq_map (mqs : List (List Nat)) (m n T : Nat) (hm : mqs.length = m) :
    reduce_sys mqs m n T = mqs.map (reduce_row n T) := by
  apply List.ext_getElem (by rw [reduce_sys_length, List.length_map])
  intro e h1 h2
  rw [reduce_sys_length] at h1
  have := reduce_sys_getD mqs m n T hm e (by omega)
  rw [List.getD_eq_getElem _ _ (by rw [reduce_sys_length]; exact h1),
    List.getD_eq_getElem _ _ h1] at this
  rw [this, List.getElem_map]

/-- Square slots of a reduced row are zero. -/
theorem reduce_row_sq (n : Nat) (row : List Nat) (hlen : row.length = cbinom2 n + n + 1)
    (v : Nat) (hv : v < n) :
    (reduce_row n (cbinom2 n + n + 1) row).getD (cbinom2 v + v) 0 = 0 := by
  rw [reduce_row_getD n row hlen, if_pos ⟨v, hv, rfl⟩]

theorem reduce_row_idem (n : Nat) (row : List Nat) (hlen : row.length = cbinom2 n + n + 1) :
    reduce_row n (cbinom2 n + n + 1) (reduce_row n (cbinom2 n + n + 1) row)
      = reduce_row n (cbinom2 n + n + 1) row := by
  have hl1 := reduce_row_length n (cbinom2 n + n + 1) row
  apply list_ext_getD (by rw [reduce_row_length])
  intro k _
  rw [reduce_row_getD n _ (by rw [hl1, hlen]) k]
  by_cases hex : ∃ v, v < n ∧ k = cbinom2 v + v
  · rw [if_pos hex]
    obtain ⟨v, hv, rfl⟩ := hex
    exact (reduce_row_sq n row hlen v hv).symm
  · rw [if_neg hex]
    by_cases hlin : cbinom2 n ≤ k ∧ k < cbinom2 n + n
    · rw [if_pos hlin, reduce_row_sq n row hlen (k - cbinom2 n) (by omega), Nat.xor_zero]
    · rw [if_neg hlin]

/-! ## Arithmetic of GF(2) and machine words -/


theorem xor_mod_two (a b : Nat) : (a ^^^ b) % 2 = (a + b) % 2 := by
  have h := Nat.testBit_xor a b 0
  simp only [Nat.testBit_zero] at h
  rcases Nat.mod_two_eq_zero_or_one a with ha | ha <;>
  rcases Nat.mod_two_eq_zero_or_one b with hb | hb <;>
  rcases Nat.mod_two_eq_zero_or_one (a ^^^ b) with hx | hx <;>
  simp [ha, hb, hx] at h ⊢ <;> omega

theorem and_mod_two (a b : Nat) : (a &&& b) % 2 = (a * b) % 2 := by
  have h := Nat.testBit_and a b 0
  simp only [Nat.testBit_zero] at h
  have hm : (a * b) % 2 = ((a % 2) * (b % 2)) % 2 := Nat.mul_mod a b 2
  rcases Nat.mod_two_eq_zero_or_one a with ha | ha <;>
  rcases Nat.mod_two_eq_zero_or_one b with hb | hb <;>
  rcases Nat.mod_two_eq_zero_or_one (a &&& b) with hx | hx <;>
  simp [ha, hb, hx] at h hm ⊢ <;> omega

theorem cast_xor (a b : Nat) : ((a ^^^ b : Nat) : ZMod 2) = (a : ZMod 2) + (b : ZMod 2) := by
  rw [← Nat.cast_add, ZMod.natCast_eq_natCast_iff']
  exact xor_mod_two a b

theorem cast_and (a b : Nat) : ((a &&& b : Nat) : ZMod 2) = (a : ZMod 2) * (b : ZMod 2) := by
  rw [← Nat.cast_mul, ZMod.natCast_eq_natCast_iff']
  exact and_mod_two a b

theorem zmod2_add_self (a : ZMod 2) : a + a = 0 := by
  revert a; decide

theorem cast_eq_zero_of_le_one {a : Nat} (h : a ≤ 1) : ((a : ZMod 2) = 0 ↔ a = 0) := by
  interval_cases a <;> simp

theorem xor_le_one {a b : Nat} (ha : a ≤ 1) (hb : b ≤ 1) : a ^^^ b ≤ 1 := by
  interval_cases a <;> interval_cases b <;> decide

theorem and_le_one {a b : Nat} (ha : a ≤ 1) : a &&& b ≤ 1 :=
  le_trans Nat.and_le_left ha

/-! ## Folds as sums -/

theorem foldl_cast_sum {ι : Type} (g : Nat → ι → Nat) (t : ι → ZMod 2)
    (h : ∀ r k, ((g r k : Nat) : ZMod 2) = (r : ZMod 2) + t k) (l : List ι) (init : Nat) :
    ((l.foldl g init : Nat) : ZMod 2) = (init : ZMod 2) + (l.map t).sum := by
  induction l generalizing init with
  | nil => simp
  | cons a l ih => simp [List.foldl_cons, ih, h, add_assoc]

theorem foldl_le_one {ι : Type} (g : Nat → ι → Nat) (l : List ι)
    (h : ∀ r k, k ∈ l → r ≤ 1 → g r k ≤ 1) (init : Nat) (hi : init ≤ 1) :
    l.foldl g init ≤ 1 := by
  induction l generalizing init with
  | nil => simpa
  | cons a l ih =>
    simp only [List.foldl_cons]
    exact ih (fun r k hk hr => h r k (List.mem_cons_of_mem _ hk) hr) _
      (h init a (List.mem_cons_self _ _) hi)

theorem list_range_map_sum (n : Nat) (f : Nat → ZMod 2) :
    ((List.range n).map f).sum = ∑ i in Finset.range n, f i := by
  induction n with
  | zero => simp
  | succ n ih => rw [List.range_succ, List.map_append, List.sum_append, ih, Finset.sum_range_succ]; simp

theorem list_range'_map_sum (i n : Nat) (f : Nat → ZMod 2) :
    ((List.range' i (n - i)).map f).sum = ∑ j in Finset.range n, if i ≤ j then f j else 0 := by
  induction n with
  | zero => simp
  | succ n ih =>
    rw [Finset.sum_range_succ, ← ih]
    by_cases h : i ≤ n
    · have : n + 1 - i = (n - i) + 1 := by omega
      rw [this, List.range'_1_concat, List.map_append, List.sum_append, if_pos h]
      have : i + (n - i) = n := by omega
      simp [this]
    · have h1 : n + 1 - i = 0 := by omega
      have h2 : n - i = 0 := by omega
      rw [h1, h2, if_neg h]; simp

theorem sum_range_succ_ite (j n : Nat) (hj : j < n) (f : Nat → ZMod 2) :
    ∑ i in Finset.range (j + 1), f i = ∑ i in Finset.range n, if i ≤ j then f i else 0 := by
  rw [← Finset.sum_filter]
  congr 1
  ext i
  simp only [Finset.mem_range, Finset.mem_filter]
  omega

/-! ## The verifier computes the polynomial -/

/-- The polynomial with the quadratic part written over the full square of indices. -/
theorem gf2_poly_square (row : List Nat) (n T : Nat) (x : Nat → ZMod 2) :
    gf2_poly row n T x =
      (∑ j in Finset.range n, ∑ i in Finset.range n,
        if i ≤ j then (row.getD (cbinom2 j + i) 0 : ZMod 2) * x i * x j else 0)
      + (∑ i in Finset.range n, (row.getD (cbinom2 n + i) 0 : ZMod 2) * x i)
      + (row.getD (T - 1) 0 : ZMod 2) := by
  unfold gf2_poly
  congr 2
  apply Finset.sum_congr rfl
  intro j hj
  rw [sum_range_succ_ite j n (Finset.mem_range.mp hj)]
  rfl

theorem cast_ite_one {a : Nat} (h : a ≤ 1) : (if a = 1 then (1 : ZMod 2) else 0) = (a : ZMod 2) := by
  interval_cases a <;> simp

theorem eval_eq_cast (row sol : List Nat) (n T : Nat) (h01 : ∀ k, row.getD k 0 ≤ 1) :
    ((eval_eq row sol n T : Nat) : ZMod 2) = gf2_eval row n T sol := by
  unfold eval_eq gf2_eval
  rw [gf2_poly_square]
  simp only
  rw [cast_xor]
  congr 1
  rw [foldl_cast_sum _ (fun v => (row.getD (cbinom2 n + v) 0 : ZMod 2) * point_of sol v)
    (fun r k => by rw [cast_xor, cast_and]; unfold point_of deg2midx1; ring)]
  rw [list_range_map_sum]
  congr 1
  rw [foldl_cast_sum _ (fun i => ∑ j in Finset.range n,
      if i ≤ j then (row.getD (cbinom2 j + i) 0 : ZMod 2) * point_of sol i * point_of sol j else 0)]
  · rw [list_range_map_sum, Nat.cast_zero, zero_add, Finset.sum_comm]
  · intro r i
    rw [foldl_cast_sum _ (fun j => (row.getD (deg2midx2 i j) 0 : ZMod 2)
        * point_of sol i * point_of sol j)]
    · rw [list_range'_map_sum]
      congr 1
      apply Finset.sum_congr rfl
      intro j _
      by_cases hij : i ≤ j
      · rw [if_pos hij, if_pos hij, deg2midx2_of_le hij]
      · rw [if_neg hij, if_neg hij]
    · intro r j
      have hc := cast_ite_one (h01 (deg2midx2 i j))
      by_cases h1 : row.getD (deg2midx2 i j) 0 = 1
      · rw [if_pos h1, cast_xor, cast_and, h1]; unfold point_of; simp
      · rw [if_neg h1]
        rw [if_neg h1] at hc
        rw [← hc]; simp

theorem eval_eq_le_one (row sol : List Nat) (n T : Nat) (h01 : ∀ k, row.getD k 0 ≤ 1)
    (hs : ∀ k, sol.getD k 0 ≤ 1) : eval_eq row sol n T ≤ 1 := by
  unfold eval_eq
  simp only
  apply xor_le_one _ (h01 _)
  apply foldl_le_one
  · intro r k _ hr
    exact xor_le_one hr (and_le_one (hs k))
  · apply foldl_le_one
    · intro r i _ hr
      apply foldl_le_one _ _ _ _ hr
      intro r j _ hr
      split
      · exact xor_le_one hr (and_le_one (hs i))
      · exact hr
    · exact Nat.zero_le 1

/-- For 0/1 data, the verifier's test `res == 1` fails exactly when the polynomial vanishes. -/
theorem eval_eq_ne_one_iff (row sol : List Nat) (n T : Nat) (h01 : ∀ k, row.getD k 0 ≤ 1)
    (hs : ∀ k, sol.getD k 0 ≤ 1) :
    eval_eq row sol n T ≠ 1 ↔ gf2_eval row n T sol = 0 := by
  have hle := eval_eq_le_one row sol n T h01 hs
  rw [← eval_eq_cast row sol n T h01, cast_eq_zero_of_le_one hle]
  omega

theorem verify_sols_eq_true_iff (sys : List (List Nat)) (sol : List Nat) (n m T : Nat) :
    verify_sols sys sol n m T = true ↔
      ∀ e, e < m → eval_eq (sys.getD e []) sol n T ≠ 1 := by
  unfold verify_sols
  simp [List.all_eq_true]

/-! ## Consequences of well-formedness -/

theorem getD_le_one {row : List Nat} (h : ∀ c ∈ row, c ≤ 1) (k : Nat) : row.getD k 0 ≤ 1 := by
  by_cases hk : k < row.length
  · rw [List.getD_eq_getElem _ _ hk]; exact h _ (List.getElem_mem _)
  · rw [List.getD_eq_default _ _ (Nat.le_of_not_lt hk)]; exact Nat.zero_le 1

theorem sys_getD_mem {sys : List (List Nat)} {e : Nat} (he : e < sys.length) :
    sys.getD e [] ∈ sys := by
  rw [List.getD_eq_getElem _ _ he]; exact List.getElem_mem _

theorem Coeffs01.row {sys : List (List Nat)} (h : Coeffs01 sys) (e k : Nat) :
    (sys.getD e []).getD k 0 ≤ 1 := by
  by_cases he : e < sys.length
  · exact getD_le_one (h _ (sys_getD_mem he)) k
  · rw [List.getD_eq_default _ _ (Nat.le_of_not_lt he)]; simp

theorem Bits01.getD_le {x : List Nat} (h : Bits01 x) (k : Nat) : x.getD k 0 ≤ 1 :=
  getD_le_one h k

theorem Shape.row_length {sys : List (List Nat)} {n m T : Nat} (h : Shape sys n m T)
    {e : Nat} (he : e < m) : (sys.getD e []).length = cbinom2 n + n + 1 := by
  obtain ⟨h1, h2, h3⟩ := h
  rw [h3 _ (sys_getD_mem (by omega)), h2]; rfl

theorem Shape.T_eq {sys : List (List Nat)} {n m T : Nat} (h : Shape sys n m T) :
    T = cbinom2 n + n + 1 := h.2.1

theorem SquareFree.row_sq {sys : List (List Nat)} {n : Nat} (h : SquareFree sys n) {e : Nat}
    (he : e < sys.length) {v : Nat} (hv : v < n) :
    (sys.getD e []).getD (cbinom2 v + v) 0 = 0 :=
  h _ (sys_getD_mem he) v hv

/-! ## `reduce_sys` preserves the polynomials -/

/-- The slot `cbinom2 j + i` with `i ≤ j` is a square slot only for `i = j`. -/
theorem slot_eq_sq {i j v : Nat} (hij : i ≤ j) (h : cbinom2 j + i = cbinom2 v + v) :
    v = j ∧ i = j := by
  rcases Nat.lt_trichotomy j v with hlt | heq | hgt
  · have := cbinom2_lt hlt; omega
  · subst heq; exact ⟨rfl, by omega⟩
  · have := cbinom2_lt hgt; omega

theorem reduce_row_le_one (n : Nat) (row : List Nat) (hlen : row.length = cbinom2 n + n + 1)
    (h01 : ∀ k, row.getD k 0 ≤ 1) (k : Nat) :
    (reduce_row n (cbinom2 n + n + 1) row).getD k 0 ≤ 1 := by
  rw [reduce_row_getD n row hlen]
  split
  · exact Nat.zero_le 1
  · split
    · exact xor_le_one (h01 _) (h01 _)
    · exact h01 _

theorem zmod2_mul_self (a : ZMod 2) : a * a = a := by
  revert a; decide

theorem reduce_row_gf2_poly (n : Nat) (row : List Nat) (hlen : row.length = cbinom2 n + n + 1)
    (x : Nat → ZMod 2) :
    gf2_poly (reduce_row n (cbinom2 n + n + 1) row) n (cbinom2 n + n + 1) x
      = gf2_poly row n (cbinom2 n + n + 1) x := by
  rw [gf2_poly_square, gf2_poly_square]
  have hconst : (reduce_row n (cbinom2 n + n + 1) row).getD (cbinom2 n + n + 1 - 1) 0
      = row.getD (cbinom2 n + n + 1 - 1) 0 := by
    rw [reduce_row_getD n row hlen]
    rw [if_neg (by rintro ⟨v, hv, he⟩; have := cbinom2_lt hv; omega), if_neg (by omega)]
  rw [hconst]
  congr 1
  rw [← Finset.sum_add_distrib, ← Finset.sum_add_distrib]
  apply Finset.sum_congr rfl
  intro j hj
  have hjn : j < n := Finset.mem_range.mp hj
  -- the linear slot of `x_j`
  have hlin : (reduce_row n (cbinom2 n + n + 1) row).getD (cbinom2 n + j) 0
      = row.getD (cbinom2 n + j) 0 ^^^ row.getD (cbinom2 j + j) 0 := by
    rw [reduce_row_getD n row hlen]
    rw [if_neg (by rintro ⟨v, hv, he⟩; have := cbinom2_lt hv; omega), if_pos (by omega)]
    have : cbinom2 n + j - cbinom2 n = j := by omega
    rw [this]
  rw [hlin, cast_xor]
  -- the quadratic slots of column `j`
  have hquad : ∀ i ∈ Finset.range n,
      (if i ≤ j then ((reduce_row n (cbinom2 n + n + 1) row).getD (cbinom2 j + i) 0 : ZMod 2)
        * x i * x j else 0)
      = (if i ≤ j then (row.getD (cbinom2 j + i) 0 : ZMod 2) * x i * x j else 0)
        + (if i = j then (row.getD (cbinom2 j + j) 0 : ZMod 2) * x j * x j else 0) := by
    intro i _
    by_cases hij : i ≤ j
    · rw [if_pos hij, if_pos hij, reduce_row_getD n row hlen]
      by_cases he : i = j
      · subst he
        rw [if_pos ⟨i, hjn, rfl⟩, if_pos rfl, zmod2_add_self]; simp
      · rw [if_neg (by rintro ⟨v, _, hv⟩; exact he (slot_eq_sq hij hv).2), if_neg he]
        have := cbinom2_lt hjn
        rw [if_neg (by omega), add_zero]
    · rw [if_neg hij, if_neg hij, if_neg (by omega), add_zero]
  rw [Finset.sum_congr rfl hquad, Finset.sum_add_distrib, Finset.sum_ite_eq' (Finset.range n) j,
    if_pos hj]
  have h1 := zmod2_mul_self (x j)
  have h2 := zmod2_add_self ((row.getD (cbinom2 j + j) 0 : ZMod 2) * x j)
  linear_combination ((row.getD (cbinom2 j + j) 0 : ZMod 2)) * h1 + h2

theorem cast_inj_of_le_one {a b : Nat} (ha : a ≤ 1) (hb : b ≤ 1)
    (h : (a : ZMod 2) = (b : ZMod 2)) : a = b := by
  interval_cases a <;> interval_cases b <;> simp_all

theorem reduce_row_eval_eq (n : Nat) (row x : List Nat) (hlen : row.length = cbinom2 n + n + 1)
    (h01 : ∀ k, row.getD k 0 ≤ 1) (hx : ∀ k, x.getD k 0 ≤ 1) :
    eval_eq (reduce_row n (cbinom2 n + n + 1) row) x n (cbinom2 n + n + 1)
      = eval_eq row x n (cbinom2 n + n + 1) := by
  have hr := reduce_row_le_one n row hlen h01
  apply cast_inj_of_le_one (eval_eq_le_one _ _ _ _ hr hx) (eval_eq_le_one _ _ _ _ h01 hx)
  rw [eval_eq_cast _ _ _ _ hr, eval_eq_cast _ _ _ _ h01]
  exact reduce_row_gf2_poly n row hlen _

/-! ## `diff_eq` -/

theorem toBool_le_one (a : Nat) : toBool a ≤ 1 := by
  unfold toBool; split <;> omega

theorem toBool_of_le_one {a : Nat} (h : a ≤ 1) : toBool a = a := by
  unfold toBool; interval_cases a <;> simp

theorem diff_inner_upto (func : List Nat) (I cursor : Nat) (result : List Nat)
    (hI : I ≤ result.length) (t : Nat) (ht : t ≤ I) :
    ((List.range' 1 t).foldl
      (fun res j => res.set (I - j) (toBool (res.getD (I - j) 0 ^^^ func.getD (cursor - j) 0)))
      result).length = result.length ∧
    ∀ k, ((List.range' 1 t).foldl
      (fun res j => res.set (I - j) (toBool (res.getD (I - j) 0 ^^^ func.getD (cursor - j) 0)))
      result).getD k 0 =
        if I - t ≤ k ∧ k < I then toBool (result.getD k 0 ^^^ func.getD (cursor - (I - k)) 0)
        else result.getD k 0 := by
  induction t with
  | zero =>
    refine ⟨by simp, fun k => ?_⟩
    simp only [List.range'_zero, List.foldl_nil]
    rw [if_neg (by omega)]
  | succ t ih =>
    obtain ⟨ihl, ihg⟩ := ih (by omega)
    rw [List.range'_1_concat, List.foldl_append]
    simp only [List.foldl_cons, List.foldl_nil]
    refine ⟨by rw [List.length_set, ihl], fun k => ?_⟩
    rw [getD_set_nat, ihl, ihg, ihg]
    by_cases hk : I - (1 + t) = k
    · subst hk
      rw [if_pos ⟨rfl, by omega⟩, if_neg (by omega), if_pos (by omega)]
      have : I - (I - (1 + t)) = 1 + t := by omega
      rw [this]
    · rw [if_neg (by omega)]
      by_cases hk2 : I - t ≤ k ∧ k < I
      · rw [if_pos hk2, if_pos (by omega)]
      · rw [if_neg hk2, if_neg (by omega)]

theorem diff_inner_getD (func : List Nat) (I cursor : Nat) (result : List Nat)
    (hI : I ≤ result.length) :
    (diff_inner func I cursor result).length = result.length ∧
    ∀ k, (diff_inner func I cursor result).getD k 0 =
        if k < I then toBool (result.getD k 0 ^^^ func.getD (cursor - (I - k)) 0)
        else result.getD k 0 := by
  obtain ⟨h1, h2⟩ := diff_inner_upto func I cursor result hI I (le_refl I)
  refine ⟨h1, fun k => ?_⟩
  unfold diff_inner
  rw [h2]
  by_cases hk : k < I
  · rw [if_pos hk, if_pos (by omega)]
  · rw [if_neg hk, if_neg (by omega)]

theorem diff_loop_getD (func : List Nat) (idx : Nat) (I : Nat) :
    ∀ (result : List Nat), I < result.length →
    (diff_loop func idx (if 0 = idx then 1 else idx) I (cbinom2 I + I) result).length
        = result.length ∧
    ∀ k, (diff_loop func idx (if 0 = idx then 1 else idx) I (cbinom2 I + I) result).getD k 0 =
      if k ≤ I ∧ k ≠ idx ∧ idx ≤ I then
        toBool (result.getD k 0 ^^^ func.getD (cbinom2 (max k idx) + min k idx) 0)
      else result.getD k 0 := by
  induction I with
  | zero =>
    intro result _
    have hc : ∀ k, ¬ (k ≤ 0 ∧ k ≠ idx ∧ idx ≤ 0) := fun k => by omega
    refine ⟨by rw [diff_loop], fun k => ?_⟩
    rw [diff_loop, if_neg (hc k)]
  | succ i ih =>
    intro result hlen
    have hcur : cbinom2 (i + 1) + (i + 1) - (i + 1 + 1) = cbinom2 i + i := by
      rw [cbinom2_succ]; omega
    unfold diff_loop
    by_cases hb : i + 1 ≥ (if 0 = idx then 1 else idx)
    · rw [if_pos hb, hcur]
      have hidx : idx ≤ i + 1 := by
        split at hb <;> omega
      by_cases he : i + 1 = idx
      · -- the row of `x_idx` itself: the inner loop, after which the loop is left
        have hbody : diff_body func idx (i + 1) (cbinom2 (i + 1) + (i + 1)) result
            = diff_inner func (i + 1) (cbinom2 (i + 1) + (i + 1)) result := by
          unfold diff_body; rw [if_pos he]
        rw [hbody]
        obtain ⟨hl, hg⟩ := diff_inner_getD func (i + 1) (cbinom2 (i + 1) + (i + 1)) result
          (le_of_lt hlen)
        obtain ⟨ihl, ihg⟩ := ih _ (by rw [hl]; omega)
        refine ⟨by rw [ihl, hl], fun k => ?_⟩
        have hc0 : ¬ (k ≤ i ∧ k ≠ idx ∧ idx ≤ i) := by omega
        rw [ihg, if_neg hc0, hg]
        by_cases hk : k < i + 1
        · have hc1 : k ≤ i + 1 ∧ k ≠ idx ∧ idx ≤ i + 1 := by omega
          rw [if_pos hk, if_pos hc1]
          have h1 : max k idx = i + 1 := by omega
          have h2 : min k idx = k := by omega
          have h3 : cbinom2 (i + 1) + (i + 1) - (i + 1 - k) = cbinom2 (i + 1) + k := by omega
          rw [h1, h2, h3]
        · have hc1 : ¬ (k ≤ i + 1 ∧ k ≠ idx ∧ idx ≤ i + 1) := by omega
          rw [if_neg hk, if_neg hc1]
      · have hbody : diff_body func idx (i + 1) (cbinom2 (i + 1) + (i + 1)) result
            = result.set (i + 1) (toBool (result.getD (i + 1) 0 ^^^
                func.getD (cbinom2 (i + 1) + (i + 1) - (i + 1 - idx)) 0)) := by
          unfold diff_body; rw [if_neg he]
        rw [hbody]
        obtain ⟨ihl, ihg⟩ := ih (result.set (i + 1) (toBool (result.getD (i + 1) 0 ^^^
                func.getD (cbinom2 (i + 1) + (i + 1) - (i + 1 - idx)) 0)))
          (by rw [List.length_set]; omega)
        refine ⟨by rw [ihl, List.length_set], fun k => ?_⟩
        rw [ihg, getD_set_nat]
        by_cases hk : i + 1 = k
        · subst hk
          have hc0 : ¬ (i + 1 ≤ i ∧ i + 1 ≠ idx ∧ idx ≤ i) := by omega
          rw [if_neg hc0, if_pos ⟨rfl, hlen⟩, if_pos ⟨le_refl _, he, hidx⟩]
          have h1 : max (i + 1) idx = i + 1 := by omega
          have h2 : min (i + 1) idx = idx := by omega
          have h3 : cbinom2 (i + 1) + (i + 1) - (i + 1 - idx) = cbinom2 (i + 1) + idx := by omega
          rw [h1, h2, h3]
        · have hc1 : ¬ (i + 1 = k ∧ i + 1 < result.length) := fun h => hk h.1
          rw [if_neg hc1]
          by_cases hk2 : k ≤ i ∧ k ≠ idx ∧ idx ≤ i
          · have hc2 : k ≤ i + 1 ∧ k ≠ idx ∧ idx ≤ i + 1 := by omega
            rw [if_pos hk2, if_pos hc2]
          · have hc2 : ¬ (k ≤ i + 1 ∧ k ≠ idx ∧ idx ≤ i + 1) := by omega
            rw [if_neg hk2, if_neg hc2]
    · rw [if_neg hb]
      refine ⟨rfl, fun k => ?_⟩
      have : ¬ idx ≤ i + 1 := by
        split at hb <;> omega
      have hc : ¬ (k ≤ i + 1 ∧ k ≠ idx ∧ idx ≤ i + 1) := fun h => this h.2.2
      rw [if_neg hc]

theorem xor_zero_left (a : Nat) : 0 ^^^ a = a := by simp

/-- The entries of the `diff_eq` result, for a row of length `n(n+1)/2 + n + 1`. -/
theorem diff_eq_getD (func : List Nat) (n idx : Nat) (hidx : idx < n) :
    (diff_eq func (cbinom2 n + n + 1) n idx).length = n + 1 ∧
    ∀ k, (diff_eq func (cbinom2 n + n + 1) n idx).getD k 0 =
      if k = n then toBool (func.getD (cbinom2 n + idx) 0)
      else if k < n ∧ k ≠ idx then toBool (func.getD (cbinom2 (max k idx) + min k idx) 0)
      else 0 := by
  obtain ⟨p, rfl⟩ : ∃ p, n = p + 1 := ⟨n - 1, by omega⟩
  unfold diff_eq
  simp only
  have h1 : cbinom2 (p + 1) + (p + 1) + 1 - 1 - (p + 1 - idx) = cbinom2 (p + 1) + idx := by omega
  have h2 : cbinom2 (p + 1) + (p + 1) + 1 - 1 - (p + 1) - 1 = cbinom2 p + p := by
    rw [cbinom2_succ]; omega
  have h3 : p + 1 - 1 = p := rfl
  rw [h1, h2, h3]
  obtain ⟨hl, hg⟩ := diff_loop_getD func idx p
    ((List.replicate (p + 1 + 1) 0).set (p + 1) (toBool (func.getD (cbinom2 (p + 1) + idx) 0)))
    (by rw [List.length_set, List.length_replicate]; omega)
  refine ⟨by rw [hl, List.length_set, List.length_replicate], fun k => ?_⟩
  rw [hg, getD_set_nat, List.length_replicate]
  have hrep : (List.replicate (p + 1 + 1) 0).getD k 0 = 0 := by
    by_cases hk : k < p + 1 + 1
    · rw [List.getD_eq_getElem _ _ (by rw [List.length_replicate]; exact hk)]; simp
    · rw [List.getD_eq_default _ _ (by rw [List.length_replicate]; omega)]
  by_cases hk : k = p + 1
  · subst hk
    have hc0 : ¬ (p + 1 ≤ p ∧ p + 1 ≠ idx ∧ idx ≤ p) := by omega
    have hc1 : p + 1 = p + 1 ∧ p + 1 < p + 1 + 1 := ⟨rfl, by omega⟩
    rw [if_neg hc0, if_pos hc1, if_pos rfl]
  · have hc1 : ¬ (p + 1 = k ∧ p + 1 < p + 1 + 1) := fun h => hk h.1.symm
    rw [if_neg hc1, if_neg hk, hrep, xor_zero_left]
    by_cases hk2 : k < p + 1 ∧ k ≠ idx
    · have hc2 : k ≤ p ∧ k ≠ idx ∧ idx ≤ p := by omega
      rw [if_pos hk2, if_pos hc2]
    · have hc2 : ¬ (k ≤ p ∧ k ≠ idx ∧ idx ≤ p) := by omega
      rw [if_neg hk2, if_neg hc2]

/-! ## The finite difference law -/

theorem gf2_poly_upper (row : List Nat) (n T : Nat) (x : Nat → ZMod 2) :
    gf2_poly row n T x =
      (∑ j in Finset.range n, ∑ i in Finset.range n, upper row i j * x i * x j)
      + (∑ i in Finset.range n, (row.getD (cbinom2 n + i) 0 : ZMod 2) * x i)
      + (row.getD (T - 1) 0 : ZMod 2) := by
  rw [gf2_poly_square]
  congr 2
  apply Finset.sum_congr rfl; intro j _
  apply Finset.sum_congr rfl; intro i _
  unfold upper
  split <;> simp

theorem sum_delta (n v : Nat) (hv : v < n) (f : Nat → ZMod 2) :
    ∑ i in Finset.range n, f i * (if i = v then 1 else 0) = f v := by
  simp only [mul_ite, mul_one, mul_zero]
  rw [Finset.sum_ite_eq' (Finset.range n) v, if_pos (Finset.mem_range.mpr hv)]

/-- Flipping `x_v` changes the quadratic form by the symmetric row of `v` plus the square
coefficient of `x_v`. -/
theorem quad_flip (U : Nat → Nat → ZMod 2) (n v : Nat) (hv : v < n) (x : Nat → ZMod 2) :
    ∑ j in Finset.range n, ∑ i in Finset.range n,
        U i j * (x i + if i = v then 1 else 0) * (x j + if j = v then 1 else 0)
      = (∑ j in Finset.range n, ∑ i in Finset.range n, U i j * x i * x j)
        + (∑ k in Finset.range n, (U v k + U k v) * x k) + U v v := by
  have h1 : ∀ j ∈ Finset.range n, ∀ i ∈ Finset.range n,
      U i j * (x i + if i = v then 1 else 0) * (x j + if j = v then 1 else 0)
        = U i j * x i * x j + (U i j * x j) * (if i = v then 1 else 0)
          + (U i j * x i) * (if j = v then 1 else 0)
          + (U i j * (if j = v then 1 else 0)) * (if i = v then 1 else 0) := by
    intro j _ i _; ring
  rw [Finset.sum_congr rfl (fun j hj => Finset.sum_congr rfl (h1 j hj))]
  simp only [Finset.sum_add_distrib]
  have e1 : ∑ j in Finset.range n, ∑ i in Finset.range n,
      (U i j * x j) * (if i = v then (1 : ZMod 2) else 0) = ∑ k in Finset.range n, U v k * x k := by
    apply Finset.sum_congr rfl; intro j _
    exact sum_delta n v hv (fun i => U i j * x j)
  have e2 : ∑ j in Finset.range n, ∑ i in Finset.range n,
      (U i j * x i) * (if j = v then (1 : ZMod 2) else 0) = ∑ k in Finset.range n, U k v * x k := by
    have : ∀ j ∈ Finset.range n, ∑ i in Finset.range n,
        (U i j * x i) * (if j = v then (1 : ZMod 2) else 0)
        = (∑ i in Finset.range n, U i j * x i) * (if j = v then (1 : ZMod 2) else 0) := by
      intro j _; rw [Finset.sum_mul]
    rw [Finset.sum_congr rfl this]
    exact sum_delta n v hv (fun j => ∑ i in Finset.range n, U i j * x i)
  have e3 : ∑ j in Finset.range n, ∑ i in Finset.range n,
      (U i j * (if j = v then (1 : ZMod 2) else 0)) * (if i = v then (1 : ZMod 2) else 0)
        = U v v := by
    have : ∀ j ∈ Finset.range n, ∑ i in Finset.range n,
        (U i j * (if j = v then (1 : ZMod 2) else 0)) * (if i = v then (1 : ZMod 2) else 0)
        = U v j * (if j = v then (1 : ZMod 2) else 0) := by
      intro j _
      exact sum_delta n v hv (fun i => U i j * (if j = v then (1 : ZMod 2) else 0))
    rw [Finset.sum_congr rfl this]
    exact sum_delta n v hv (fun j => U v j)
  rw [e1, e2, e3]
  simp only [add_mul, Finset.sum_add_distrib]
  ring

/-- The entry `k` of the derivative with respect to `x_v` is the symmetric coefficient. -/
theorem diff_eq_upper (row : List Nat) (n v : Nat) (hv : v < n) (h01 : ∀ k, row.getD k 0 ≤ 1)
    (k : Nat) (hk : k < n) :
    ((diff_eq row (cbinom2 n + n + 1) n v).getD k 0 : ZMod 2) = upper row v k + upper row k v := by
  rw [(diff_eq_getD row n v hv).2 k]
  have hc0 : ¬ k = n := by omega
  rw [if_neg hc0]
  unfold upper
  rcases Nat.lt_trichotomy k v with h | h | h
  · have hc1 : k < n ∧ k ≠ v := by omega
    have h1 : max k v = v := by omega
    have h2 : min k v = k := by omega
    have hc2 : ¬ v ≤ k := by omega
    have hc3 : k ≤ v := by omega
    rw [if_pos hc1, toBool_of_le_one (h01 _), h1, h2, if_neg hc2, if_pos hc3, zero_add]
  · subst h
    have hc1 : ¬ (k < n ∧ k ≠ k) := fun h => h.2 rfl
    rw [if_neg hc1, if_pos (le_refl k), zmod2_add_self]; simp
  · have hc1 : k < n ∧ k ≠ v := by omega
    have h1 : max k v = k := by omega
    have h2 : min k v = v := by omega
    have hc2 : v ≤ k := by omega
    have hc3 : ¬ k ≤ v := by omega
    rw [if_pos hc1, toBool_of_le_one (h01 _), h1, h2, if_pos hc2, if_neg hc3, add_zero]

theorem diff_eq_const (row : List Nat) (n v : Nat) (hv : v < n) (h01 : ∀ k, row.getD k 0 ≤ 1) :
    (diff_eq row (cbinom2 n + n + 1) n v).getD n 0 = row.getD (cbinom2 n + v) 0 := by
  rw [(diff_eq_getD row n v hv).2 n, if_pos rfl, toBool_of_le_one (h01 _)]

/-- The derivative polynomial in terms of the coefficients of the row. -/
theorem affine_poly_diff_eq (row : List Nat) (n v : Nat) (hv : v < n)
    (h01 : ∀ k, row.getD k 0 ≤ 1) (x : Nat → ZMod 2) :
    affine_poly (diff_eq row (cbinom2 n + n + 1) n v) n x
      = (row.getD (cbinom2 n + v) 0 : ZMod 2)
        + ∑ k in Finset.range n, (upper row v k + upper row k v) * x k := by
  unfold affine_poly
  rw [diff_eq_const row n v hv h01]
  congr 1
  apply Finset.sum_congr rfl
  intro k hk
  rw [diff_eq_upper row n v hv h01 k (Finset.mem_range.mp hk)]

/-- Finite difference law over GF(2): flipping `x_v` changes the value of a polynomial
without the square term of `x_v` by its derivative with respect to `x_v`. -/
theorem gf2_poly_flip (row : List Nat) (n v : Nat) (hv : v < n) (h01 : ∀ k, row.getD k 0 ≤ 1)
    (hsq : row.getD (cbinom2 v + v) 0 = 0) (x x' : Nat → ZMod 2)
    (hx' : ∀ i, x' i = x i + if i = v then 1 else 0) :
    gf2_poly row n (cbinom2 n + n + 1) x'
      = gf2_poly row n (cbinom2 n + n + 1) x
        + affine_poly (diff_eq row (cbinom2 n + n + 1) n v) n x := by
  rw [gf2_poly_upper, gf2_poly_upper, affine_poly_diff_eq row n v hv h01]
  have hq := quad_flip (upper row) n v hv x
  have hvv : upper row v v = 0 := by
    unfold upper; rw [if_pos (le_refl v), hsq]; simp
  have hl : ∑ i in Finset.range n, (row.getD (cbinom2 n + i) 0 : ZMod 2) * x' i
      = (∑ i in Finset.range n, (row.getD (cbinom2 n + i) 0 : ZMod 2) * x i)
        + (row.getD (cbinom2 n + v) 0 : ZMod 2) := by
    have : ∀ i ∈ Finset.range n, (row.getD (cbinom2 n + i) 0 : ZMod 2) * x' i
        = (row.getD (cbinom2 n + i) 0 : ZMod 2) * x i
          + (row.getD (cbinom2 n + i) 0 : ZMod 2) * (if i = v then 1 else 0) := by
      intro i _; rw [hx' i]; ring
    rw [Finset.sum_congr rfl this, Finset.sum_add_distrib,
      sum_delta n v hv (fun i => (row.getD (cbinom2 n + i) 0 : ZMod 2))]
  have hq' : ∑ j in Finset.range n, ∑ i in Finset.range n, upper row i j * x' i * x' j
      = (∑ j in Finset.range n, ∑ i in Finset.range n, upper row i j * x i * x j)
        + (∑ k in Finset.range n, (upper row v k + upper row k v) * x k) + upper row v v := by
    rw [← hq]
    apply Finset.sum_congr rfl; intro j _
    apply Finset.sum_congr rfl; intro i _
    rw [hx' i, hx' j]
  rw [hq', hl, hvv]
  ring

/-! ## Packed words -/

theorem testBit_le_one {t : Nat} (h : t ≤ 1) (j : Nat) :
    t.testBit j = (decide (j = 0) && decide (t = 1)) := by
  interval_cases t
  · simp
  · rcases j with _ | j
    · simp
    · simp [Nat.testBit_succ]

theorem testBit_term_shift {t : Nat} (h : t ≤ 1) (e : Nat) (he : e < 64) (j : Nat) :
    ((t <<< e) % 2 ^ 64).testBit j = (decide (j = e) && decide (t = 1)) := by
  rw [Nat.testBit_mod_two_pow, Nat.testBit_shiftLeft, testBit_le_one h]
  by_cases hje : j = e
  · subst hje; simp [he]
  · by_cases hlt : j < 64
    · by_cases hge : j ≥ e
      · have : ¬ (j - e = 0) := by omega
        simp [hje, this]
      · simp [hje, hge]
    · simp [hje, hlt]

theorem pack_bits_succ (t : Nat → Nat) (m init : Nat) :
    pack_bits t (m + 1) init = pack_bits t m init ||| (t m <<< m) % 2 ^ 64 := by
  unfold pack_bits
  rw [List.range_succ, List.foldl_append]
  rfl

theorem pack_bits_testBit (t : Nat → Nat) (m : Nat) (hm : m ≤ 64) (ht : ∀ e, e < m → t e ≤ 1)
    (init j : Nat) :
    (pack_bits t m init).testBit j = (init.testBit j || (decide (j < m) && decide (t j = 1))) := by
  induction m with
  | zero => simp [pack_bits]
  | succ m ih =>
    rw [pack_bits_succ, Nat.testBit_or, ih (by omega) (fun e he => ht e (by omega)),
      testBit_term_shift (ht m (by omega)) m (by omega)]
    by_cases hjm : j = m
    · subst hjm; simp
    · by_cases hlt : j < m
      · have : j < m + 1 := by omega
        simp [hjm, hlt, this]
      · have : ¬ j < m + 1 := by omega
        simp [hjm, hlt, this]

theorem init_func_eval_eq (mqs : List (List Nat)) (m T : Nat) :
    init_func_eval mqs m T = pack_bits (fun e => (mqs.getD e []).getD (T - 1) 0) m 0 := rfl

/-! ## One-dimensional packing (`pdiff_eval`) -/

theorem pack_cell_list (t : Nat → Nat) (v : Nat) (m : Nat) (l : List Nat) (hv : v < l.length) :
    ((List.range m).foldl
      (fun pe e => pe.set v (pe.getD v 0 ||| (t e <<< e) % 2 ^ 64)) l).length = l.length ∧
    ∀ k, ((List.range m).foldl
      (fun pe e => pe.set v (pe.getD v 0 ||| (t e <<< e) % 2 ^ 64)) l).getD k 0
      = if k = v then pack_bits t m (l.getD v 0) else l.getD k 0 := by
  induction m with
  | zero =>
    refine ⟨rfl, fun k => ?_⟩
    by_cases hk : k = v
    · subst hk; simp [pack_bits]
    · simp [hk]
  | succ m ih =>
    obtain ⟨ihl, ihg⟩ := ih
    rw [List.range_succ, List.foldl_append]
    simp only [List.foldl_cons, List.foldl_nil]
    refine ⟨by rw [List.length_set, ihl], fun k => ?_⟩
    rw [getD_set_nat, ihl, ihg v, if_pos rfl, pack_bits_succ]
    by_cases hk : k = v
    · subst hk
      rw [if_pos ⟨rfl, hv⟩, if_pos rfl]
    · have hc : ¬ (v = k ∧ v < l.length) := fun h => hk h.1.symm
      rw [if_neg hc, ihg k, if_neg hk, if_neg hk]

theorem init_pdiff_eval_upto (mqs : List (List Nat)) (derivs : List (List (List Nat)))
    (n m j : Nat) (hj : j ≤ n) :
    ((List.range j).foldl
      (fun pe var_idx =>
        (List.range m).foldl
          (fun pe eq_idx =>
            let term := pdiff_eval_term mqs derivs n eq_idx var_idx
            pe.set var_idx (pe.getD var_idx 0 ||| (term <<< eq_idx) % 2 ^ 64))
          pe)
      (List.replicate n 0)).length = n ∧
    ∀ k, ((List.range j).foldl
      (fun pe var_idx =>
        (List.range m).foldl
          (fun pe eq_idx =>
            let term := pdiff_eval_term mqs derivs n eq_idx var_idx
            pe.set var_idx (pe.getD var_idx 0 ||| (term <<< eq_idx) % 2 ^ 64))
          pe)
      (List.replicate n 0)).getD k 0
      = if k < j then pack_bits (fun e => pdiff_eval_term mqs derivs n e k) m 0 else 0 := by
  induction j with
  | zero =>
    refine ⟨by simp, fun k => ?_⟩
    simp only [List.range_zero, List.foldl_nil]
    have hc : ¬ k < 0 := by omega
    rw [if_neg hc]
    by_cases hk : k < n
    · rw [List.getD_eq_getElem _ _ (by rw [List.length_replicate]; exact hk)]; simp
    · rw [List.getD_eq_default _ _ (by rw [List.length_replicate]; omega)]
  | succ j ih =>
    obtain ⟨ihl, ihg⟩ := ih (by omega)
    rw [List.range_succ, List.foldl_append]
    simp only [List.foldl_cons, List.foldl_nil]
    obtain ⟨hl, hg⟩ := pack_cell_list (fun e => pdiff_eval_term mqs derivs n e j) j m _
      (by rw [ihl]; omega)
    refine ⟨by rw [hl, ihl], fun k => ?_⟩
    rw [hg, ihg j, ihg k]
    have hc : ¬ j < j := by omega
    rw [if_neg hc]
    by_cases hk : k = j
    · subst hk
      have hc1 : k < k + 1 := by omega
      rw [if_pos rfl, if_pos hc1]
    · rw [if_neg hk]
      by_cases hlt : k < j
      · have hc1 : k < j + 1 := by omega
        rw [if_pos hlt, if_pos hc1]
      · have hc1 : ¬ k < j + 1 := by omega
        rw [if_neg hlt, if_neg hc1]

theorem init_pdiff_eval_getD (mqs : List (List Nat)) (derivs : List (List (List Nat)))
    (n m : Nat) :
    (init_pdiff_eval mqs derivs n m).length = n ∧
    ∀ k, k < n → (init_pdiff_eval mqs derivs n m).getD k 0
      = pack_bits (fun e => pdiff_eval_term mqs derivs n e k) m 0 := by
  obtain ⟨h1, h2⟩ := init_pdiff_eval_upto mqs derivs n m n (le_refl n)
  refine ⟨h1, fun k hk => ?_⟩
  unfold init_pdiff_eval
  rw [h2 k, if_pos hk]

/-! ## Two-dimensional packing (`pdiff2`) -/

theorem set2_length (p : List (List Nat)) (i j x : Nat) : (set2 p i j x).length = p.length := by
  unfold set2; rw [List.length_set]

theorem set2_row_length (p : List (List Nat)) (i j x k : Nat) :
    ((set2 p i j x).getD k []).length = (p.getD k []).length := by
  unfold set2
  rw [getD_set_row]
  split
  · next h => rw [List.length_set, h.1]
  · rfl

theorem Table.set2 {n : Nat} {p : List (List Nat)} (h : Table n p) (i j x : Nat) :
    Table n (set2 p i j x) :=
  ⟨by rw [set2_length]; exact h.1, fun k hk => by rw [set2_row_length]; exact h.2 k hk⟩

theorem get2_set2 {n : Nat} {p : List (List Nat)} (h : Table n p) (i j x i' j' : Nat)
    (hi : i < n) (hj : j < n) :
    get2 (set2 p i j x) i' j' = if i = i' ∧ j = j' then x else get2 p i' j' := by
  unfold get2 set2
  rw [getD_set_row]
  by_cases hii : i = i'
  · subst hii
    have hc : i = i ∧ i < p.length := ⟨rfl, by rw [h.1]; exact hi⟩
    rw [if_pos hc, getD_set_nat, h.2 i hi]
    by_cases hjj : j = j'
    · subst hjj
      rw [if_pos ⟨rfl, hj⟩, if_pos ⟨rfl, rfl⟩]
    · have hc1 : ¬ (j = j' ∧ j < n) := fun h => hjj h.1
      have hc2 : ¬ (i = i ∧ j = j') := fun h => hjj h.2
      rw [if_neg hc1, if_neg hc2]
  · have hc1 : ¬ (i = i' ∧ i < p.length) := fun h => hii h.1
    have hc2 : ¬ (i = i' ∧ j = j') := fun h => hii h.1
    rw [if_neg hc1, if_neg hc2]

theorem getD_replicate_nat (n a i d : Nat) :
    (List.replicate n a).getD i d = if i < n then a else d := by
  rw [List.getD_eq_getElem?_getD, List.getElem?_replicate]
  split <;> rfl

theorem getD_replicate_row (n : Nat) (a : List Nat) (i : Nat) :
    (List.replicate n a).getD i [] = if i < n then a else [] := by
  rw [List.getD_eq_getElem?_getD, List.getElem?_replicate]
  split <;> rfl

theorem replicate_table (n : Nat) : Table n (List.replicate n (List.replicate n 0)) := by
  refine ⟨List.length_replicate _ _, fun i hi => ?_⟩
  rw [getD_replicate_row, if_pos hi, List.length_replicate]

theorem get2_replicate (n i j : Nat) : get2 (List.replicate n (List.replicate n 0)) i j = 0 := by
  unfold get2
  rw [getD_replicate_row]
  split
  · rw [getD_replicate_nat]; split <;> rfl
  · rfl

/-- The `eq_idx` loop for one cell `(i, v)`. -/
theorem pack_cell_table (t : Nat → Nat) (n i v : Nat) (hi : i < n) (hv : v < n) (m : Nat)
    (p : List (List Nat)) (hp : Table n p) :
    Table n ((List.range m).foldl
      (fun p e => set2 p i v (get2 p i v ||| (t e <<< e) % 2 ^ 64)) p) ∧
    ∀ i' v', get2 ((List.range m).foldl
      (fun p e => set2 p i v (get2 p i v ||| (t e <<< e) % 2 ^ 64)) p) i' v'
      = if i = i' ∧ v = v' then pack_bits t m (get2 p i v) else get2 p i' v' := by
  induction m with
  | zero =>
    refine ⟨hp, fun i' v' => ?_⟩
    simp only [List.range_zero, List.foldl_nil]
    by_cases hc : i = i' ∧ v = v'
    · rw [if_pos hc, ← hc.1, ← hc.2]; simp [pack_bits]
    · rw [if_neg hc]
  | succ m ih =>
    obtain ⟨iht, ihg⟩ := ih
    rw [List.range_succ, List.foldl_append]
    simp only [List.foldl_cons, List.foldl_nil]
    refine ⟨iht.set2 _ _ _, fun i' v' => ?_⟩
    have e1 := ihg i v
    rw [if_pos ⟨rfl, rfl⟩] at e1
    rw [get2_set2 iht _ _ _ _ _ hi hv, e1, pack_bits_succ]
    by_cases hc : i = i' ∧ v = v'
    · rw [if_pos hc, if_pos hc]
    · rw [if_neg hc, ihg i' v', if_neg hc, if_neg hc]

/-- The `i` loop for one column `v`. -/
theorem pack_column_table (t : Nat → Nat → Nat) (n v : Nat) (hv : v < n) (m j : Nat)
    (hj : j ≤ n) (p : List (List Nat)) (hp : Table n p) :
    Table n ((List.range j).foldl
      (fun p i => (List.range m).foldl
        (fun p e => set2 p i v (get2 p i v ||| (t i e <<< e) % 2 ^ 64)) p) p) ∧
    ∀ i' v', get2 ((List.range j).foldl
      (fun p i => (List.range m).foldl
        (fun p e => set2 p i v (get2 p i v ||| (t i e <<< e) % 2 ^ 64)) p) p) i' v'
      = if i' < j ∧ v = v' then pack_bits (t i') m (get2 p i' v) else get2 p i' v' := by
  induction j with
  | zero =>
    refine ⟨hp, fun i' v' => ?_⟩
    simp only [List.range_zero, List.foldl_nil]
    have hc : ¬ (i' < 0 ∧ v = v') := fun h => Nat.not_lt_zero _ h.1
    rw [if_neg hc]
  | succ j ih =>
    obtain ⟨iht, ihg⟩ := ih (by omega)
    rw [List.range_succ, List.foldl_append]
    simp only [List.foldl_cons, List.foldl_nil]
    obtain ⟨ht, hg⟩ := pack_cell_table (t j) n j v (by omega) hv m _ iht
    refine ⟨ht, fun i' v' => ?_⟩
    have e1 := ihg j v
    have hc0 : ¬ (j < j ∧ v = v) := fun h => Nat.lt_irrefl _ h.1
    rw [if_neg hc0] at e1
    rw [hg, e1]
    by_cases hc : j = i' ∧ v = v'
    · obtain ⟨rfl, rfl⟩ := hc
      have hc1 : j < j + 1 ∧ v = v := ⟨Nat.lt_succ_self _, rfl⟩
      rw [if_pos ⟨rfl, rfl⟩, if_pos hc1]
    · rw [if_neg hc, ihg i' v']
      by_cases hc2 : i' < j ∧ v = v'
      · have hc3 : i' < j + 1 ∧ v = v' := ⟨by omega, hc2.2⟩
        rw [if_pos hc2, if_pos hc3]
      · have hc3 : ¬ (i' < j + 1 ∧ v = v') := by
          rintro ⟨h1, h2⟩
          rcases Nat.lt_succ_iff_lt_or_eq.mp h1 with h | h
          · exact hc2 ⟨h, h2⟩
          · exact hc ⟨h.symm, h2⟩
        rw [if_neg hc2, if_neg hc3]

theorem build_pdiff2_upto (derivs : List (List (List Nat))) (n m j : Nat) (hj : j ≤ n) :
    Table n ((List.range j).foldl
      (fun p var_idx =>
        (List.range n).foldl
          (fun p i =>
            (List.range m).foldl
              (fun p eq_idx =>
                let term := derivs_get derivs eq_idx var_idx i
                set2 p i var_idx (get2 p i var_idx ||| (term <<< eq_idx) % 2 ^ 64))
              p)
          p)
      (List.replicate n (List.replicate n 0))) ∧
    ∀ i' v', i' < n → get2 ((List.range j).foldl
      (fun p var_idx =>
        (List.range n).foldl
          (fun p i =>
            (List.range m).foldl
              (fun p eq_idx =>
                let term := derivs_get derivs eq_idx var_idx i
                set2 p i var_idx (get2 p i var_idx ||| (term <<< eq_idx) % 2 ^ 64))
              p)
          p)
      (List.replicate n (List.replicate n 0))) i' v'
      = if v' < j then pack_bits (fun e => derivs_get derivs e v' i') m 0 else 0 := by
  induction j with
  | zero =>
    refine ⟨replicate_table n, fun i' v' _ => ?_⟩
    simp only [List.range_zero, List.foldl_nil]
    have hc : ¬ v' < 0 := Nat.not_lt_zero _
    rw [if_neg hc, get2_replicate]
  | succ j ih =>
    obtain ⟨iht, ihg⟩ := ih (by omega)
    rw [List.range_succ, List.foldl_append]
    simp only [List.foldl_cons, List.foldl_nil]
    obtain ⟨ht, hg⟩ := pack_column_table (fun i e => derivs_get derivs e j i) n j (by omega) m n
      (le_refl n) _ iht
    refine ⟨ht, fun i' v' hi' => ?_⟩
    have e1 := ihg i' j hi'
    have hc0 : ¬ j < j := Nat.lt_irrefl _
    rw [if_neg hc0] at e1
    rw [hg, e1]
    by_cases hv : j = v'
    · subst hv
      have hc1 : j < j + 1 := Nat.lt_succ_self _
      rw [if_pos ⟨hi', rfl⟩, if_pos hc1]
    · have hc1 : ¬ (i' < n ∧ j = v') := fun h => hv h.2
      rw [if_neg hc1, ihg i' v' hi']
      by_cases hlt : v' < j
      · have hc2 : v' < j + 1 := by omega
        rw [if_pos hlt, if_pos hc2]
      · have hc2 : ¬ v' < j + 1 := by omega
        rw [if_neg hlt, if_neg hc2]

/-- Every cell of the packed second-order table: `pdiff2[i][v]` packs `derivs[e][v][i]`. -/
theorem build_pdiff2_get2 (derivs : List (List (List Nat))) (n m i v : Nat) (hi : i < n)
    (hv : v < n) :
    get2 (build_pdiff2 derivs n m) i v = pack_bits (fun e => derivs_get derivs e v i) m 0 := by
  have h := (build_pdiff2_upto derivs n m n (le_refl n)).2 i v hi
  rw [if_pos hv] at h
  exact h

theorem build_pdiff2_table (derivs : List (List (List Nat))) (n m : Nat) :
    Table n (build_pdiff2 derivs n m) :=
  (build_pdiff2_upto derivs n m n (le_refl n)).1

/-! ## Count of trailing zeros -/

theorem ctz_aux_pow_mul (fuel : Nat) : ∀ (t k : Nat), 2 ^ t * (2 * k + 1) < 2 ^ fuel →
    ctz_aux fuel (2 ^ t * (2 * k + 1)) = t := by
  induction fuel with
  | zero =>
    intro t k h
    have : 0 < 2 ^ t * (2 * k + 1) := Nat.mul_pos (Nat.two_pow_pos t) (by omega)
    omega
  | succ fuel ih =>
    intro t k h
    unfold ctz_aux
    rcases t with _ | t
    · have : (2 ^ 0 * (2 * k + 1)) % 2 = 1 := by omega
      rw [if_pos this]
    · have he : 2 ^ (t + 1) * (2 * k + 1) = 2 * (2 ^ t * (2 * k + 1)) := by
        rw [pow_succ]; ring
      have hmod : ¬ (2 ^ (t + 1) * (2 * k + 1)) % 2 = 1 := by rw [he]; omega
      have hdiv : 2 ^ (t + 1) * (2 * k + 1) / 2 = 2 ^ t * (2 * k + 1) := by rw [he]; omega
      rw [if_neg hmod, hdiv, ih t k (by rw [he, pow_succ] at h; omega)]
      omega

theorem ctzll_pow_mul (t k : Nat) (h : 2 ^ t * (2 * k + 1) < 2 ^ 64) :
    ctzll (2 ^ t * (2 * k + 1)) = t :=
  ctz_aux_pow_mul 64 t k h

/-- Every positive number is a power of two times an odd number. -/
theorem exists_pow_mul_odd (c : Nat) (hc : 0 < c) : ∃ t k, c = 2 ^ t * (2 * k + 1) := by
  induction c using Nat.strong_induction_on with
  | _ c ih =>
    rcases Nat.mod_two_eq_zero_or_one c with h | h
    · obtain ⟨t, k, hk⟩ := ih (c / 2) (by omega) (by omega)
      refine ⟨t + 1, k, ?_⟩
      have hc2 : c = 2 * (c / 2) := by omega
      rw [hc2, hk, pow_succ]; ring
    · exact ⟨0, c / 2, by omega⟩

theorem pow_le_of_pow_mul_odd_lt {t k n : Nat} (h : 2 ^ t * (2 * k + 1) < 2 ^ n) : t < n := by
  by_contra hn
  have h1 : 2 ^ n ≤ 2 ^ t := Nat.pow_le_pow_right (by decide) (by omega)
  have h2 : 2 ^ t ≤ 2 ^ t * (2 * k + 1) := Nat.le_mul_of_pos_right _ (by omega)
  omega

/-! ## Bits of `c` and `c - 1` -/

theorem pow_mul_odd_eq (t k : Nat) : 2 ^ t * (2 * k + 1) = 2 ^ (t + 1) * k + 2 ^ t := by
  rw [pow_succ]; ring

theorem pow_mul_odd_pred (t k : Nat) : 2 ^ t * (2 * k + 1) - 1 = 2 ^ (t + 1) * k + (2 ^ t - 1) := by
  have : 0 < 2 ^ t := Nat.two_pow_pos t
  rw [pow_mul_odd_eq]; omega

theorem testBit_pow_mul_odd (t k j : Nat) :
    (2 ^ t * (2 * k + 1)).testBit j =
      if j < t then false else if j = t then true else k.testBit (j - (t + 1)) := by
  rw [pow_mul_odd_eq, Nat.testBit_mul_pow_two_add _ (Nat.pow_lt_pow_right (by decide)
    (Nat.lt_succ_self t)), Nat.testBit_two_pow]
  by_cases h1 : j < t
  · have : j < t + 1 := by omega
    have h2 : ¬ t = j := by omega
    simp [h1, this, h2]
  · by_cases h2 : j = t
    · subst h2; simp
    · have : ¬ j < t + 1 := by omega
      simp [h1, h2, this]

theorem testBit_pow_mul_odd_pred (t k j : Nat) :
    (2 ^ t * (2 * k + 1) - 1).testBit j =
      if j < t then true else if j = t then false else k.testBit (j - (t + 1)) := by
  have hlt : 2 ^ t - 1 < 2 ^ (t + 1) := by
    have : 0 < 2 ^ t := Nat.two_pow_pos t
    have : 2 ^ t < 2 ^ (t + 1) := Nat.pow_lt_pow_right (by decide) (Nat.lt_succ_self t)
    omega
  rw [pow_mul_odd_pred, Nat.testBit_mul_pow_two_add _ hlt, Nat.testBit_two_pow_sub_one]
  by_cases h1 : j < t
  · have : j < t + 1 := by omega
    simp [h1, this]
  · by_cases h2 : j = t
    · subst h2; simp
    · have : ¬ j < t + 1 := by omega
      simp [h1, h2, this]

theorem testBit_gray (c i : Nat) :
    (gray c).testBit i = xor (c.testBit i) (c.testBit (i + 1)) := by
  unfold gray
  rw [Nat.testBit_xor, Nat.testBit_shiftRight, Nat.add_comm 1 i]

/-- Step `c` toggles exactly the bit `ctz(c)` of the Gray code. -/
theorem testBit_gray_step (t k i : Nat) :
    (gray (2 ^ t * (2 * k + 1))).testBit i =
      xor ((gray (2 ^ t * (2 * k + 1) - 1)).testBit i) (decide (i = t)) := by
  rw [testBit_gray, testBit_gray, testBit_pow_mul_odd, testBit_pow_mul_odd,
    testBit_pow_mul_odd_pred, testBit_pow_mul_odd_pred]
  rcases Nat.lt_trichotomy i t with h | h | h
  · by_cases h2 : i + 1 = t
    · have e1 : ¬ i + 1 < t := by omega
      have e2 : ¬ i = t := by omega
      simp [h, h2, e1, e2]
    · have e1 : i + 1 < t := by omega
      have e2 : ¬ i = t := by omega
      simp [h, e1, e2]
  · subst h
    have e1 : ¬ i + 1 < i := by omega
    have e2 : ¬ i + 1 = i := by omega
    simp [e1, e2]
  · have e1 : ¬ i < t := by omega
    have e2 : ¬ i = t := by omega
    have e3 : ¬ i + 1 < t := by omega
    have e4 : ¬ i + 1 = t := by omega
    simp [e1, e2, e3, e4]

/-- Between two consecutive toggles of `x_t` exactly one other variable, the one with index
`t + 1 + ctz(k + 1)`, changes its value. -/
theorem testBit_gray_period (t k u k' : Nat) (hk : k + 1 = 2 ^ u * (2 * k' + 1)) (i : Nat) :
    (gray (2 ^ t * (2 * (k + 1) + 1) - 1)).testBit i =
      xor (xor ((gray (2 ^ t * (2 * k + 1) - 1)).testBit i) (decide (i = t)))
        (decide (i = t + 1 + u)) := by
  have hstep := testBit_gray_step u k'
  rw [← hk] at hstep
  have hk1 : k + 1 - 1 = k := rfl
  rw [hk1] at hstep
  rw [testBit_gray, testBit_gray, testBit_pow_mul_odd_pred, testBit_pow_mul_odd_pred,
    testBit_pow_mul_odd_pred, testBit_pow_mul_odd_pred]
  rcases Nat.lt_trichotomy i t with h | h | h
  · have e2 : ¬ i = t := by omega
    have e3 : ¬ i = t + 1 + u := by omega
    by_cases h2 : i + 1 = t
    · have e1 : ¬ i + 1 < t := by omega
      simp [h, h2, e1, e2, e3]
    · have e1 : i + 1 < t := by omega
      simp [h, e1, e2, e3]
  · subst h
    have e1 : ¬ i + 1 < i := by omega
    have e2 : ¬ i + 1 = i := by omega
    have e3 : ¬ i = i + 1 + u := by omega
    have e4 : i + 1 - (i + 1) = 0 := by omega
    simp only [e1, e2, e3, e4, if_false, lt_irrefl, if_true, decide_True, decide_False,
      Bool.false_xor, Bool.xor_false, Bool.xor_true]
    -- parity of `k` and `k + 1`
    have hp : (k + 1).testBit 0 = !k.testBit 0 := by
      simp only [Nat.testBit_zero]
      rcases Nat.mod_two_eq_zero_or_one k with hh | hh <;> simp [hh] <;> omega
    rw [hp]
  · have e1 : ¬ i < t := by omega
    have e2 : ¬ i = t := by omega
    have e3 : ¬ i + 1 < t := by omega
    have e4 : ¬ i + 1 = t := by omega
    have e5 : i + 1 - (t + 1) = (i - (t + 1)) + 1 := by omega
    have hj := hstep (i - (t + 1))
    rw [testBit_gray, testBit_gray] at hj
    simp only [e1, e2, e3, e4, e5, if_false, decide_False, Bool.xor_false]
    have e6 : decide (i = t + 1 + u) = decide (i - (t + 1) = u) := by
      apply decide_eq_decide.mpr; omega
    rw [e6]
    generalize (k + 1).testBit (i - (t + 1)) = a at hj ⊢
    generalize (k + 1).testBit (i - (t + 1) + 1) = b at hj ⊢
    generalize k.testBit (i - (t + 1)) = c at hj ⊢
    generalize k.testBit (i - (t + 1) + 1) = d at hj ⊢
    generalize decide (i - (t + 1) = u) = f at hj ⊢
    revert hj
    cases a <;> cases b <;> cases c <;> cases d <;> cases f <;> simp

/-! ## Bits as elements of GF(2) -/

theorem bitz_xor (a b e : Nat) : bitz (a ^^^ b) e = bitz a e + bitz b e := by
  unfold bitz
  rw [Nat.testBit_xor]
  cases a.testBit e <;> cases b.testBit e <;> decide

theorem bitz_zero (e : Nat) : bitz 0 e = 0 := by
  unfold bitz; simp

theorem bitz_eq_zero_iff (w e : Nat) : bitz w e = 0 ↔ w.testBit e = false := by
  unfold bitz
  cases w.testBit e <;> simp

theorem eq_zero_iff_bitz (w : Nat) : w = 0 ↔ ∀ e, bitz w e = 0 := by
  constructor
  · intro h e; rw [h]; exact bitz_zero e
  · intro h
    apply Nat.eq_of_testBit_eq
    intro i
    rw [Nat.zero_testBit]
    exact (bitz_eq_zero_iff w i).mp (h i)

theorem cast_of_le_one {a : Nat} (h : a ≤ 1) :
    (a : ZMod 2) = if a = 1 then 1 else 0 := by
  interval_cases a <;> simp

theorem pack_bits_bitz (t : Nat → Nat) (m : Nat) (hm : m ≤ 64) (ht : ∀ e, e < m → t e ≤ 1)
    (e : Nat) : bitz (pack_bits t m 0) e = if e < m then (t e : ZMod 2) else 0 := by
  unfold bitz
  rw [pack_bits_testBit t m hm ht]
  by_cases he : e < m
  · rw [if_pos he, cast_of_le_one (ht e he)]
    by_cases h1 : t e = 1 <;> simp [he, h1]
  · simp [he]

theorem ite_xor_zmod (a b : Bool) :
    (if xor a b then (1 : ZMod 2) else 0) = (if a then 1 else 0) + (if b then 1 else 0) := by
  cases a <;> cases b <;> decide

/-! ## The derivative table -/

theorem derivs_get_find (mqs : List (List Nat)) (m T n e v i : Nat) (he : e < m) (hv : v < n) :
    derivs_get (find_partial_derivs mqs m T n) e v i = (diff_eq (mqs.getD e []) T n v).getD i 0 := by
  unfold derivs_get find_partial_derivs
  simp only [List.getD_eq_getElem?_getD, List.getElem?_map, List.getElem?_range he,
    List.getElem?_range hv, Option.map_some', Option.getD_some]

theorem diff_eq_le_one (row : List Nat) (n v : Nat) (hv : v < n) (k : Nat) :
    (diff_eq row (cbinom2 n + n + 1) n v).getD k 0 ≤ 1 := by
  rw [(diff_eq_getD row n v hv).2 k]
  split
  · exact toBool_le_one _
  · split
    · exact toBool_le_one _
    · exact Nat.zero_le 1

theorem diff_eq_diag (row : List Nat) (n v : Nat) (hv : v < n) :
    (diff_eq row (cbinom2 n + n + 1) n v).getD v 0 = 0 := by
  rw [(diff_eq_getD row n v hv).2 v]
  have h1 : ¬ v = n := by omega
  have h2 : ¬ (v < n ∧ v ≠ v) := fun h => h.2 rfl
  rw [if_neg h1, if_neg h2]

theorem diff_eq_symm (row : List Nat) (n u v : Nat) (hu : u < n) (hv : v < n) :
    (diff_eq row (cbinom2 n + n + 1) n v).getD u 0
      = (diff_eq row (cbinom2 n + n + 1) n u).getD v 0 := by
  rw [(diff_eq_getD row n v hv).2 u, (diff_eq_getD row n u hu).2 v]
  have h1 : ¬ u = n := by omega
  have h2 : ¬ v = n := by omega
  rw [if_neg h1, if_neg h2]
  by_cases huv : u = v
  · subst huv; rfl
  · have h3 : u < n ∧ u ≠ v := ⟨hu, huv⟩
    have h4 : v < n ∧ v ≠ u := ⟨hv, fun h => huv h.symm⟩
    rw [if_pos h3, if_pos h4, max_comm, min_comm]

theorem affine_poly_flip (d : List Nat) (n u : Nat) (hu : u < n) (x x' : Nat → ZMod 2)
    (hx' : ∀ i, x' i = x i + if i = u then 1 else 0) :
    affine_poly d n x' = affine_poly d n x + (d.getD u 0 : ZMod 2) := by
  unfold affine_poly
  have : ∀ i ∈ Finset.range n, (d.getD i 0 : ZMod 2) * x' i
      = (d.getD i 0 : ZMod 2) * x i + (d.getD i 0 : ZMod 2) * (if i = u then 1 else 0) := by
    intro i _; rw [hx' i]; ring
  rw [Finset.sum_congr rfl this, Finset.sum_add_distrib,
    sum_delta n u hu (fun i => (d.getD i 0 : ZMod 2))]
  ring

theorem gf2_poly_congr (row : List Nat) (n T : Nat) (x y : Nat → ZMod 2)
    (h : ∀ i, i < n → x i = y i) : gf2_poly row n T x = gf2_poly row n T y := by
  unfold gf2_poly
  congr 2
  · apply Finset.sum_congr rfl; intro j hj
    apply Finset.sum_congr rfl; intro i hi
    have hj' := Finset.mem_range.mp hj
    have hi' := Finset.mem_range.mp hi
    rw [h i (by omega), h j hj']
  · apply Finset.sum_congr rfl; intro i hi
    rw [h i (Finset.mem_range.mp hi)]

theorem affine_poly_congr (d : List Nat) (n : Nat) (x y : Nat → ZMod 2)
    (h : ∀ i, i < n → x i = y i) : affine_poly d n x = affine_poly d n y := by
  unfold affine_poly
  congr 1
  apply Finset.sum_congr rfl; intro i hi
  rw [h i (Finset.mem_range.mp hi)]

/-! ## The Gray-code walk as a walk in GF(2)^n -/

theorem gray_point_step (t k i : Nat) :
    gray_point (2 ^ t * (2 * k + 1)) i
      = gray_point (2 ^ t * (2 * k + 1) - 1) i + if i = t then 1 else 0 := by
  unfold gray_point bitz
  rw [testBit_gray_step, ite_xor_zmod]
  congr 1
  by_cases h : i = t <;> simp [h]

theorem gray_point_period (t k u k' : Nat) (hk : k + 1 = 2 ^ u * (2 * k' + 1)) (i : Nat) :
    gray_point (2 ^ t * (2 * (k + 1) + 1) - 1) i
      = gray_point (2 ^ t * (2 * k + 1) - 1) i + (if i = t then 1 else 0)
        + (if i = t + 1 + u then 1 else 0) := by
  unfold gray_point bitz
  rw [testBit_gray_period t k u k' hk, ite_xor_zmod, ite_xor_zmod]
  congr 1
  · congr 1
    by_cases h : i = t <;> simp [h]
  · by_cases h : i = t + 1 + u <;> simp [h]

theorem gray_point_zero (i : Nat) : gray_point 0 i = 0 := by
  unfold gray_point bitz gray; simp

theorem gray_point_pow_pred (v i : Nat) :
    gray_point (2 ^ v - 1) i = if i + 1 = v then 1 else 0 := by
  unfold gray_point bitz
  rw [testBit_gray, Nat.testBit_two_pow_sub_one, Nat.testBit_two_pow_sub_one]
  by_cases h1 : i + 1 < v
  · have h2 : i < v := by omega
    have h3 : ¬ i + 1 = v := by omega
    simp [h1, h2, h3]
  · by_cases h2 : i + 1 = v
    · have h3 : i < v := by omega
      simp [h1, h2, h3]
    · have h3 : ¬ i < v := by omega
      simp [h1, h2, h3]

/-! ## The bit tricks of the loop body -/

theorem shiftLeft_one_mod (fp : Nat) (h : fp < 64) : (1 <<< fp) % 2 ^ 64 = 2 ^ fp := by
  rw [Nat.one_shiftLeft]
  exact Nat.mod_eq_of_lt (Nat.pow_lt_pow_right (by decide) h)

theorem testBit_pow_mul (t k j : Nat) :
    (2 ^ t * k).testBit j = if j < t then false else k.testBit (j - t) := by
  have h := Nat.testBit_mul_pow_two_add k (Nat.two_pow_pos t) j
  rw [Nat.add_zero] at h
  rw [h]
  split
  · exact Nat.zero_testBit j
  · rfl

/-- The test `count & (count - 1)` of line 266: zero exactly for the powers of two. -/
theorem and_pred_eq_zero_iff (t k : Nat) :
    (2 ^ t * (2 * k + 1)) &&& (2 ^ t * (2 * k + 1) - 1) = 0 ↔ k = 0 := by
  have hbit : ∀ j, ((2 ^ t * (2 * k + 1)) &&& (2 ^ t * (2 * k + 1) - 1)).testBit j
      = if j ≤ t then false else k.testBit (j - (t + 1)) := by
    intro j
    rw [Nat.testBit_and, testBit_pow_mul_odd, testBit_pow_mul_odd_pred]
    rcases Nat.lt_trichotomy j t with h | h | h
    · have : j ≤ t := by omega
      simp [h, this]
    · subst h; simp
    · have h1 : ¬ j < t := by omega
      have h2 : ¬ j = t := by omega
      have h3 : ¬ j ≤ t := by omega
      simp [h1, h2, h3]
  constructor
  · intro h0
    by_contra hk
    obtain ⟨i, hi⟩ := Nat.ne_zero_implies_bit_true hk
    have := hbit (i + (t + 1))
    rw [h0, Nat.zero_testBit] at this
    have h3 : ¬ i + (t + 1) ≤ t := by omega
    have h4 : i + (t + 1) - (t + 1) = i := by omega
    rw [if_neg h3, h4, hi] at this
    exact Bool.noConfusion this
  · intro hk
    subst hk
    apply Nat.eq_of_testBit_eq
    intro j
    rw [hbit]
    simp

/-- The word `count ^ (1 << fp_idx)` of line 267 is `count` without its lowest set bit. -/
theorem xor_pow_eq (t k : Nat) : (2 ^ t * (2 * k + 1)) ^^^ 2 ^ t = 2 ^ (t + 1) * k := by
  apply Nat.eq_of_testBit_eq
  intro j
  rw [Nat.testBit_xor, testBit_pow_mul_odd, Nat.testBit_two_pow, testBit_pow_mul]
  rcases Nat.lt_trichotomy j t with h | h | h
  · have h1 : j < t + 1 := by omega
    have h2 : ¬ t = j := by omega
    simp [h, h1, h2]
  · subst h; simp
  · have h1 : ¬ j < t := by omega
    have h2 : ¬ j = t := by omega
    have h3 : ¬ j < t + 1 := by omega
    have h4 : ¬ t = j := by omega
    simp [h1, h2, h3, h4]

/-- What the loop body computes at step `count = 2^fp (2k+1) < 2^64`: `fp_idx`, the test
for a power of two, and `pre_fp_idx`. -/
theorem step_indices (fp k : Nat) (hlt : 2 ^ fp * (2 * k + 1) < 2 ^ 64) :
    ctzll (2 ^ fp * (2 * k + 1)) = fp ∧
    ((2 ^ fp * (2 * k + 1)) &&& (2 ^ fp * (2 * k + 1) - 1) ≠ 0 ↔ k ≠ 0) ∧
    ∀ u k', k = 2 ^ u * (2 * k' + 1) →
      ctzll ((2 ^ fp * (2 * k + 1)) ^^^ (1 <<< fp) % 2 ^ 64) = fp + 1 + u := by
  have hfp : fp < 64 := pow_le_of_pow_mul_odd_lt hlt
  refine ⟨ctzll_pow_mul fp k hlt, not_congr (and_pred_eq_zero_iff fp k), fun u k' hk => ?_⟩
  rw [shiftLeft_one_mod fp hfp, xor_pow_eq, hk, ← mul_assoc, ← pow_add]
  apply ctzll_pow_mul
  have h1 : 2 ^ (fp + 1 + u) * (2 * k' + 1) = 2 ^ (fp + 1) * k := by
    rw [hk, pow_add, mul_assoc]
  have h2 : 2 ^ (fp + 1) * k ≤ 2 ^ fp * (2 * k + 1) := by
    have : 2 ^ (fp + 1) * k = 2 ^ fp * (2 * k) := by rw [pow_succ]; ring
    rw [this]
    exact Nat.mul_le_mul_left _ (by omega)
  omega

/-! ## The loop body -/

theorem ValidSystem.row_le_one {sys : List (List Nat)} {n m T : Nat}
    (h : ValidSystem sys n m T) (e k : Nat) : (sys.getD e []).getD k 0 ≤ 1 :=
  h.2.2.2.2.row e k

theorem ValidSystem.rowlen_eq {sys : List (List Nat)} {n m T : Nat}
    (h : ValidSystem sys n m T) : T = cbinom2 n + n + 1 := h.2.2.2.1.T_eq

theorem ValidSystem.two_pow_le {sys : List (List Nat)} {n m T : Nat}
    (h : ValidSystem sys n m T) : 2 ^ n ≤ 2 ^ 63 :=
  Nat.pow_le_pow_right (by decide) h.2.1

theorem SquareFree.getD_sq {sys : List (List Nat)} {n : Nat} (h : SquareFree sys n)
    (e v : Nat) (hv : v < n) : (sys.getD e []).getD (cbinom2 v + v) 0 = 0 := by
  by_cases he : e < sys.length
  · exact h.row_sq he hv
  · rw [List.getD_eq_default _ _ (Nat.le_of_not_lt he)]; rfl

/-- Bit `e` of `pdiff2[i][v]` is entry `i` of the derivative of equation `e` with respect to
`x_v`. -/
theorem pdiff2_bitz (sys : List (List Nat)) (n m : Nat) (hm : m ≤ 64) (i v : Nat) (hi : i < n)
    (hv : v < n) (e : Nat) :
    bitz (get2 (build_pdiff2 (find_partial_derivs sys m (cbinom2 n + n + 1) n) n m) i v) e
      = if e < m then ((diff_eq (sys.getD e []) (cbinom2 n + n + 1) n v).getD i 0 : ZMod 2)
        else 0 := by
  rw [build_pdiff2_get2 _ n m i v hi hv, pack_bits_bitz _ m hm]
  · by_cases he : e < m
    · rw [if_pos he, if_pos he, derivs_get_find sys m _ n e v i he hv]
    · rw [if_neg he, if_neg he]
  · intro e he
    rw [derivs_get_find sys m _ n e v i he hv]
    exact diff_eq_le_one _ n v hv i

/-- The unfolded loop body at a step `count + 1 = 2^fp (2k+1)`. -/
theorem search_step_eq (P : List (List Nat)) (s : SearchState) (fp k : Nat)
    (hck : s.count + 1 = 2 ^ fp * (2 * k + 1)) (hlt : s.count + 1 < 2 ^ 64) :
    search_step P s =
      { func_eval := s.func_eval ^^^
          (if k ≠ 0 then
            s.pdiff_eval.set fp (s.pdiff_eval.getD fp 0 ^^^
              get2 P fp (ctzll ((2 ^ fp * (2 * k + 1)) ^^^ (1 <<< fp) % 2 ^ 64)))
          else s.pdiff_eval).getD fp 0
        count := s.count + 1
        pdiff_eval :=
          if k ≠ 0 then
            s.pdiff_eval.set fp (s.pdiff_eval.getD fp 0 ^^^
              get2 P fp (ctzll ((2 ^ fp * (2 * k + 1)) ^^^ (1 <<< fp) % 2 ^ 64)))
          else s.pdiff_eval } := by
  have hlt' : 2 ^ fp * (2 * k + 1) < 2 ^ 64 := by rw [← hck]; exact hlt
  obtain ⟨hctz, hpow, _⟩ := step_indices fp k hlt'
  unfold search_step
  simp only [hck, Nat.mod_eq_of_lt hlt', hctz]
  by_cases hk : k = 0
  · have h1 : ¬ (2 ^ fp * (2 * k + 1) &&& 2 ^ fp * (2 * k + 1) - 1 ≠ 0) := fun h => hpow.mp h hk
    have h2 : ¬ k ≠ 0 := fun h => h hk
    simp only [if_neg h1, if_neg h2]
  · have h1 : 2 ^ fp * (2 * k + 1) &&& 2 ^ fp * (2 * k + 1) - 1 ≠ 0 := hpow.mpr hk
    simp only [if_pos h1, if_pos hk]

/-- The word that one iteration XORs into `func_eval` packs, for every equation, the
derivative with respect to the toggled variable at the point `g(count)` that is being left;
no other entry of `pdiff_eval` changes. -/
theorem search_step_word (sys : List (List Nat)) (n m T : Nat) (hv : ValidSystem sys n m T)
    (s : SearchState) (hinv : SearchInv sys n m T s) (fp k : Nat)
    (hck : s.count + 1 = 2 ^ fp * (2 * k + 1)) (hc : s.count + 1 < 2 ^ n) :
    ∃ pe : List Nat,
      search_step (build_pdiff2 (find_partial_derivs sys m T n) n m) s =
        { func_eval := s.func_eval ^^^ pe.getD fp 0, count := s.count + 1, pdiff_eval := pe } ∧
      pe.length = n ∧
      (∀ v, v ≠ fp → pe.getD v 0 = s.pdiff_eval.getD v 0) ∧
      ∀ e, bitz (pe.getD fp 0) e =
        if e < m then affine_poly (diff_eq (sys.getD e []) T n fp) n (gray_point s.count)
        else 0 := by
  have hT := hv.rowlen_eq
  subst hT
  have h63 := hv.two_pow_le
  have hlt : s.count + 1 < 2 ^ 64 := by
    have : (2 : Nat) ^ 63 < 2 ^ 64 := by norm_num
    omega
  have hfpn : fp < n := pow_le_of_pow_mul_odd_lt (by rw [← hck]; exact hc)
  have hpred : 2 ^ fp * (2 * k + 1) - 1 = s.count := by omega
  have hP : 0 < 2 ^ fp := Nat.two_pow_pos fp
  have hnext : 2 ^ fp * (2 * k + 1) ≤ s.count + 2 ^ (fp + 1) := by
    rw [pow_succ]; omega
  have hold := hinv.pe fp k hfpn (by omega) hnext
  refine ⟨_, search_step_eq _ s fp k hck hlt, ?_, ?_, ?_⟩
  · split
    · rw [List.length_set]; exact hinv.len
    · exact hinv.len
  · intro v hvf
    split
    · exact getD_set_ne _ (Ne.symm hvf)
    · rfl
  · intro e
    by_cases hk : k = 0
    · -- the first toggle of `x_fp`: no correction
      subst hk
      have h2 : ¬ (0 : Nat) ≠ 0 := fun h => h rfl
      rw [if_neg h2, hold e]
      have : 2 ^ fp * (2 * (0 - 1) + 1) - 1 = s.count := by
        rw [← hpred]
      rw [this]
    · -- a later toggle: one variable `pre` has changed since the previous one
      rw [if_pos hk, getD_set_self _ (by rw [hinv.len]; exact hfpn), bitz_xor, hold e]
      obtain ⟨u, k', hk'⟩ := exists_pow_mul_odd k (by omega)
      have hlt' : 2 ^ fp * (2 * k + 1) < 2 ^ 64 := by rw [← hck]; exact hlt
      rw [(step_indices fp k hlt').2.2 u k' hk']
      have hpre : fp + 1 + u < n := by
        apply pow_le_of_pow_mul_odd_lt (k := k')
        have h1 : 2 ^ (fp + 1 + u) * (2 * k' + 1) = 2 ^ (fp + 1) * k := by
          rw [hk', pow_add, mul_assoc]
        have h2 : 2 ^ (fp + 1) * k ≤ 2 ^ fp * (2 * k + 1) := by
          have : 2 ^ (fp + 1) * k = 2 ^ fp * (2 * k) := by rw [pow_succ]; ring
          rw [this]
          exact Nat.mul_le_mul_left _ (by omega)
        omega
      rw [pdiff2_bitz sys n m hv.2.2.1 fp (fp + 1 + u) hfpn hpre e]
      by_cases he : e < m
      · rw [if_pos he, if_pos he, if_pos he]
        -- the point `g(count)` is the stored point with `x_fp` and `x_pre` flipped
        have hk1 : k - 1 + 1 = k := by omega
        have hper := gray_point_period fp (k - 1) u k' (by rw [hk1]; exact hk')
        rw [hk1, hpred] at hper
        have hmid : ∀ i, (fun i => gray_point (2 ^ fp * (2 * (k - 1) + 1) - 1) i
            + if i = fp then 1 else 0) i
            = gray_point (2 ^ fp * (2 * (k - 1) + 1) - 1) i + if i = fp then 1 else 0 :=
          fun i => rfl
        have h1 := affine_poly_flip (diff_eq (sys.getD e []) (cbinom2 n + n + 1) n fp) n fp hfpn
          (gray_point (2 ^ fp * (2 * (k - 1) + 1) - 1)) _ hmid
        have h2 := affine_poly_flip (diff_eq (sys.getD e []) (cbinom2 n + n + 1) n fp) n
          (fp + 1 + u) hpre _ (gray_point s.count) hper
        rw [h2, h1, diff_eq_diag _ n fp hfpn, diff_eq_symm _ n fp (fp + 1 + u) hfpn hpre]
        simp
      · rw [if_neg he, if_neg he, if_neg he, add_zero]

/-! ## The loop invariant -/

/-- The invariant is preserved by an iteration of the loop. -/
theorem search_step_inv (sys : List (List Nat)) (n m T : Nat) (hv : ValidSystem sys n m T)
    (hsq : SquareFree sys n) (s : SearchState) (hinv : SearchInv sys n m T s)
    (hc : s.count + 1 < 2 ^ n) (hne : s.func_eval ≠ 0) :
    SearchInv sys n m T (search_step (build_pdiff2 (find_partial_derivs sys m T n) n m) s) := by
  obtain ⟨fp, k, hck⟩ := exists_pow_mul_odd (s.count + 1) (by omega)
  obtain ⟨pe, hstep, hlen, hother, hword⟩ := search_step_word sys n m T hv s hinv fp k hck hc
  have hT := hv.rowlen_eq
  subst hT
  have h63 := hv.two_pow_le
  have h6364 : (2 : Nat) ^ 63 < 2 ^ 64 := by norm_num
  have hfpn : fp < n := pow_le_of_pow_mul_odd_lt (by rw [← hck]; exact hc)
  have hpred : 2 ^ fp * (2 * k + 1) - 1 = s.count := by omega
  have hctz : ctzll (s.count + 1) = fp := by
    rw [hck]; exact ctzll_pow_mul fp k (by rw [← hck]; omega)
  rw [hstep]
  refine ⟨hc, hlen, ?_, ?_, ?_⟩
  · intro e
    show bitz (s.func_eval ^^^ pe.getD fp 0) e = _
    rw [bitz_xor, hinv.fe e, hword e]
    by_cases he : e < m
    · rw [if_pos he, if_pos he, if_pos he]
      symm
      apply gf2_poly_flip (sys.getD e []) n fp hfpn (hv.row_le_one e) (hsq.getD_sq e fp hfpn)
      intro i
      show gray_point (s.count + 1) i = _
      have := gray_point_step fp k i
      rw [hpred, ← hck] at this
      exact this
    · rw [if_neg he, if_neg he, if_neg he, add_zero]
  · intro v q hvn h1 h2 e
    have h1' : s.count + 1 < 2 ^ v * (2 * q + 1) := h1
    have h2' : 2 ^ v * (2 * q + 1) ≤ s.count + 1 + 2 ^ (v + 1) := h2
    show bitz (pe.getD v 0) e = _
    by_cases hvf : v = fp
    · subst hvf
      have hq : q = k + 1 := by
        rw [hck] at h1' h2'
        have hP : 0 < 2 ^ v := Nat.two_pow_pos v
        have a1 : 2 * k + 1 < 2 * q + 1 := Nat.lt_of_mul_lt_mul_left h1'
        have a2 : 2 ^ v * (2 * q + 1) ≤ 2 ^ v * (2 * k + 3) := by
          have : 2 ^ v * (2 * k + 3) = 2 ^ v * (2 * k + 1) + 2 ^ (v + 1) := by
            rw [pow_succ]; ring
          rw [this]; exact h2'
        have a3 : 2 * q + 1 ≤ 2 * k + 3 := Nat.le_of_mul_le_mul_left a2 hP
        omega
      subst hq
      have : k + 1 - 1 = k := rfl
      rw [this, hpred]
      exact hword e
    · rw [hother v hvf]
      apply hinv.pe v q hvn (by omega)
      by_contra hgt
      have heq : 2 ^ v * (2 * q + 1) = s.count + 1 + 2 ^ (v + 1) := by omega
      have hP : 0 < 2 ^ v := Nat.two_pow_pos v
      have hq : q ≠ 0 := by
        intro h0
        subst h0
        rw [pow_succ] at heq
        omega
      obtain ⟨q', rfl⟩ : ∃ q', q = q' + 1 := ⟨q - 1, by omega⟩
      have hc' : s.count + 1 = 2 ^ v * (2 * q' + 1) := by
        have : 2 ^ v * (2 * (q' + 1) + 1) = 2 ^ v * (2 * q' + 1) + 2 ^ (v + 1) := by
          rw [pow_succ]; ring
        omega
      have : ctzll (s.count + 1) = v := by
        rw [hc']; exact ctzll_pow_mul v q' (by rw [← hc']; omega)
      exact hvf (by rw [← this, hctz])
  · intro c hcc
    have hcc' : c < s.count + 1 := hcc
    rcases Nat.lt_succ_iff_lt_or_eq.mp hcc' with h | h
    · exact hinv.first c h
    · subst h
      have : ¬ ∀ e, bitz s.func_eval e = 0 := fun h => hne ((eq_zero_iff_bitz _).mpr h)
      push_neg at this
      obtain ⟨e, he⟩ := this
      rw [hinv.fe e] at he
      by_cases hem : e < m
      · rw [if_pos hem] at he
        exact ⟨e, hem, he⟩
      · rw [if_neg hem] at he
        exact absurd rfl he

/-! ## The state before the loop -/

theorem gf2_poly_at_zero (row : List Nat) (n T : Nat) (x : Nat → ZMod 2)
    (hx : ∀ i, i < n → x i = 0) : gf2_poly row n T x = (row.getD (T - 1) 0 : ZMod 2) := by
  unfold gf2_poly
  have h1 : ∑ j in Finset.range n, ∑ i in Finset.range (j + 1),
      (row.getD (j * (j + 1) / 2 + i) 0 : ZMod 2) * x i * x j = 0 := by
    apply Finset.sum_eq_zero; intro j hj
    apply Finset.sum_eq_zero; intro i _
    rw [hx j (Finset.mem_range.mp hj), mul_zero]
  have h2 : ∑ i in Finset.range n, (row.getD (n * (n + 1) / 2 + i) 0 : ZMod 2) * x i = 0 := by
    apply Finset.sum_eq_zero; intro i hi
    rw [hx i (Finset.mem_range.mp hi), mul_zero]
  rw [h1, h2, zero_add, zero_add]

/-- The derivative with respect to `x_v` at the point visited just before the first toggle
of `x_v`: only `x_{v-1}` is set there (no variable for `v = 0`). -/
theorem affine_poly_first (d : List Nat) (n v : Nat) (hv : v < n) :
    affine_poly d n (gray_point (2 ^ v - 1))
      = (d.getD n 0 : ZMod 2) + if 0 = v then 0 else (d.getD (v - 1) 0 : ZMod 2) := by
  unfold affine_poly
  congr 1
  by_cases h0 : 0 = v
  · subst h0
    rw [if_pos rfl]
    apply Finset.sum_eq_zero; intro i _
    rw [gray_point_pow_pred]
    have : ¬ i + 1 = 0 := by omega
    rw [if_neg this, mul_zero]
  · rw [if_neg h0]
    have : ∀ i ∈ Finset.range n, (d.getD i 0 : ZMod 2) * gray_point (2 ^ v - 1) i
        = (d.getD i 0 : ZMod 2) * (if i = v - 1 then 1 else 0) := by
      intro i _
      rw [gray_point_pow_pred]
      by_cases h : i + 1 = v
      · have h' : i = v - 1 := by omega
        rw [if_pos h, if_pos h']
      · have h' : ¬ i = v - 1 := by omega
        rw [if_neg h, if_neg h']
    rw [Finset.sum_congr rfl this, sum_delta n (v - 1) (by omega) (fun i => (d.getD i 0 : ZMod 2))]

theorem search_bound_eq (n : Nat) (hn : n ≤ 63) : search_bound n = 2 ^ n - 1 := by
  unfold search_bound
  rw [shiftLeft_one_mod n (by omega)]

/-- The invariant holds when the loop is entered. -/
theorem search_init_inv (sys : List (List Nat)) (n m T : Nat) (hv : ValidSystem sys n m T) :
    SearchInv sys n m T (search_init sys n m T) := by
  have hT := hv.rowlen_eq
  subst hT
  have hm : m ≤ 64 := hv.2.2.1
  unfold search_init
  refine ⟨Nat.two_pow_pos n, (init_pdiff_eval_getD _ _ n m).1, ?_, ?_, ?_⟩
  · intro e
    show bitz (init_func_eval sys m (cbinom2 n + n + 1)) e = _
    rw [init_func_eval_eq, pack_bits_bitz _ m hm (fun e _ => hv.row_le_one e _)]
    by_cases he : e < m
    · rw [if_pos he, if_pos he, gf2_poly_at_zero _ _ _ _ (fun i _ => gray_point_zero i)]
    · rw [if_neg he, if_neg he]
  · intro v q hvn h1 h2 e
    have h1' : 0 < 2 ^ v * (2 * q + 1) := h1
    have h2' : 2 ^ v * (2 * q + 1) ≤ 0 + 2 ^ (v + 1) := h2
    have hq : q = 0 := by
      have hP : 0 < 2 ^ v := Nat.two_pow_pos v
      have a2 : 2 ^ v * (2 * q + 1) ≤ 2 ^ v * 2 := by
        rw [pow_succ] at h2'; omega
      have a3 : 2 * q + 1 ≤ 2 := Nat.le_of_mul_le_mul_left a2 hP
      omega
    subst hq
    have hpt : 2 ^ v * (2 * (0 - 1) + 1) - 1 = 2 ^ v - 1 := by
      have : 2 * (0 - 1) + 1 = 1 := rfl
      rw [this, Nat.mul_one]
    show bitz ((init_pdiff_eval sys (find_partial_derivs sys m (cbinom2 n + n + 1) n) n m).getD
      v 0) e = _
    rw [hpt, (init_pdiff_eval_getD _ _ n m).2 v hvn]
    have hterm : ∀ e, e < m →
        pdiff_eval_term sys (find_partial_derivs sys m (cbinom2 n + n + 1) n) n e v
          = if 0 = v then (sys.getD e []).getD (cbinom2 n + 0) 0
            else (sys.getD e []).getD (cbinom2 n + v) 0 ^^^
              (diff_eq (sys.getD e []) (cbinom2 n + n + 1) n v).getD (v - 1) 0 := by
      intro e he
      unfold pdiff_eval_term deg2midx1
      rw [derivs_get_find sys m _ n e v (v - 1) he hvn]
    rw [pack_bits_bitz _ m hm]
    · by_cases he : e < m
      · rw [if_pos he, if_pos he, hterm e he, affine_poly_first _ n v hvn,
          diff_eq_const _ n v hvn (hv.row_le_one e)]
        by_cases h0 : 0 = v
        · subst h0
          rw [if_pos rfl, if_pos rfl]
          simp
        · rw [if_neg h0, if_neg h0, cast_xor]
      · rw [if_neg he, if_neg he]
    · intro e he
      rw [hterm e he]
      split
      · exact hv.row_le_one e _
      · exact xor_le_one (hv.row_le_one e _) (diff_eq_le_one _ n v hvn _)
  · intro c hc
    exact absurd hc (Nat.not_lt_zero c)

/-! ## The loop -/

theorem search_step_count (P : List (List Nat)) (s : SearchState) :
    (search_step P s).count = (s.count + 1) % 2 ^ 64 := rfl

/-- Every state of the loop satisfies the invariant. -/
theorem search_loop_inv (sys : List (List Nat)) (n m T : Nat) (hv : ValidSystem sys n m T)
    (hsq : SquareFree sys n) (fuel : Nat) :
    ∀ s, SearchInv sys n m T s →
      SearchInv sys n m T
        (search_loop (build_pdiff2 (find_partial_derivs sys m T n) n m) (2 ^ n - 1) fuel s) := by
  induction fuel with
  | zero => intro s hs; exact hs
  | succ fuel ih =>
    intro s hs
    unfold search_loop
    split
    · next hg =>
      apply ih
      exact search_step_inv sys n m T hv hsq s hs (by omega) hg.1
    · exact hs

/-- With fuel `bound - count` the loop is left because its condition fails. -/
theorem search_loop_exit (P : List (List Nat)) (bound : Nat) (hb : bound < 2 ^ 64) (fuel : Nat) :
    ∀ s, bound - s.count ≤ fuel →
      ¬ ((search_loop P bound fuel s).func_eval ≠ 0 ∧ (search_loop P bound fuel s).count < bound) := by
  induction fuel with
  | zero =>
    intro s hs
    unfold search_loop
    omega
  | succ fuel ih =>
    intro s hs
    unfold search_loop
    split
    · next hg =>
      apply ih
      rw [search_step_count, Nat.mod_eq_of_lt (by omega)]
      omega
    · next hg => exact hg

theorem search_run_inv (sys : List (List Nat)) (n m T : Nat) (hv : ValidSystem sys n m T)
    (hsq : SquareFree sys n) (k : Nat) : SearchInv sys n m T (search_run sys n m T k) := by
  unfold search_run
  rw [search_bound_eq n hv.2.1]
  exact search_loop_inv sys n m T hv hsq k _ (search_init_inv sys n m T hv)

theorem search_run_exit (sys : List (List Nat)) (n m T : Nat) (hn : n ≤ 63) :
    (search_run sys n m T (search_bound n)).func_eval = 0 ∨
      (search_run sys n m T (search_bound n)).count ≥ 2 ^ n - 1 := by
  have hb : search_bound n < 2 ^ 64 := by
    unfold search_bound
    have := Nat.mod_lt (1 <<< n) (Nat.two_pow_pos 64)
    omega
  have h := search_loop_exit (build_pdiff2 (find_partial_derivs sys m T n) n m) (search_bound n)
    hb (search_bound n) (search_init sys n m T) (by omega)
  have hbe := search_bound_eq n hn
  unfold search_run
  simp only
  by_cases h0 : (search_loop (build_pdiff2 (find_partial_derivs sys m T n) n m) (search_bound n)
      (search_bound n) (search_init sys n m T)).func_eval = 0
  · exact Or.inl h0
  · right
    rw [← hbe]
    by_contra hlt
    exact h ⟨h0, by omega⟩

/-! ## Decoding the step counter -/

theorem fill_solution_upto (c : Nat) (sol : List Nat) (j : Nat) :
    ((List.range j).foldl
      (fun sol var_idx => sol.set var_idx (((c ^^^ (c >>> 1)) >>> var_idx) &&& 1)) sol).length
        = sol.length ∧
    ∀ k, ((List.range j).foldl
      (fun sol var_idx => sol.set var_idx (((c ^^^ (c >>> 1)) >>> var_idx) &&& 1)) sol).getD k 0
        = if k < j ∧ k < sol.length then ((c ^^^ (c >>> 1)) >>> k) &&& 1 else sol.getD k 0 := by
  induction j with
  | zero =>
    refine ⟨rfl, fun k => ?_⟩
    have hc : ¬ (k < 0 ∧ k < sol.length) := fun h => Nat.not_lt_zero _ h.1
    simp only [List.range_zero, List.foldl_nil]
    rw [if_neg hc]
  | succ j ih =>
    obtain ⟨ihl, ihg⟩ := ih
    rw [List.range_succ, List.foldl_append]
    simp only [List.foldl_cons, List.foldl_nil]
    refine ⟨by rw [List.length_set, ihl], fun k => ?_⟩
    rw [getD_set_nat, ihl, ihg k]
    by_cases hk : j = k
    · subst hk
      by_cases hl : j < sol.length
      · have h1 : j = j ∧ j < sol.length := ⟨rfl, hl⟩
        have h2 : j < j + 1 ∧ j < sol.length := ⟨Nat.lt_succ_self _, hl⟩
        rw [if_pos h1, if_pos h2]
      · have h1 : ¬ (j = j ∧ j < sol.length) := fun h => hl h.2
        have h2 : ¬ (j < j + 1 ∧ j < sol.length) := fun h => hl h.2
        have h3 : ¬ (j < j ∧ j < sol.length) := fun h => hl h.2
        rw [if_neg h1, if_neg h2, if_neg h3]
    · have h1 : ¬ (j = k ∧ j < sol.length) := fun h => hk h.1
      rw [if_neg h1]
      by_cases h2 : k < j ∧ k < sol.length
      · have h3 : k < j + 1 ∧ k < sol.length := ⟨by omega, h2.2⟩
        rw [if_pos h2, if_pos h3]
      · have h3 : ¬ (k < j + 1 ∧ k < sol.length) := by omega
        rw [if_neg h2, if_neg h3]

theorem decode_length (c n : Nat) : (decode c n).length = n := by
  unfold decode; rw [List.length_map, List.length_range]

theorem decode_getD (c n k : Nat) (hk : k < n) :
    (decode c n).getD k 0 = (gray c >>> k) &&& 1 := by
  unfold decode
  simp only [List.getD_eq_getElem?_getD, List.getElem?_map, List.getElem?_range hk,
    Option.map_some', Option.getD_some]

/-- The buffer written by lines 277-279 is the decoded Gray code of `count`. -/
theorem fill_solution_eq (c n : Nat) (sol : List Nat) (hlen : sol.length = n) :
    fill_solution c n sol = decode c n := by
  obtain ⟨h1, h2⟩ := fill_solution_upto c sol n
  apply list_ext_getD
  · unfold fill_solution; rw [h1, decode_length, hlen]
  · intro k hk
    have hk' : k < n := by
      unfold fill_solution at hk; rw [h1, hlen] at hk; exact hk
    unfold fill_solution
    rw [h2 k, if_pos ⟨hk', by omega⟩, decode_getD c n k hk']
    rfl

theorem decode_bits01 (c n : Nat) : Bits01 (decode c n) := by
  intro b hb
  unfold decode at hb
  rw [List.mem_map] at hb
  obtain ⟨v, _, rfl⟩ := hb
  rw [Nat.and_one_is_mod]
  omega

theorem cast_shift_and_one (x i : Nat) : (((x >>> i) &&& 1 : Nat) : ZMod 2) = bitz x i := by
  unfold bitz
  rw [Nat.and_one_is_mod, Nat.testBit_to_div_mod, Nat.shiftRight_eq_div_pow]
  rcases Nat.mod_two_eq_zero_or_one (x / 2 ^ i) with h | h <;> simp [h]

theorem point_of_decode (c n i : Nat) (hi : i < n) : point_of (decode c n) i = gray_point c i := by
  unfold point_of gray_point
  rw [decode_getD c n i hi, cast_shift_and_one]

/-! ## The verifier and the roots of the system -/

/-- For 0/1 data `verify_sols` accepts exactly the common roots of the polynomials. -/
theorem verify_sols_iff_root (sys : List (List Nat)) (n m T : Nat) (h01 : Coeffs01 sys)
    (x : List Nat) (hx : Bits01 x) :
    verify_sols sys x n m T = true ↔
      ∀ e, e < m → gf2_poly (sys.getD e []) n T (point_of x) = 0 := by
  rw [verify_sols_eq_true_iff]
  constructor
  · intro h e he
    exact (eval_eq_ne_one_iff _ x n T (h01.row e) hx.getD_le).mp (h e he)
  · intro h e he
    exact (eval_eq_ne_one_iff _ x n T (h01.row e) hx.getD_le).mpr (h e he)

theorem verify_sols_decode (sys : List (List Nat)) (n m T : Nat) (h01 : Coeffs01 sys) (c : Nat) :
    verify_sols sys (decode c n) n m T = true ↔
      ∀ e, e < m → gf2_poly (sys.getD e []) n T (gray_point c) = 0 := by
  rw [verify_sols_iff_root sys n m T h01 _ (decode_bits01 c n)]
  constructor
  · intro h e he
    rw [← gf2_poly_congr _ n T _ _ (fun i hi => point_of_decode c n i hi)]
    exact h e he
  · intro h e he
    rw [gf2_poly_congr _ n T _ _ (fun i hi => point_of_decode c n i hi)]
    exact h e he

/-! ## The Gray code visits every point -/

theorem gray_injective {a b : Nat} (h : gray a = gray b) : a = b := by
  have hbit : ∀ i, xor (a.testBit i) (a.testBit (i + 1)) = xor (b.testBit i) (b.testBit (i + 1)) := by
    intro i
    rw [← testBit_gray, ← testBit_gray, h]
  obtain ⟨N, hN⟩ : ∃ N, a < 2 ^ N ∧ b < 2 ^ N :=
    ⟨a + b, lt_of_le_of_lt (Nat.le_add_right a b) (Nat.lt_two_pow _),
      lt_of_le_of_lt (Nat.le_add_left b a) (Nat.lt_two_pow _)⟩
  have hhigh : ∀ i, N ≤ i → a.testBit i = b.testBit i := by
    intro i hi
    have h1 : a < 2 ^ i := lt_of_lt_of_le hN.1 (Nat.pow_le_pow_right (by decide) hi)
    have h2 : b < 2 ^ i := lt_of_lt_of_le hN.2 (Nat.pow_le_pow_right (by decide) hi)
    rw [Nat.testBit_lt_two_pow h1, Nat.testBit_lt_two_pow h2]
  have hall : ∀ d i, N ≤ i + d → a.testBit i = b.testBit i := by
    intro d
    induction d with
    | zero => intro i hi; exact hhigh i hi
    | succ d ih =>
      intro i hi
      have h1 := ih (i + 1) (by omega)
      have h2 := hbit i
      rw [h1] at h2
      revert h2
      cases a.testBit i <;> cases b.testBit i <;> cases b.testBit (i + 1) <;> simp
  apply Nat.eq_of_testBit_eq
  intro i
  exact hall N i (by omega)

theorem gray_lt {c n : Nat} (h : c < 2 ^ n) : gray c < 2 ^ n := by
  unfold gray
  apply Nat.xor_lt_two_pow h
  rw [Nat.shiftRight_eq_div_pow]
  exact lt_of_le_of_lt (Nat.div_le_self _ _) h

theorem gray_surjective (n x : Nat) (hx : x < 2 ^ n) : ∃ c, c < 2 ^ n ∧ gray c = x := by
  let f : Fin (2 ^ n) → Fin (2 ^ n) := fun c => ⟨gray c.1, gray_lt c.2⟩
  have hinj : Function.Injective f := by
    intro a b hab
    have : gray a.1 = gray b.1 := congrArg Fin.val hab
    exact Fin.ext (gray_injective this)
  have hsurj : Function.Surjective f := Finite.injective_iff_surjective.mp hinj
  obtain ⟨c, hc⟩ := hsurj ⟨x, hx⟩
  exact ⟨c.1, c.2, congrArg Fin.val hc⟩

theorem encode_lt (l : List Nat) : encode l < 2 ^ l.length := by
  induction l with
  | nil => simp [encode]
  | cons b t ih =>
    unfold encode
    rw [List.length_cons, pow_succ]
    have := Nat.mod_lt b (by decide : 0 < 2)
    omega

theorem encode_testBit (l : List Nat) (i : Nat) :
    (encode l).testBit i = decide (l.getD i 0 % 2 = 1) := by
  induction l generalizing i with
  | nil => simp [encode]
  | cons b t ih =>
    unfold encode
    rcases i with _ | i
    · rw [Nat.testBit_zero]
      have : (b % 2 + 2 * encode t) % 2 = b % 2 := by omega
      rw [this]; rfl
    · rw [Nat.testBit_succ]
      have : (b % 2 + 2 * encode t) / 2 = encode t := by
        have := Nat.mod_lt b (by decide : 0 < 2)
        omega
      rw [this, ih i]; rfl

theorem cast_eq_ite_mod (a : Nat) : (a : ZMod 2) = if a % 2 = 1 then 1 else 0 := by
  rw [← ZMod.natCast_mod a 2]
  rcases Nat.mod_two_eq_zero_or_one a with h | h <;> simp [h]

/-- Every point of GF(2)^n is visited at some step `c < 2^n`. -/
theorem exists_step_of_point (x : List Nat) (n : Nat) (hlen : x.length = n) :
    ∃ c, c < 2 ^ n ∧ ∀ i, gray_point c i = point_of x i := by
  obtain ⟨c, hc, hg⟩ := gray_surjective n (encode x) (by rw [← hlen]; exact encode_lt x)
  refine ⟨c, hc, fun i => ?_⟩
  unfold gray_point point_of bitz
  rw [hg, encode_testBit, cast_eq_ite_mod]
  by_cases h : x.getD i 0 % 2 = 1 <;> simp [h]

/-! ## The assertions -/

theorem asserts_hold_of_valid (sys : List (List Nat)) (n m T : Nat) (hv : ValidSystem sys n m T) :
    asserts_hold sys (find_partial_derivs sys m T n) n m T = true := by
  have hT := hv.rowlen_eq
  subst hT
  have hbit : ∀ t : Nat, t ≤ 1 → (1 = t ∨ 0 = t) := fun t ht => by omega
  unfold asserts_hold
  simp only [Bool.and_eq_true, List.all_eq_true, List.mem_range, decide_eq_true_eq]
  refine ⟨⟨fun v hvn i _ e he => ?_, fun v hvn e he => ?_⟩, fun e _ => ?_⟩
  · apply hbit
    rw [derivs_get_find sys m _ n e v i he hvn]
    exact diff_eq_le_one _ n v hvn i
  · apply hbit
    unfold pdiff_eval_term
    split
    · exact hv.row_le_one e _
    · rw [derivs_get_find sys m _ n e v _ he hvn]
      exact xor_le_one (hv.row_le_one e _) (diff_eq_le_one _ n v hvn _)
  · exact hbit _ (hv.row_le_one e _)

/-! ## The search as a whole -/

/-- What `fast_exhaustive_search` returns on a valid system: no assertion fails, and the
result is read off the final loop state. -/
theorem fast_exhaustive_search_eq (mqs : List (List Nat)) (n m T : Nat) (solution : List Nat)
    (hv : ValidSystem mqs n m T) (hlen : solution.length = n) :
    fast_exhaustive_search mqs n m T solution = some
      { func_eval := (search_run mqs n m T (search_bound n)).func_eval
        count := (search_run mqs n m T (search_bound n)).count
        solution := if (search_run mqs n m T (search_bound n)).func_eval = 0
          then decode (search_run mqs n m T (search_bound n)).count n else solution } := by
  unfold fast_exhaustive_search
  simp only [asserts_hold_of_valid mqs n m T hv, if_true]
  rw [fill_solution_eq _ n solution hlen]

/-- At every loop state, `func_eval` is zero exactly at a common root. -/
theorem func_eval_eq_zero_iff (mqs : List (List Nat)) (n m T : Nat) (s : SearchState)
    (hinv : SearchInv mqs n m T s) :
    s.func_eval = 0 ↔ ∀ e, e < m → gf2_poly (mqs.getD e []) n T (gray_point s.count) = 0 := by
  rw [eq_zero_iff_bitz]
  constructor
  · intro h e he
    have := h e
    rw [hinv.fe e, if_pos he] at this
    exact this
  · intro h e
    rw [hinv.fe e]
    by_cases he : e < m
    · rw [if_pos he]; exact h e he
    · rw [if_neg he]

theorem isRoot_iff_verify (sys : List (List Nat)) (n m T : Nat) (h01 : Coeffs01 sys)
    (x : List Nat) (hx : Bits01 x) :
    IsRoot sys n m T x ↔ verify_sols sys x n m T = true :=
  (verify_sols_iff_root sys n m T h01 x hx).symm

theorem isRoot_decode (sys : List (List Nat)) (n m T : Nat) (c : Nat) :
    IsRoot sys n m T (decode c n) ↔
      ∀ e, e < m → gf2_poly (sys.getD e []) n T (gray_point c) = 0 := by
  unfold IsRoot gf2_eval
  constructor
  · intro h e he
    rw [← gf2_poly_congr _ n T _ _ (fun i hi => point_of_decode c n i hi)]
    exact h e he
  · intro h e he
    rw [gf2_poly_congr _ n T _ _ (fun i hi => point_of_decode c n i hi)]
    exact h e he

/-- The final loop state: the invariant holds, and either a root was met or the walk is
complete. -/
theorem search_final (mqs : List (List Nat)) (n m T : Nat) (hv : ValidSystem mqs n m T)
    (hsq : SquareFree mqs n) :
    SearchInv mqs n m T (search_run mqs n m T (search_bound n)) ∧
    ((search_run mqs n m T (search_bound n)).func_eval = 0 ∨
      (search_run mqs n m T (search_bound n)).count = 2 ^ n - 1) := by
  have hinv := search_run_inv mqs n m T hv hsq (search_bound n)
  refine ⟨hinv, ?_⟩
  rcases search_run_exit mqs n m T hv.2.1 with h | h
  · exact Or.inl h
  · right
    have := hinv.count_lt
    omega

/-- If the loop ends with `func_eval ≠ 0`, no step `c < 2^n` visits a root. -/
theorem search_final_no_root (mqs : List (List Nat)) (n m T : Nat) (hv : ValidSystem mqs n m T)
    (hsq : SquareFree mqs n) (hne : (search_run mqs n m T (search_bound n)).func_eval ≠ 0)
    (c : Nat) (hc : c < 2 ^ n) :
    ∃ e, e < m ∧ gf2_poly (mqs.getD e []) n T (gray_point c) ≠ 0 := by
  obtain ⟨hinv, hexit⟩ := search_final mqs n m T hv hsq
  have hcount : (search_run mqs n m T (search_bound n)).count = 2 ^ n - 1 := by
    rcases hexit with h | h
    · exact absurd h hne
    · exact h
  by_cases hlt : c < (search_run mqs n m T (search_bound n)).count
  · exact hinv.first c hlt
  · have hceq : c = (search_run mqs n m T (search_bound n)).count := by omega
    by_contra hall
    push_neg at hall
    apply hne
    rw [func_eval_eq_zero_iff mqs n m T _ hinv, ← hceq]
    exact hall

/-- C1. Soundness of the search: on a valid system (`1 ≤ n ≤ 63`, `m ≤ 64`, rows of length
`n(n+1)/2 + n + 1`, coefficients 0/1) with all square slots zero,
`fast_exhaustive_search` returns (no assertion fails), and if it reports a solution
(`func_eval = 0` at loop exit) then `verify_sols` accepts the written solution vector on the
same system; hence on a system without a root in `{0,1}^n` no solution is reported. -/
theorem search_sound (mqs : List (List Nat)) (n m T : Nat) (solution : List Nat)
    (hv : ValidSystem mqs n m T) (hsq : SquareFree mqs n) (hlen : solution.length = n) :
    ∃ r, fast_exhaustive_search mqs n m T solution = some r ∧
      (r.func_eval = 0 → verify_sols mqs r.solution n m T = true) ∧
      ((∀ x, x.length = n → Bits01 x → verify_sols mqs x n m T = false) →
        r.func_eval ≠ 0) := by
  refine ⟨_, fast_exhaustive_search_eq mqs n m T solution hv hlen, ?_, ?_⟩
  · intro h0
    have h0' : (search_run mqs n m T (search_bound n)).func_eval = 0 := h0
    show verify_sols mqs (if (search_run mqs n m T (search_bound n)).func_eval = 0
          then decode (search_run mqs n m T (search_bound n)).count n else solution) n m T = true
    rw [if_pos h0', verify_sols_decode mqs n m T hv.2.2.2.2]
    exact (func_eval_eq_zero_iff mqs n m T _ (search_final mqs n m T hv hsq).1).mp h0'
  · intro hnone h0
    have h0' : (search_run mqs n m T (search_bound n)).func_eval = 0 := h0
    have hroot := (func_eval_eq_zero_iff mqs n m T _ (search_final mqs n m T hv hsq).1).mp h0'
    have hver := (verify_sols_decode mqs n m T hv.2.2.2.2
      (search_run mqs n m T (search_bound n)).count).mpr hroot
    rw [hnone _ (decode_length _ n) (decode_bits01 _ n)] at hver
    exact Bool.noConfusion hver

/-- C2. Exhaustiveness of the search: on a valid system with all square slots zero, if
`fast_exhaustive_search` ends without reporting a solution (`func_eval ≠ 0` at loop exit)
then `verify_sols` rejects every vector of `{0,1}^n`; hence whenever some root exists the
search reports a solution. -/
theorem search_exhaustive (mqs : List (List Nat)) (n m T : Nat) (solution : List Nat)
    (hv : ValidSystem mqs n m T) (hsq : SquareFree mqs n) (hlen : solution.length = n) :
    ∃ r, fast_exhaustive_search mqs n m T solution = some r ∧
      (r.func_eval ≠ 0 → ∀ x, x.length = n → Bits01 x → verify_sols mqs x n m T = false) ∧
      ((∃ x, x.length = n ∧ Bits01 x ∧ verify_sols mqs x n m T = true) → r.func_eval = 0) := by
  have key : (search_run mqs n m T (search_bound n)).func_eval ≠ 0 →
      ∀ x, x.length = n → Bits01 x → verify_sols mqs x n m T = false := by
    intro hne x hx hx01
    obtain ⟨c, hc, hpt⟩ := exists_step_of_point x n hx
    obtain ⟨e, he, hval⟩ := search_final_no_root mqs n m T hv hsq hne c hc
    by_contra hver
    have hver' : verify_sols mqs x n m T = true := by
      cases h : verify_sols mqs x n m T
      · exact absurd h hver
      · rfl
    have := (verify_sols_iff_root mqs n m T hv.2.2.2.2 x hx01).mp hver' e he
    rw [gf2_poly_congr _ n T _ _ (fun i _ => hpt i)] at hval
    exact hval this
  refine ⟨_, fast_exhaustive_search_eq mqs n m T solution hv hlen, key, ?_⟩
  rintro ⟨x, hx, hx01, hver⟩
  by_contra hne
  rw [key hne x hx hx01] at hver
  exact Bool.noConfusion hver

/-- C3. First solution in Gray-code order: on a valid system with all square slots zero
that has a root in `{0,1}^n`, the search reports a solution, the final `count` is below
`2^n`, the point `g(count)` is a root of every equation, no point `g(c)` with `c < count`
is one, and `solution[v]` is bit `v` of `g(count) = count XOR (count >> 1)` for `v < n`. -/
theorem search_first_root (mqs : List (List Nat)) (n m T : Nat) (solution : List Nat)
    (hv : ValidSystem mqs n m T) (hsq : SquareFree mqs n) (hlen : solution.length = n)
    (hroot : ∃ x, x.length = n ∧ Bits01 x ∧ IsRoot mqs n m T x) :
    ∃ r, fast_exhaustive_search mqs n m T solution = some r ∧
      r.func_eval = 0 ∧ r.count < 2 ^ n ∧
      IsRoot mqs n m T (decode r.count n) ∧
      (∀ c, c < r.count → ¬ IsRoot mqs n m T (decode c n)) ∧
      r.solution.length = n ∧
      ∀ v, v < n → r.solution.getD v 0 = ((r.count ^^^ (r.count >>> 1)) >>> v) % 2 := by
  obtain ⟨hinv, _⟩ := search_final mqs n m T hv hsq
  have h0 : (search_run mqs n m T (search_bound n)).func_eval = 0 := by
    by_contra hne
    obtain ⟨x, hx, hx01, hr⟩ := hroot
    obtain ⟨c, hc, hpt⟩ := exists_step_of_point x n hx
    obtain ⟨e, he, hval⟩ := search_final_no_root mqs n m T hv hsq hne c hc
    rw [gf2_poly_congr _ n T _ _ (fun i _ => hpt i)] at hval
    exact hval (hr e he)
  refine ⟨_, fast_exhaustive_search_eq mqs n m T solution hv hlen, h0, hinv.count_lt, ?_, ?_,
    ?_, ?_⟩
  · exact (isRoot_decode mqs n m T _).mpr ((func_eval_eq_zero_iff mqs n m T _ hinv).mp h0)
  · intro c hc hr
    obtain ⟨e, he, hval⟩ := hinv.first c hc
    exact hval ((isRoot_decode mqs n m T c).mp hr e he)
  · show (if (search_run mqs n m T (search_bound n)).func_eval = 0
          then decode (search_run mqs n m T (search_bound n)).count n else solution).length = n
    rw [if_pos h0, decode_length]
  · intro v hvn
    show (if (search_run mqs n m T (search_bound n)).func_eval = 0
          then decode (search_run mqs n m T (search_bound n)).count n else solution).getD v 0 = _
    rw [if_pos h0, decode_getD _ n v hvn, Nat.and_one_is_mod]
    rfl

/-! ## Normalisation -/

/-- C4. Folding `x^2 = x` preserves evaluation: for a system `S` with 0/1 coefficients
(square slots arbitrary) and a vector `x` of `{0,1}^n`, every equation of `reduce_sys S`
evaluates at `x` (by the formula of `verify_sols`) to the same value as the equation of `S`,
and `verify_sols` gives the same verdict on `S` and on `reduce_sys S`. -/
theorem reduce_sys_preserves_eval (S : List (List Nat)) (n m T : Nat) (x : List Nat)
    (hshape : Shape S n m T) (h01 : Coeffs01 S) (_hx : x.length = n) (hx01 : Bits01 x) :
    (∀ e, e < m →
      eval_eq ((reduce_sys S m n T).getD e []) x n T = eval_eq (S.getD e []) x n T) ∧
    verify_sols S x n m T = verify_sols (reduce_sys S m n T) x n m T := by
  have hT := hshape.T_eq
  subst hT
  have hrow : ∀ e, e < m →
      eval_eq ((reduce_sys S m n (cbinom2 n + n + 1)).getD e []) x n (cbinom2 n + n + 1)
        = eval_eq (S.getD e []) x n (cbinom2 n + n + 1) := by
    intro e he
    rw [reduce_sys_getD S m n _ hshape.1 e he]
    exact reduce_row_eval_eq n _ x (hshape.row_length he) (h01.row e) hx01.getD_le
  refine ⟨hrow, ?_⟩
  rw [Bool.eq_iff_iff, verify_sols_eq_true_iff, verify_sols_eq_true_iff]
  constructor
  · intro h e he
    rw [hrow e he]; exact h e he
  · intro h e he
    rw [← hrow e he]; exact h e he

/-- C5. Normalisation is idempotent: for a system `S` of `m` rows of length
`n(n+1)/2 + n + 1`, `reduce_sys (reduce_sys S) = reduce_sys S`, and in `reduce_sys S` the
square-monomial slot `v(v+1)/2 + v` of every equation is zero for every `v < n`. -/
theorem reduce_sys_idempotent (S : List (List Nat)) (n m T : Nat) (hshape : Shape S n m T) :
    reduce_sys (reduce_sys S m n T) m n T = reduce_sys S m n T ∧
    ∀ e v, e < m → v < n →
      ((reduce_sys S m n T).getD e []).getD (v * (v + 1) / 2 + v) 0 = 0 := by
  have hT := hshape.T_eq
  subst hT
  constructor
  · rw [reduce_sys_eq_map S m n _ hshape.1,
      reduce_sys_eq_map _ m n _ (by rw [List.length_map]; exact hshape.1), List.map_map]
    apply List.map_congr_left
    intro row hrow
    have hl : row.length = cbinom2 n + n + 1 := hshape.2.2 row hrow
    exact reduce_row_idem n row hl
  · intro e v he hvn
    rw [reduce_sys_getD S m n _ hshape.1 e he]
    exact reduce_row_sq n _ (hshape.row_length he) v hvn

/-! ## Derivatives -/

theorem point_of_flip_bit (x : List Nat) (v : Nat) (hv : v < x.length) (hx01 : Bits01 x)
    (i : Nat) : point_of (flip_bit x v) i = point_of x i + if i = v then 1 else 0 := by
  unfold point_of flip_bit
  rw [getD_set_nat]
  by_cases hi : i = v
  · subst hi
    rw [if_pos ⟨rfl, hv⟩, if_pos rfl]
    have := hx01.getD_le i
    generalize x.getD i 0 = a at this ⊢
    interval_cases a <;> decide
  · have hc : ¬ (v = i ∧ v < x.length) := fun h => hi h.1.symm
    rw [if_neg hc, if_neg hi, add_zero]

theorem affine_eval_cast (d x : List Nat) (n : Nat) :
    ((affine_eval d x n : Nat) : ZMod 2) = affine_poly d n (point_of x) := by
  unfold affine_eval affine_poly
  rw [foldl_cast_sum _ (fun i => (d.getD i 0 : ZMod 2) * point_of x i)
    (fun r k => by rw [cast_xor, cast_and]; rfl), list_range_map_sum]

theorem affine_eval_le_one (d x : List Nat) (n : Nat) (hd : ∀ k, d.getD k 0 ≤ 1) :
    affine_eval d x n ≤ 1 := by
  unfold affine_eval
  apply foldl_le_one _ _ _ _ (hd n)
  intro r k _ hr
  exact xor_le_one hr (and_le_one (hd k))

/-- C6. Finite difference law: for a normalised equation `f` with 0/1 coefficients (all
square slots zero), a variable `v < n` and a point `x` of `{0,1}^n`,
`f(x with bit v flipped) XOR f(x)` (both by the formula of `verify_sols`) equals the affine
polynomial `d = diff_eq(f, v)` at `x`, that is `d[n] XOR (XOR over i < n of d[i] AND x_i)`. -/
theorem finite_difference (f x : List Nat) (n v : Nat)
    (_hlen : f.length = n * (n + 1) / 2 + n + 1) (hf01 : ∀ c ∈ f, c ≤ 1)
    (hsq : ∀ u, u < n → f.getD (u * (u + 1) / 2 + u) 0 = 0) (hv : v < n)
    (hx : x.length = n) (hx01 : Bits01 x) :
    eval_eq f (flip_bit x v) n (n * (n + 1) / 2 + n + 1)
        ^^^ eval_eq f x n (n * (n + 1) / 2 + n + 1)
      = affine_eval (diff_eq f (n * (n + 1) / 2 + n + 1) n v) x n := by
  have hf := getD_le_one hf01
  have hflip01 : ∀ k, (flip_bit x v).getD k 0 ≤ 1 := by
    intro k
    unfold flip_bit
    rw [getD_set_nat]
    split
    · omega
    · exact hx01.getD_le k
  have hd := diff_eq_le_one f n v hv
  apply cast_inj_of_le_one
    (xor_le_one (eval_eq_le_one f _ n _ hf hflip01) (eval_eq_le_one f x n _ hf hx01.getD_le))
    (affine_eval_le_one _ x n hd)
  rw [cast_xor, eval_eq_cast f _ n _ hf, eval_eq_cast f x n _ hf, affine_eval_cast]
  unfold gf2_eval
  have hflip := gf2_poly_flip f n v hv hf (hsq v hv) (point_of x) (point_of (flip_bit x v))
    (point_of_flip_bit x v (by omega) hx01)
  have h2 := zmod2_add_self (gf2_poly f n (cbinom2 n + n + 1) (point_of x))
  show gf2_poly f n (cbinom2 n + n + 1) (point_of (flip_bit x v))
      + gf2_poly f n (cbinom2 n + n + 1) (point_of x)
    = affine_poly (diff_eq f (cbinom2 n + n + 1) n v) n (point_of x)
  rw [hflip]
  linear_combination h2

theorem pack_bits_congr (t t' : Nat → Nat) (m init : Nat) (h : ∀ e, e < m → t e = t' e) :
    pack_bits t m init = pack_bits t' m init := by
  induction m with
  | zero => rfl
  | succ m ih =>
    rw [pack_bits_succ, pack_bits_succ, ih (fun e he => h e (by omega)), h m (by omega)]

theorem pack_bits_zero (m : Nat) : pack_bits (fun _ => 0) m 0 = 0 := by
  induction m with
  | zero => rfl
  | succ m ih => rw [pack_bits_succ, ih]; simp

/-- C7. Derivative symmetry: for a system with 0/1 coefficients and `eq_num ≤ 64`, the
packed second-order table built in `fast_exhaustive_search` satisfies
`pdiff2[i][j] = pdiff2[j][i]` for all `i, j < n` and `pdiff2[i][i] = 0` for all `i < n`. -/
theorem pdiff2_symmetric (mqs : List (List Nat)) (n m T : Nat) (hshape : Shape mqs n m T)
    (_h01 : Coeffs01 mqs) (_hm : m ≤ 64) :
    (∀ i j, i < n → j < n →
      get2 (build_pdiff2 (find_partial_derivs mqs m T n) n m) i j
        = get2 (build_pdiff2 (find_partial_derivs mqs m T n) n m) j i) ∧
    ∀ i, i < n → get2 (build_pdiff2 (find_partial_derivs mqs m T n) n m) i i = 0 := by
  have hT := hshape.T_eq
  subst hT
  constructor
  · intro i j hi hj
    rw [build_pdiff2_get2 _ n m i j hi hj, build_pdiff2_get2 _ n m j i hj hi]
    apply pack_bits_congr
    intro e he
    rw [derivs_get_find mqs m _ n e j i he hj, derivs_get_find mqs m _ n e i j he hi]
    exact diff_eq_symm _ n i j hi hj
  · intro i hi
    rw [build_pdiff2_get2 _ n m i i hi hi]
    refine (pack_bits_congr _ (fun _ => 0) m 0 ?_).trans (pack_bits_zero m)
    intro e he
    rw [derivs_get_find mqs m _ n e i i he hi]
    exact diff_eq_diag _ n i hi

/-! ## The verifier -/

/-- C8. Verifier correctness: for a system with 0/1 coefficients and a solution vector with
entries in `{0,1}`, `verify_sols` returns true iff for every equation `e < eq_num` the GF(2)
sum of `a_ij x_i x_j` over `i ≤ j` (coefficient at index `j(j+1)/2 + i`), plus the sum of
`b_i x_i` (index `n(n+1)/2 + i`), plus the constant (index `xvar_num - 1`) is zero. -/
theorem verify_sols_correct (sys : List (List Nat)) (sol : List Nat) (n m T : Nat)
    (_hshape : Shape sys n m T) (h01 : Coeffs01 sys) (_hlen : sol.length = n)
    (hs01 : Bits01 sol) :
    verify_sols sys sol n m T = true ↔
      ∀ e, e < m →
        (∑ j in Finset.range n, ∑ i in Finset.range (j + 1),
            ((sys.getD e []).getD (j * (j + 1) / 2 + i) 0 : ZMod 2)
              * (sol.getD i 0 : ZMod 2) * (sol.getD j 0 : ZMod 2))
          + (∑ i in Finset.range n,
              ((sys.getD e []).getD (n * (n + 1) / 2 + i) 0 : ZMod 2) * (sol.getD i 0 : ZMod 2))
          + ((sys.getD e []).getD (T - 1) 0 : ZMod 2) = 0 :=
  verify_sols_iff_root sys n m T h01 sol hs01

/-! ## No variables -/

theorem reduce_sys_zero_vars (mqs : List (List Nat)) (m T : Nat) (hm : mqs.length = m) :
    reduce_sys mqs m 0 T = mqs := by
  rw [reduce_sys_eq_map mqs m 0 T hm]
  have : ∀ row ∈ mqs, reduce_row 0 T row = id row := fun row _ => rfl
  rw [List.map_congr_left this, List.map_id]

theorem init_func_eval_eq_zero_iff (mqs : List (List Nat)) (m T : Nat) (hm : m ≤ 64)
    (h01 : Coeffs01 mqs) :
    init_func_eval mqs m T = 0 ↔ ∀ e, e < m → (mqs.getD e []).getD (T - 1) 0 = 0 := by
  rw [init_func_eval_eq, eq_zero_iff_bitz]
  constructor
  · intro h e he
    have := h e
    rw [pack_bits_bitz _ m hm (fun e _ => h01.row e _), if_pos he] at this
    exact (cast_eq_zero_of_le_one (h01.row e _)).mp this
  · intro h e
    rw [pack_bits_bitz _ m hm (fun e _ => h01.row e _)]
    by_cases he : e < m
    · rw [if_pos he, h e he]; rfl
    · rw [if_neg he]

theorem print_loop_eq (solution : List Nat) (todo : Nat) :
    ∀ (i : Nat) (out : List Nat), i + todo ≤ solution.length →
      print_loop solution todo i out = some (out ++ (solution.drop i).take todo) := by
  induction todo with
  | zero =>
    intro i out _
    simp [print_loop]
  | succ todo ih =>
    intro i out h
    have hi : i < solution.length := by omega
    rw [print_loop, List.getElem?_eq_getElem hi]
    simp only
    rw [ih (i + 1) _ (by omega), List.append_assoc]
    congr 2
    rw [List.drop_eq_getElem_cons hi, List.take_succ_cons]
    rfl

/-- For `1 ≤ var_num` the print loop of `main` stays inside the buffer and prints it. -/
theorem print_solution_eq (solution : List Nat) (n : Nat) (hn1 : 1 ≤ n) (hn : n < 2 ^ 64)
    (hlen : solution.length = n) : print_solution solution n = some solution := by
  have hlast : (n + 2 ^ 64 - 1) % 2 ^ 64 = n - 1 := by
    have : n + 2 ^ 64 - 1 = (n - 1) + 2 ^ 64 := by omega
    rw [this, Nat.add_mod_right, Nat.mod_eq_of_lt (by omega)]
  have hi : n - 1 < solution.length := by omega
  unfold print_solution
  rw [hlast]
  unfold print_upto
  rw [print_loop_eq solution (n - 1) 0 [] (by omega), List.getElem?_eq_getElem hi]
  simp only [List.nil_append, List.drop_zero]
  have h1 : solution = solution.take (n - 1) ++ solution.drop (n - 1) :=
    (List.take_append_drop (n - 1) solution).symm
  have h2 : solution.drop (n - 1) = [solution[n - 1]] := by
    rw [List.drop_eq_getElem_cons hi]
    have : solution.drop (n - 1 + 1) = [] := List.drop_eq_nil_of_le (by omega)
    rw [this]
  rw [h2] at h1
  exact congrArg some h1.symm

/-- What `fast_exhaustive_search` does without variables: the bound is `0`, the loop is not
entered, nothing is written, and `func_eval` is the packed word of the constant terms. -/
theorem search_zero_vars (mqs : List (List Nat)) (m : Nat) (solution : List Nat)
    (h01 : Coeffs01 mqs) :
    fast_exhaustive_search mqs 0 m 1 solution = some
      { func_eval := init_func_eval mqs m 1, count := 0, solution := solution } := by
  have hassert : asserts_hold mqs (find_partial_derivs mqs m 1 0) 0 m 1 = true := by
    unfold asserts_hold
    simp only [List.range_zero, List.all_nil, Bool.true_and, List.all_eq_true, List.mem_range,
      decide_eq_true_eq]
    intro e _
    have := h01.row e (1 - 1)
    omega
  have hrun : search_run mqs 0 m 1 (search_bound 0) = search_init mqs 0 m 1 := rfl
  unfold fast_exhaustive_search
  simp only [hassert, if_true, hrun]
  have : fill_solution (search_init mqs 0 m 1).count 0 solution = solution := rfl
  rw [this, ite_self]
  rfl

theorem verify_sols_zero_vars (mqs : List (List Nat)) (m : Nat) (solution : List Nat)
    (h01 : Coeffs01 mqs) :
    verify_sols mqs solution 0 m 1 = true ↔ ∀ e, e < m → (mqs.getD e []).getD 0 0 = 0 := by
  rw [verify_sols_eq_true_iff]
  have heval : ∀ e, eval_eq (mqs.getD e []) solution 0 1 = (mqs.getD e []).getD 0 0 := by
    intro e
    unfold eval_eq
    simp
  constructor
  · intro h e he
    have h1 := h e he
    rw [heval] at h1
    have := h01.row e 0
    omega
  · intro h e he
    rw [heval, h e he]
    decide

/-- With variables the print loop stays inside the buffer: on `x0 x1 + x1 + 1` in two
variables `main` ends with "solution valid" and prints the root `[0, 1]`; with no variable
and the equation `1 = 0` it ends with "solution invalid". -/
theorem main_examples :
    main [[0, 1, 0, 0, 1, 1]] 2 1 [7, 7]
      = MainOutcome.solution_valid { func_eval := 0, count := 3, solution := [0, 1] } [0, 1] ∧
    main [[1]] 0 1 []
      = MainOutcome.solution_invalid { func_eval := 1, count := 0, solution := [] } := by
  decide

/-- C9 (the code does not reject `n = 0`). The run of `main` with `var_num = 0`
(`eq_num ≤ 64`, rows holding only a 0/1 constant term, zero-length buffer): no assertion
fails and the input is not rejected.  If every constant term is zero, the search reports a
found solution (`func_eval = 0`, `count = 0`), `verify_sols` accepts it, and the print loop
of lines 29-31, its bound `var_num - 1` having wrapped to `2^64 - 1`, reads outside the
zero-length buffer.  Otherwise the search ends with `func_eval ≠ 0` and `main` prints
"solution invalid". -/
theorem main_zero_vars (mqs : List (List Nat)) (m : Nat) (solution : List Nat)
    (hm : m ≤ 64) (hshape : Shape mqs 0 m 1) (h01 : Coeffs01 mqs) (hlen : solution.length = 0) :
    main mqs 0 m solution ≠ MainOutcome.assert_failed ∧
    fast_exhaustive_search (reduce_sys mqs m 0 1) 0 m 1 solution = some
      { func_eval := init_func_eval mqs m 1, count := 0, solution := solution } ∧
    ((∀ e, e < m → (mqs.getD e []).getD 0 0 = 0) →
      init_func_eval mqs m 1 = 0 ∧
      verify_sols (reduce_sys mqs m 0 1) solution 0 m 1 = true ∧
      print_solution solution 0 = none ∧
      main mqs 0 m solution
        = MainOutcome.out_of_bounds { func_eval := 0, count := 0, solution := solution }) ∧
    ((¬ ∀ e, e < m → (mqs.getD e []).getD 0 0 = 0) →
      init_func_eval mqs m 1 ≠ 0 ∧
      main mqs 0 m solution = MainOutcome.solution_invalid
        { func_eval := init_func_eval mqs m 1, count := 0, solution := solution }) := by
  have hx : xvar_num_of 0 = 1 := rfl
  have hnil : solution = [] := List.length_eq_zero.mp hlen
  have hred := reduce_sys_zero_vars mqs m 1 hshape.1
  have hsearch := search_zero_vars mqs m solution h01
  have hprint : print_solution solution 0 = none := by
    rw [hnil]; decide
  have hmain : main mqs 0 m solution =
      if verify_sols mqs solution 0 m 1 then
        MainOutcome.out_of_bounds
          { func_eval := init_func_eval mqs m 1, count := 0, solution := solution }
      else MainOutcome.solution_invalid
          { func_eval := init_func_eval mqs m 1, count := 0, solution := solution } := by
    unfold main
    simp only [hx, hred, hsearch, hprint]
  have hz := init_func_eval_eq_zero_iff mqs m 1 hm h01
  have hver := verify_sols_zero_vars mqs m solution h01
  refine ⟨?_, ?_, ?_, ?_⟩
  · rw [hmain]
    split <;> exact fun h => MainOutcome.noConfusion h
  · rw [hred]
    exact hsearch
  · intro hall
    refine ⟨hz.mpr hall, ?_, hprint, ?_⟩
    · rw [hred]
      exact hver.mpr hall
    · rw [hmain, if_pos (hver.mpr hall), hz.mpr hall]
  · intro hnot
    have hv : ¬ verify_sols mqs solution 0 m 1 = true := fun h => hnot (hver.mp h)
    refine ⟨fun h => hnot (hz.mp h), ?_⟩
    rw [hmain, if_neg hv]

/-! ## The loop invariant I1 -/

/-- C10. Loop invariant I1: on a valid system with all square slots zero, before the loop
(`k = 0`) and after every iteration (`search_run … k` is the state after `k` iterations, or
the exit state if the loop has ended before), bit `e` of `func_eval` equals equation `e`
evaluated by the formula of `verify_sols` at the point `g(count) = count XOR (count >> 1)`
for every `e < eq_num`, all bits at positions `≥ eq_num` are zero, and `func_eval = 0` iff
`verify_sols` accepts `g(count)`. -/
theorem func_eval_invariant (mqs : List (List Nat)) (n m T : Nat)
    (hv : ValidSystem mqs n m T) (hsq : SquareFree mqs n) (k : Nat) :
    (∀ e, e < m →
      ((search_run mqs n m T k).func_eval >>> e) &&& 1
        = eval_eq (mqs.getD e []) (decode (search_run mqs n m T k).count n) n T) ∧
    (∀ j, m ≤ j → (search_run mqs n m T k).func_eval.testBit j = false) ∧
    ((search_run mqs n m T k).func_eval = 0 ↔
      verify_sols mqs (decode (search_run mqs n m T k).count n) n m T = true) := by
  have hinv := search_run_inv mqs n m T hv hsq k
  have h01 : Coeffs01 mqs := hv.2.2.2.2
  refine ⟨fun e he => ?_, fun j hj => ?_, ?_⟩
  · apply cast_inj_of_le_one
    · rw [Nat.and_one_is_mod]; omega
    · exact eval_eq_le_one _ _ n T (h01.row e) (decode_bits01 _ n).getD_le
    · rw [cast_shift_and_one, hinv.fe e, if_pos he, eval_eq_cast _ _ n T (h01.row e)]
      unfold gf2_eval
      exact (gf2_poly_congr _ n T _ _ (fun i hi => point_of_decode _ n i hi)).symm
  · have := hinv.fe j
    rw [if_neg (by omega)] at this
    exact (bitz_eq_zero_iff _ _).mp this
  · rw [func_eval_eq_zero_iff mqs n m T _ hinv, verify_sols_decode mqs n m T h01]

/-! ## The theorems at concrete inputs -/

/-- Witness for C1: `x0 x1 + x0 + 1` in two variables. -/
theorem search_sound_witness :
    ValidSystem [[0, 1, 0, 1, 0, 1]] 2 1 6 ∧ SquareFree [[0, 1, 0, 1, 0, 1]] 2 ∧
    ∃ r, fast_exhaustive_search [[0, 1, 0, 1, 0, 1]] 2 1 6 [0, 0] = some r ∧
      (r.func_eval = 0 → verify_sols [[0, 1, 0, 1, 0, 1]] r.solution 2 1 6 = true) ∧
      ((∀ x, x.length = 2 → Bits01 x → verify_sols [[0, 1, 0, 1, 0, 1]] x 2 1 6 = false) →
        r.func_eval ≠ 0) :=
  ⟨by decide, by decide,
    search_sound [[0, 1, 0, 1, 0, 1]] 2 1 6 [0, 0] (by decide) (by decide) (by decide)⟩

/-- Witness for C2: three equations in four variables with the planted root `[1,0,1,1]`. -/
theorem search_exhaustive_witness :
    ValidSystem
      [[0, 1, 0, 1, 1, 0, 0, 1, 1, 0, 1, 0, 1, 1, 1], [0, 0, 0, 1, 0, 0, 1, 1, 0, 0, 0, 1, 1, 0, 1],
        [0, 1, 0, 0, 1, 0, 1, 0, 1, 0, 1, 1, 0, 1, 0]] 4 3 15 ∧
    SquareFree
      [[0, 1, 0, 1, 1, 0, 0, 1, 1, 0, 1, 0, 1, 1, 1], [0, 0, 0, 1, 0, 0, 1, 1, 0, 0, 0, 1, 1, 0, 1],
        [0, 1, 0, 0, 1, 0, 1, 0, 1, 0, 1, 1, 0, 1, 0]] 4 ∧
    ∃ r, fast_exhaustive_search
      [[0, 1, 0, 1, 1, 0, 0, 1, 1, 0, 1, 0, 1, 1, 1], [0, 0, 0, 1, 0, 0, 1, 1, 0, 0, 0, 1, 1, 0, 1],
        [0, 1, 0, 0, 1, 0, 1, 0, 1, 0, 1, 1, 0, 1, 0]] 4 3 15 [0, 0, 0, 0] = some r ∧
      (r.func_eval ≠ 0 → ∀ x, x.length = 4 → Bits01 x → verify_sols
        [[0, 1, 0, 1, 1, 0, 0, 1, 1, 0, 1, 0, 1, 1, 1], [0, 0, 0, 1, 0, 0, 1, 1, 0, 0, 0, 1, 1, 0, 1],
          [0, 1, 0, 0, 1, 0, 1, 0, 1, 0, 1, 1, 0, 1, 0]] x 4 3 15 = false) ∧
      ((∃ x, x.length = 4 ∧ Bits01 x ∧ verify_sols
        [[0, 1, 0, 1, 1, 0, 0, 1, 1, 0, 1, 0, 1, 1, 1], [0, 0, 0, 1, 0, 0, 1, 1, 0, 0, 0, 1, 1, 0, 1],
          [0, 1, 0, 0, 1, 0, 1, 0, 1, 0, 1, 1, 0, 1, 0]] x 4 3 15 = true) → r.func_eval = 0) :=
  ⟨by decide, by decide, search_exhaustive _ 4 3 15 [0, 0, 0, 0] (by decide) (by decide) (by decide)⟩

/-- Witness for C3: the system `{x0 x1 + 1, x1 x2 + 1}` in three variables has the single
root `[1, 1, 1]`, the sixth point of the Gray-code walk.  Started on the buffer `[7, 7, 7]`,
the search runs five steps, passes the five non-roots `g(0), ..., g(4)`, stops with
`count = 5` and overwrites the buffer with `[1, 1, 1]`. -/
theorem search_first_root_witness :
    ValidSystem [[0, 1, 0, 0, 0, 0, 0, 0, 0, 1], [0, 0, 0, 0, 1, 0, 0, 0, 0, 1]] 3 2 10 ∧
    SquareFree [[0, 1, 0, 0, 0, 0, 0, 0, 0, 1], [0, 0, 0, 0, 1, 0, 0, 0, 0, 1]] 3 ∧
    (∃ x, x.length = 3 ∧ Bits01 x ∧
      IsRoot [[0, 1, 0, 0, 0, 0, 0, 0, 0, 1], [0, 0, 0, 0, 1, 0, 0, 0, 0, 1]] 3 2 10 x) ∧
    fast_exhaustive_search [[0, 1, 0, 0, 0, 0, 0, 0, 0, 1], [0, 0, 0, 0, 1, 0, 0, 0, 0, 1]]
      3 2 10 [7, 7, 7] = some { func_eval := 0, count := 5, solution := [1, 1, 1] } ∧
    (∀ c, c < 5 → ¬ IsRoot [[0, 1, 0, 0, 0, 0, 0, 0, 0, 1], [0, 0, 0, 0, 1, 0, 0, 0, 0, 1]]
      3 2 10 (decode c 3)) ∧
    ∃ r, fast_exhaustive_search [[0, 1, 0, 0, 0, 0, 0, 0, 0, 1], [0, 0, 0, 0, 1, 0, 0, 0, 0, 1]]
        3 2 10 [7, 7, 7] = some r ∧
      r.func_eval = 0 ∧ r.count < 2 ^ 3 ∧
      IsRoot [[0, 1, 0, 0, 0, 0, 0, 0, 0, 1], [0, 0, 0, 0, 1, 0, 0, 0, 0, 1]] 3 2 10
        (decode r.count 3) ∧
      (∀ c, c < r.count →
        ¬ IsRoot [[0, 1, 0, 0, 0, 0, 0, 0, 0, 1], [0, 0, 0, 0, 1, 0, 0, 0, 0, 1]] 3 2 10
          (decode c 3)) ∧
      r.solution.length = 3 ∧
      ∀ v, v < 3 → r.solution.getD v 0 = ((r.count ^^^ (r.count >>> 1)) >>> v) % 2 :=
  ⟨by decide, by decide, ⟨[1, 1, 1], by decide, by decide, by decide⟩, by decide, by decide,
    search_first_root _ 3 2 10 [7, 7, 7] (by decide) (by decide) (by decide)
      ⟨[1, 1, 1], by decide, by decide, by decide⟩⟩

/-- Witness for C4: `x0^2 + x0 x1 + x1^2 + x1 + 1` at the point `[1, 1]`. -/
theorem reduce_sys_preserves_eval_witness :
    Shape [[1, 1, 1, 0, 1, 1]] 2 1 6 ∧ Coeffs01 [[1, 1, 1, 0, 1, 1]] ∧ Bits01 [1, 1] ∧
    (∀ e, e < 1 →
      eval_eq ((reduce_sys [[1, 1, 1, 0, 1, 1]] 1 2 6).getD e []) [1, 1] 2 6
        = eval_eq (([[1, 1, 1, 0, 1, 1]] : List (List Nat)).getD e []) [1, 1] 2 6) ∧
    verify_sols [[1, 1, 1, 0, 1, 1]] [1, 1] 2 1 6
      = verify_sols (reduce_sys [[1, 1, 1, 0, 1, 1]] 1 2 6) [1, 1] 2 1 6 :=
  ⟨by decide, by decide, by decide,
    reduce_sys_preserves_eval [[1, 1, 1, 0, 1, 1]] 2 1 6 [1, 1] (by decide) (by decide)
      (by decide) (by decide)⟩

/-- Witness for C5: a system of two rows with non-zero square slots. -/
theorem reduce_sys_idempotent_witness :
    Shape [[1, 1, 1, 0, 1, 1], [1, 0, 0, 1, 1, 0]] 2 2 6 ∧
    reduce_sys (reduce_sys [[1, 1, 1, 0, 1, 1], [1, 0, 0, 1, 1, 0]] 2 2 6) 2 2 6
      = reduce_sys [[1, 1, 1, 0, 1, 1], [1, 0, 0, 1, 1, 0]] 2 2 6 ∧
    ∀ e v, e < 2 → v < 2 →
      ((reduce_sys [[1, 1, 1, 0, 1, 1], [1, 0, 0, 1, 1, 0]] 2 2 6).getD e []).getD
        (v * (v + 1) / 2 + v) 0 = 0 :=
  ⟨by decide, reduce_sys_idempotent [[1, 1, 1, 0, 1, 1], [1, 0, 0, 1, 1, 0]] 2 2 6 (by decide)⟩

/-- Witness for C6: the equation `x0 x1 + x0 x2 + x1 x2 + x1 + x2 + 1`, the point
`[1, 0, 1]` and the variable `x1`. -/
theorem finite_difference_witness :
    (∀ c ∈ [0, 1, 0, 1, 1, 0, 0, 1, 1, 1], c ≤ 1) ∧
    (∀ u, u < 3 → ([0, 1, 0, 1, 1, 0, 0, 1, 1, 1] : List Nat).getD (u * (u + 1) / 2 + u) 0 = 0) ∧
    Bits01 [1, 0, 1] ∧
    eval_eq [0, 1, 0, 1, 1, 0, 0, 1, 1, 1] (flip_bit [1, 0, 1] 1) 3 (3 * (3 + 1) / 2 + 3 + 1)
        ^^^ eval_eq [0, 1, 0, 1, 1, 0, 0, 1, 1, 1] [1, 0, 1] 3 (3 * (3 + 1) / 2 + 3 + 1)
      = affine_eval (diff_eq [0, 1, 0, 1, 1, 0, 0, 1, 1, 1] (3 * (3 + 1) / 2 + 3 + 1) 3 1)
          [1, 0, 1] 3 :=
  ⟨by decide, by decide, by decide,
    finite_difference [0, 1, 0, 1, 1, 0, 0, 1, 1, 1] [1, 0, 1] 3 1 (by decide) (by decide)
      (by decide) (by decide) (by decide) (by decide)⟩

/-- Witness for C7: two equations in three variables. -/
theorem pdiff2_symmetric_witness :
    Shape [[0, 1, 0, 1, 1, 0, 1, 0, 1, 1], [1, 0, 0, 1, 0, 1, 1, 0, 1, 1]] 3 2 10 ∧
    Coeffs01 [[0, 1, 0, 1, 1, 0, 1, 0, 1, 1], [1, 0, 0, 1, 0, 1, 1, 0, 1, 1]] ∧
    (∀ i j, i < 3 → j < 3 →
      get2 (build_pdiff2 (find_partial_derivs
          [[0, 1, 0, 1, 1, 0, 1, 0, 1, 1], [1, 0, 0, 1, 0, 1, 1, 0, 1, 1]] 2 10 3) 3 2) i j
        = get2 (build_pdiff2 (find_partial_derivs
          [[0, 1, 0, 1, 1, 0, 1, 0, 1, 1], [1, 0, 0, 1, 0, 1, 1, 0, 1, 1]] 2 10 3) 3 2) j i) ∧
    ∀ i, i < 3 →
      get2 (build_pdiff2 (find_partial_derivs
          [[0, 1, 0, 1, 1, 0, 1, 0, 1, 1], [1, 0, 0, 1, 0, 1, 1, 0, 1, 1]] 2 10 3) 3 2) i i = 0 :=
  ⟨by decide, by decide,
    pdiff2_symmetric [[0, 1, 0, 1, 1, 0, 1, 0, 1, 1], [1, 0, 0, 1, 0, 1, 1, 0, 1, 1]] 3 2 10
      (by decide) (by decide) (by decide)⟩

/-- Witness for C8: the system `{x0 + x1, x0 x1}` and the vector `[1, 1]`. -/
theorem verify_sols_correct_witness :
    Shape [[0, 0, 0, 1, 1, 0], [0, 1, 0, 0, 0, 0]] 2 2 6 ∧
    Coeffs01 [[0, 0, 0, 1, 1, 0], [0, 1, 0, 0, 0, 0]] ∧ Bits01 [1, 1] ∧
    (verify_sols [[0, 0, 0, 1, 1, 0], [0, 1, 0, 0, 0, 0]] [1, 1] 2 2 6 = true ↔
      ∀ e, e < 2 →
        (∑ j in Finset.range 2, ∑ i in Finset.range (j + 1),
            ((([[0, 0, 0, 1, 1, 0], [0, 1, 0, 0, 0, 0]] : List (List Nat)).getD e []).getD
              (j * (j + 1) / 2 + i) 0 : ZMod 2)
              * ((([1, 1] : List Nat).getD i 0 : Nat) : ZMod 2)
              * ((([1, 1] : List Nat).getD j 0 : Nat) : ZMod 2))
          + (∑ i in Finset.range 2,
              ((([[0, 0, 0, 1, 1, 0], [0, 1, 0, 0, 0, 0]] : List (List Nat)).getD e []).getD
                (2 * (2 + 1) / 2 + i) 0 : ZMod 2) * ((([1, 1] : List Nat).getD i 0 : Nat) : ZMod 2))
          + ((([[0, 0, 0, 1, 1, 0], [0, 1, 0, 0, 0, 0]] : List (List Nat)).getD e []).getD
              (6 - 1) 0 : ZMod 2) = 0) :=
  ⟨by decide, by decide, by decide,
    verify_sols_correct [[0, 0, 0, 1, 1, 0], [0, 1, 0, 0, 0, 0]] [1, 1] 2 2 6 (by decide)
      (by decide) (by decide) (by decide)⟩

/-- Witness for C9: no variable and the single equation `0 = 0`.  The search reports a
found solution, `verify_sols` accepts, and the print loop leaves the zero-length buffer. -/
theorem main_zero_vars_witness :
    (1 ≤ 64 ∧ Shape [[0]] 0 1 1 ∧ Coeffs01 [[0]] ∧ ([] : List Nat).length = 0 ∧
      ∀ e, e < 1 → (([[0]] : List (List Nat)).getD e []).getD 0 0 = 0) ∧
    fast_exhaustive_search (reduce_sys [[0]] 1 0 1) 0 1 1 []
      = some { func_eval := 0, count := 0, solution := [] } ∧
    init_func_eval [[0]] 1 1 = 0 ∧
    verify_sols (reduce_sys [[0]] 1 0 1) [] 0 1 1 = true ∧
    print_solution [] 0 = none ∧
    main [[0]] 0 1 [] = MainOutcome.out_of_bounds { func_eval := 0, count := 0, solution := [] } :=
  ⟨⟨by decide, by decide, by decide, rfl, by decide⟩, by decide,
    (main_zero_vars [[0]] 1 [] (by decide) (by decide) (by decide) rfl).2.2.1 (by decide)⟩

/-- Witness for C10: the state after one iteration on `x0 x1 + x0 + 1`. -/
theorem func_eval_invariant_witness :
    ValidSystem [[0, 1, 0, 1, 0, 1]] 2 1 6 ∧ SquareFree [[0, 1, 0, 1, 0, 1]] 2 ∧
    (∀ e, e < 1 →
      ((search_run [[0, 1, 0, 1, 0, 1]] 2 1 6 1).func_eval >>> e) &&& 1
        = eval_eq (([[0, 1, 0, 1, 0, 1]] : List (List Nat)).getD e [])
            (decode (search_run [[0, 1, 0, 1, 0, 1]] 2 1 6 1).count 2) 2 6) ∧
    (∀ j, 1 ≤ j → (search_run [[0, 1, 0, 1, 0, 1]] 2 1 6 1).func_eval.testBit j = false) ∧
    ((search_run [[0, 1, 0, 1, 0, 1]] 2 1 6 1).func_eval = 0 ↔
      verify_sols [[0, 1, 0, 1, 0, 1]]
        (decode (search_run [[0, 1, 0, 1, 0, 1]] 2 1 6 1).count 2) 2 1 6 = true) :=
  ⟨by decide, by decide, func_eval_invariant [[0, 1, 0, 1, 0, 1]] 2 1 6 (by decide) (by decide) 1⟩

/-- The unsolvable system `{x0 + x1 + x2 + 1, x0 + x1 + x2}` of the specification: the walk
visits all eight points (`count = 7`) and ends with `func_eval ≠ 0`; the buffer is not
written. -/
theorem search_unsolvable_example :
    fast_exhaustive_search [[0, 0, 0, 0, 0, 0, 1, 1, 1, 1], [0, 0, 0, 0, 0, 0, 1, 1, 1, 0]] 3 2 10
      [0, 0, 0] = some { func_eval := 2, count := 7, solution := [0, 0, 0] } := by
  decide

/-- The system with the planted root `[1,0,1,1]`: the search returns the root `[1,1,1,0]`,
met first in Gray-code order (step 5). -/
theorem search_planted_example :
    fast_exhaustive_search
      [[0, 1, 0, 1, 1, 0, 0, 1, 1, 0, 1, 0, 1, 1, 1], [0, 0, 0, 1, 0, 0, 1, 1, 0, 0, 0, 1, 1, 0, 1],
        [0, 1, 0, 0, 1, 0, 1, 0, 1, 0, 1, 1, 0, 1, 0]] 4 3 15 [0, 0, 0, 0]
      = some { func_eval := 0, count := 5, solution := [1, 1, 1, 0] } := by
  decide

/-! ## The loop, iteration by iteration -/

/-- One more unit of fuel is one more iteration, if the loop condition still holds. -/
theorem search_loop_succ (P : List (List Nat)) (bound : Nat) (k : Nat) :
    ∀ s, search_loop P bound (k + 1) s =
      if (search_loop P bound k s).func_eval ≠ 0 ∧ (search_loop P bound k s).count < bound
      then search_step P (search_loop P bound k s) else search_loop P bound k s := by
  induction k with
  | zero =>
    intro s
    simp only [search_loop]
  | succ k ih =>
    intro s
    by_cases hg : s.func_eval ≠ 0 ∧ s.count < bound
    · have e1 : search_loop P bound (k + 1 + 1) s = search_loop P bound (k + 1) (search_step P s) := by
        rw [search_loop, if_pos hg]
      have e2 : search_loop P bound (k + 1) s = search_loop P bound k (search_step P s) := by
        rw [search_loop, if_pos hg]
      rw [e1, e2]
      exact ih (search_step P s)
    · have e1 : search_loop P bound (k + 1 + 1) s = s := by
        rw [search_loop, if_neg hg]
      have e2 : search_loop P bound (k + 1) s = s := by
        rw [search_loop, if_neg hg]
      rw [e1, e2, if_neg hg]

/-- Once the loop condition fails the state stays as it is. -/
theorem search_loop_stable (P : List (List Nat)) (bound : Nat) (k : Nat) (s : SearchState)
    (hg : ¬ ((search_loop P bound k s).func_eval ≠ 0 ∧ (search_loop P bound k s).count < bound))
    (j : Nat) : search_loop P bound (k + j) s = search_loop P bound k s := by
  induction j with
  | zero => rfl
  | succ j ih =>
    have : k + (j + 1) = (k + j) + 1 := by omega
    rw [this, search_loop_succ, ih, if_neg hg]

/-- The counter never passes the bound and grows by at most one per iteration. -/
theorem search_loop_count_le (P : List (List Nat)) (bound : Nat) (hb : bound < 2 ^ 64)
    (s : SearchState) (hs : s.count ≤ bound) (k : Nat) :
    (search_loop P bound k s).count ≤ bound ∧ (search_loop P bound k s).count ≤ s.count + k := by
  induction k with
  | zero => exact ⟨hs, Nat.le_refl _⟩
  | succ k ih =>
    rw [search_loop_succ]
    split
    · next hg =>
      rw [search_step_count, Nat.mod_eq_of_lt (by omega)]
      omega
    · omega

/-- An iteration adds exactly one to the counter: the 64-bit increment does not wrap. -/
theorem search_loop_count_succ (P : List (List Nat)) (bound : Nat) (hb : bound < 2 ^ 64)
    (s : SearchState) (k : Nat)
    (hg : (search_loop P bound k s).func_eval ≠ 0 ∧ (search_loop P bound k s).count < bound) :
    search_loop P bound (k + 1) s = search_step P (search_loop P bound k s) ∧
    (search_loop P bound (k + 1) s).count = (search_loop P bound k s).count + 1 := by
  rw [search_loop_succ, if_pos hg]
  refine ⟨rfl, ?_⟩
  rw [search_step_count, Nat.mod_eq_of_lt (by omega)]

/-- If the walk ends without a zero of `func_eval`, every step `k ≤ bound` was taken. -/
theorem search_loop_visits_all (P : List (List Nat)) (bound : Nat) (hb : bound < 2 ^ 64)
    (s : SearchState) (hs : s.count = 0)
    (hne : (search_loop P bound bound s).func_eval ≠ 0) (k : Nat) (hk : k ≤ bound) :
    (search_loop P bound k s).count = k := by
  induction k with
  | zero => exact hs
  | succ k ih =>
    have ihk := ih (by omega)
    by_cases hg : (search_loop P bound k s).func_eval ≠ 0 ∧ (search_loop P bound k s).count < bound
    · rw [(search_loop_count_succ P bound hb s k hg).2, ihk]
    · exfalso
      have hst := search_loop_stable P bound k s hg (bound - k)
      have hkb : k + (bound - k) = bound := by omega
      rw [hkb] at hst
      rw [hst] at hne
      exact hg ⟨hne, by omega⟩

/-! ## The derivative words -/

/-- A bit of a packed word against the derivative polynomial evaluated on machine values. -/
theorem bit_eq_affine_eval (w e : Nat) (d : List Nat) (c n : Nat) (hd : ∀ k, d.getD k 0 ≤ 1)
    (h : bitz w e = affine_poly d n (gray_point c)) :
    (w >>> e) &&& 1 = affine_eval d (decode c n) n := by
  apply cast_inj_of_le_one
  · rw [Nat.and_one_is_mod]; omega
  · exact affine_eval_le_one d _ n hd
  · rw [cast_shift_and_one, h, affine_eval_cast]
    exact (affine_poly_congr d n _ _ (fun i hi => point_of_decode c n i hi)).symm

theorem search_run_succ (mqs : List (List Nat)) (n m T k : Nat)
    (hg : (search_run mqs n m T k).func_eval ≠ 0 ∧
      (search_run mqs n m T k).count < search_bound n) :
    search_run mqs n m T (k + 1)
      = search_step (build_pdiff2 (find_partial_derivs mqs m T n) n m) (search_run mqs n m T k) := by
  unfold search_run at hg ⊢
  simp only at hg ⊢
  rw [search_loop_succ, if_pos hg]

/-- C11. Derivative applied at each step: on a valid system with all square slots zero, for
every loop iteration (from the loop state `s` after `k` iterations, with the loop condition
true, to `s' = search_step s`), with `c = s'.count` the counter after the increment and
`fp = ctz(c)`: the state after `k + 1` iterations is `s'`, `c = s.count + 1`, the word XORed
into `func_eval` at line 271 is `pdiff_eval[fp]` after the conditional correction, bit `e`
of that word is the derivative of equation `e` with respect to `x_fp` (the `diff_eq`
polynomial) at the point `g(c - 1)` for every `e < eq_num`, and `pdiff_eval[v]` is unchanged
for every `v ≠ fp`. -/
theorem step_applies_derivative (mqs : List (List Nat)) (n m T : Nat)
    (hv : ValidSystem mqs n m T) (hsq : SquareFree mqs n) (k : Nat) (s s' : SearchState)
    (hs : s = search_run mqs n m T k)
    (hg : s.func_eval ≠ 0 ∧ s.count < search_bound n)
    (hs' : s' = search_step (build_pdiff2 (find_partial_derivs mqs m T n) n m) s) :
    search_run mqs n m T (k + 1) = s' ∧
    s'.count = s.count + 1 ∧
    s'.func_eval = s.func_eval ^^^ s'.pdiff_eval.getD (ctzll s'.count) 0 ∧
    (∀ e, e < m →
      (s'.pdiff_eval.getD (ctzll s'.count) 0 >>> e) &&& 1
        = affine_eval (diff_eq (mqs.getD e []) T n (ctzll s'.count))
            (decode (s'.count - 1) n) n) ∧
    ∀ v, v ≠ ctzll s'.count → s'.pdiff_eval.getD v 0 = s.pdiff_eval.getD v 0 := by
  have hinv : SearchInv mqs n m T s := by rw [hs]; exact search_run_inv mqs n m T hv hsq k
  have hbound := search_bound_eq n hv.2.1
  have h63 := hv.two_pow_le
  have h6364 : (2 : Nat) ^ 63 < 2 ^ 64 := by norm_num
  have hc : s.count + 1 < 2 ^ n := by
    have := hg.2
    rw [hbound] at this
    omega
  obtain ⟨fp, q, hck⟩ := exists_pow_mul_odd (s.count + 1) (by omega)
  obtain ⟨pe, hstep, _, hother, hword⟩ := search_step_word mqs n m T hv s hinv fp q hck hc
  have hfpn : fp < n := pow_le_of_pow_mul_odd_lt (by rw [← hck]; exact hc)
  have hctz : ctzll (s.count + 1) = fp := by
    rw [hck]; exact ctzll_pow_mul fp q (by rw [← hck]; omega)
  have hT := hv.rowlen_eq
  rw [hstep] at hs'
  subst hs'
  refine ⟨?_, rfl, ?_, ?_, ?_⟩
  · rw [← hstep, hs]
    exact search_run_succ mqs n m T k (by rw [← hs]; exact hg)
  · show s.func_eval ^^^ pe.getD fp 0 = s.func_eval ^^^ pe.getD (ctzll (s.count + 1)) 0
    rw [hctz]
  · intro e he
    show (pe.getD (ctzll (s.count + 1)) 0 >>> e) &&& 1
      = affine_eval (diff_eq (mqs.getD e []) T n (ctzll (s.count + 1)))
          (decode (s.count + 1 - 1) n) n
    rw [hctz, Nat.add_sub_cancel]
    apply bit_eq_affine_eval
    · intro i
      rw [hT]; exact diff_eq_le_one _ n fp hfpn i
    · rw [hword e, if_pos he]
  · intro v hvne
    have hvne' : v ≠ ctzll (s.count + 1) := hvne
    rw [hctz] at hvne'
    exact hother v hvne'

/-- C12 (as the code behaves). On a valid system with all square slots zero, at every loop
state `s` with `c = s.count < 2^n - 1`, with `v = ctz(c + 1)`: `v < n`; if `c + 1` is a power
of two (`(c+1) & c = 0`, the first toggle of `x_v`) the stored word `pdiff_eval[v]` packs
the derivatives with respect to `x_v` at `g(c)`; otherwise `2^(v+1) ≤ c`, the stored word
packs the derivatives at `g(c - 2^(v+1))`, the point visited just before the previous toggle
of `x_v`, and it is the corrected word `pdiff_eval[v] ^ pdiff2[v][pre]` of line 268, with
`pre = ctz((c+1) ^ (1 << v))`, that packs the derivatives at `g(c)`. -/
theorem stored_derivative (mqs : List (List Nat)) (n m T : Nat)
    (hv : ValidSystem mqs n m T) (hsq : SquareFree mqs n) (k : Nat) (s : SearchState)
    (hs : s = search_run mqs n m T k) (hc : s.count < 2 ^ n - 1) :
    ctzll (s.count + 1) < n ∧
    ((s.count + 1) &&& (s.count + 1 - 1) = 0 →
      ∀ e, e < m →
        (s.pdiff_eval.getD (ctzll (s.count + 1)) 0 >>> e) &&& 1
          = affine_eval (diff_eq (mqs.getD e []) T n (ctzll (s.count + 1)))
              (decode s.count n) n) ∧
    ((s.count + 1) &&& (s.count + 1 - 1) ≠ 0 →
      2 ^ (ctzll (s.count + 1) + 1) ≤ s.count ∧
      (∀ e, e < m →
        (s.pdiff_eval.getD (ctzll (s.count + 1)) 0 >>> e) &&& 1
          = affine_eval (diff_eq (mqs.getD e []) T n (ctzll (s.count + 1)))
              (decode (s.count - 2 ^ (ctzll (s.count + 1) + 1)) n) n) ∧
      ∀ e, e < m →
        ((s.pdiff_eval.getD (ctzll (s.count + 1)) 0 ^^^
            get2 (build_pdiff2 (find_partial_derivs mqs m T n) n m) (ctzll (s.count + 1))
              (ctzll ((s.count + 1) ^^^ (1 <<< ctzll (s.count + 1)) % 2 ^ 64))) >>> e) &&& 1
          = affine_eval (diff_eq (mqs.getD e []) T n (ctzll (s.count + 1)))
              (decode s.count n) n) := by
  have hinv : SearchInv mqs n m T s := by rw [hs]; exact search_run_inv mqs n m T hv hsq k
  have h63 := hv.two_pow_le
  have h6364 : (2 : Nat) ^ 63 < 2 ^ 64 := by norm_num
  have hc1 : s.count + 1 < 2 ^ n := by omega
  have hlt : s.count + 1 < 2 ^ 64 := by omega
  obtain ⟨fp, q, hck⟩ := exists_pow_mul_odd (s.count + 1) (by omega)
  have hlt' : 2 ^ fp * (2 * q + 1) < 2 ^ 64 := by rw [← hck]; exact hlt
  obtain ⟨hctz, hpow, _⟩ := step_indices fp q hlt'
  have hfpn : fp < n := pow_le_of_pow_mul_odd_lt (by rw [← hck]; exact hc1)
  have hT := hv.rowlen_eq
  have hd : ∀ e i, (diff_eq (mqs.getD e []) T n fp).getD i 0 ≤ 1 := by
    intro e i; rw [hT]; exact diff_eq_le_one _ n fp hfpn i
  have hP : 0 < 2 ^ fp := Nat.two_pow_pos fp
  have hnext : 2 ^ fp * (2 * q + 1) ≤ s.count + 2 ^ (fp + 1) := by
    rw [pow_succ]; omega
  have hold := hinv.pe fp q hfpn (by omega) hnext
  obtain ⟨pe, hstep, _, _, hword⟩ := search_step_word mqs n m T hv s hinv fp q hck hc1
  have hpe := congrArg SearchState.pdiff_eval
    ((search_step_eq (build_pdiff2 (find_partial_derivs mqs m T n) n m) s fp q hck hlt).symm.trans
      hstep)
  simp only at hpe
  rw [hck, hctz, ← hck]
  refine ⟨hfpn, ?_, ?_⟩
  · intro hz
    have hq : q = 0 := by
      by_contra hq
      rw [hck] at hz
      exact hpow.mpr hq hz
    subst hq
    intro e he
    apply bit_eq_affine_eval _ _ _ _ _ (hd e)
    rw [hold e, if_pos he]
    have : 2 ^ fp * (2 * (0 - 1) + 1) - 1 = s.count := by
      have h1 : 2 ^ fp * (2 * (0 - 1) + 1) = 2 ^ fp * (2 * 0 + 1) := rfl
      omega
    rw [this]
  · intro hnz
    have hq : q ≠ 0 := by
      rw [hck] at hnz
      exact hpow.mp hnz
    have hprev : 2 ^ fp * (2 * (q - 1) + 1) - 1 = s.count - 2 ^ (fp + 1) ∧
        2 ^ (fp + 1) ≤ s.count := by
      obtain ⟨q', rfl⟩ : ∃ q', q = q' + 1 := ⟨q - 1, by omega⟩
      have h1 : 2 ^ fp * (2 * (q' + 1) + 1) = 2 ^ fp * (2 * q' + 1) + 2 ^ (fp + 1) := by
        rw [pow_succ]; ring
      have h2 : 0 < 2 ^ fp * (2 * q' + 1) := Nat.mul_pos hP (by omega)
      have h3 : q' + 1 - 1 = q' := rfl
      rw [h3]
      omega
    refine ⟨hprev.2, ?_, ?_⟩
    · intro e he
      apply bit_eq_affine_eval _ _ _ _ _ (hd e)
      rw [hold e, if_pos he, hprev.1]
    · intro e he
      apply bit_eq_affine_eval _ _ _ _ _ (hd e)
      rw [if_pos hq] at hpe
      have hw := hword e
      rw [← hpe, getD_set_self _ (by rw [hinv.len]; exact hfpn), if_pos he, ← hck] at hw
      exact hw

/-- C12 (as stated) fails: for `x0 x1 + x1 + 1` in two variables the loop head is reached
with `count = 2 < 2^2 - 1` and `func_eval ≠ 0`; the next step toggles `x_0`
(`ctz(3) = 0`), the stored word `pdiff_eval[0]` has bit 0 equal to `0`, but the derivative
with respect to `x_0` at `g(2) = [1, 1]` is `1`. -/
theorem stored_derivative_not_current :
    ValidSystem [[0, 1, 0, 0, 1, 1]] 2 1 6 ∧ SquareFree [[0, 1, 0, 0, 1, 1]] 2 ∧
    (search_run [[0, 1, 0, 0, 1, 1]] 2 1 6 2).count = 2 ∧
    (search_run [[0, 1, 0, 0, 1, 1]] 2 1 6 2).func_eval ≠ 0 ∧
    ctzll (2 + 1) = 0 ∧
    ((search_run [[0, 1, 0, 0, 1, 1]] 2 1 6 2).pdiff_eval.getD 0 0 >>> 0) &&& 1 = 0 ∧
    affine_eval (diff_eq [0, 1, 0, 0, 1, 1] 6 2 0) (decode 2 2) 2 = 1 := by
  decide

/-! ## The derivative coefficients and the tables -/

/-- C13. `diff_eq` computes the first-order derivative coefficients: for `n ≥ 1`, `idx < n`
and a row `func` of length `term_num = n(n+1)/2 + n + 1` with 0/1 entries, the result `d`
has length `n + 1`, `d[i] = func[max(i,idx)(max(i,idx)+1)/2 + min(i,idx)]` for every `i < n`
with `i ≠ idx`, `d[idx] = 0`, and `d[n] = func[n(n+1)/2 + idx]`; nothing is assumed about
the square slots of `func`. -/
theorem diff_eq_coefficients (func : List Nat) (n idx : Nat) (_hn : 1 ≤ n) (hidx : idx < n)
    (_hlen : func.length = n * (n + 1) / 2 + n + 1) (h01 : ∀ c ∈ func, c ≤ 1) :
    (diff_eq func (n * (n + 1) / 2 + n + 1) n idx).length = n + 1 ∧
    (∀ i, i < n → i ≠ idx →
      (diff_eq func (n * (n + 1) / 2 + n + 1) n idx).getD i 0
        = func.getD (max i idx * (max i idx + 1) / 2 + min i idx) 0) ∧
    (diff_eq func (n * (n + 1) / 2 + n + 1) n idx).getD idx 0 = 0 ∧
    (diff_eq func (n * (n + 1) / 2 + n + 1) n idx).getD n 0
      = func.getD (n * (n + 1) / 2 + idx) 0 := by
  have hf := getD_le_one h01
  obtain ⟨hl, hg⟩ := diff_eq_getD func n idx hidx
  refine ⟨hl, fun i hi hne => ?_, diff_eq_diag func n idx hidx, diff_eq_const func n idx hidx hf⟩
  have h := hg i
  have hc0 : ¬ i = n := by omega
  have hc1 : i < n ∧ i ≠ idx := ⟨hi, hne⟩
  rw [if_neg hc0, if_pos hc1, toBool_of_le_one (hf _)] at h
  exact h

/-- C14. Slot-by-slot effect of `reduce_sys`: for a system `S` of `m` rows of length
`T = n(n+1)/2 + n + 1`, an equation `e < m` and an index `k < T`, the entry
`reduce_sys(S)[e][k]` is `0` if `k = v(v+1)/2 + v` for some `v < n`, is
`S[e][k] XOR S[e][v(v+1)/2 + v]` if `k = n(n+1)/2 + v` for some `v < n`, and is `S[e][k]`
otherwise (cross-term slots and the constant slot). -/
theorem reduce_sys_slots (S : List (List Nat)) (n m T : Nat) (hshape : Shape S n m T)
    (e k : Nat) (he : e < m) (_hk : k < T) :
    (∀ v, v < n → k = v * (v + 1) / 2 + v → ((reduce_sys S m n T).getD e []).getD k 0 = 0) ∧
    (∀ v, v < n → k = n * (n + 1) / 2 + v →
      ((reduce_sys S m n T).getD e []).getD k 0
        = (S.getD e []).getD k 0 ^^^ (S.getD e []).getD (v * (v + 1) / 2 + v) 0) ∧
    ((∀ v, v < n → k ≠ v * (v + 1) / 2 + v ∧ k ≠ n * (n + 1) / 2 + v) →
      ((reduce_sys S m n T).getD e []).getD k 0 = (S.getD e []).getD k 0) := by
  have hT := hshape.T_eq
  subst hT
  rw [reduce_sys_getD S m n _ hshape.1 e he, reduce_row_getD n _ (hshape.row_length he) k]
  refine ⟨fun v hvn hkv => ?_, fun v hvn hkv => ?_, fun hno => ?_⟩
  · have hex : ∃ v, v < n ∧ k = cbinom2 v + v := ⟨v, hvn, hkv⟩
    rw [if_pos hex]
  · have hkv' : k = cbinom2 n + v := hkv
    have hnex : ¬ ∃ u, u < n ∧ k = cbinom2 u + u := by
      rintro ⟨u, hu, hku⟩
      have := cbinom2_lt hu
      omega
    have hlin : cbinom2 n ≤ k ∧ k < cbinom2 n + n := by omega
    have hkc : k - cbinom2 n = v := by omega
    rw [if_neg hnex, if_pos hlin, hkc]
    rfl
  · have hnex : ¬ ∃ u, u < n ∧ k = cbinom2 u + u := by
      rintro ⟨u, hu, hku⟩
      exact (hno u hu).1 hku
    have hnlin : ¬ (cbinom2 n ≤ k ∧ k < cbinom2 n + n) := by
      rintro ⟨h1, h2⟩
      have h3 := (hno (k - cbinom2 n) (by omega)).2
      have h4 : n * (n + 1) / 2 = cbinom2 n := rfl
      rw [h4] at h3
      omega
    rw [if_neg hnex, if_neg hnlin]

theorem bitz_eq_one_iff (w e : Nat) : bitz w e = 1 ↔ w.testBit e = true := by
  unfold bitz
  cases w.testBit e <;> simp

theorem cast_eq_one_of_le_one {a : Nat} (h : a ≤ 1) : ((a : ZMod 2) = 1 ↔ a = 1) := by
  interval_cases a <;> simp

/-- C15. The packed second-order table: for a system with 0/1 coefficients and
`eq_num ≤ 64`, and all `i, j < n` and `e < eq_num`, bit `e` of `pdiff2[j][i]` built in
`fast_exhaustive_search` is set iff `derivs[e][j][i] = 1` (the `diff_eq` result for
equation `e` and variable `j`), and for `i ≠ j` this bit equals the coefficient of
`x_i x_j` in equation `e`. -/
theorem pdiff2_bits (mqs : List (List Nat)) (n m T : Nat) (hshape : Shape mqs n m T)
    (h01 : Coeffs01 mqs) (hm : m ≤ 64) (i j e : Nat) (hi : i < n) (hj : j < n) (he : e < m) :
    ((get2 (build_pdiff2 (find_partial_derivs mqs m T n) n m) j i).testBit e = true ↔
      derivs_get (find_partial_derivs mqs m T n) e j i = 1) ∧
    (i ≠ j →
      (get2 (build_pdiff2 (find_partial_derivs mqs m T n) n m) j i >>> e) &&& 1
        = (mqs.getD e []).getD (deg2midx2 i j) 0) := by
  have hT := hshape.T_eq
  subst hT
  have hb := pdiff2_bitz mqs n m hm j i hj hi e
  rw [if_pos he, diff_eq_symm _ n j i hj hi] at hb
  have hle := diff_eq_le_one (mqs.getD e []) n j hj i
  constructor
  · rw [derivs_get_find mqs m _ n e j i he hj, ← bitz_eq_one_iff, hb]
    exact cast_eq_one_of_le_one hle
  · intro hne
    apply cast_inj_of_le_one
    · rw [Nat.and_one_is_mod]; omega
    · exact h01.row e _
    · rw [cast_shift_and_one, hb, (diff_eq_getD _ n j hj).2 i]
      have hc0 : ¬ i = n := by omega
      have hc1 : i < n ∧ i ≠ j := ⟨hi, hne⟩
      rw [if_neg hc0, if_pos hc1, toBool_of_le_one (h01.row e _)]
      have : deg2midx2 i j = cbinom2 (max i j) + min i j := by
        unfold deg2midx2
        by_cases hlt : j > i
        · have h1 : max i j = j := by omega
          have h2 : min i j = i := by omega
          rw [if_pos hlt, h1, h2]
        · have h1 : max i j = i := by omega
          have h2 : min i j = j := by omega
          rw [if_neg hlt, h1, h2]
      rw [this]

theorem decode_pow_pred (v n : Nat) :
    decode (2 ^ v - 1) n = (List.range n).map fun i => if i + 1 = v then 1 else 0 := by
  apply list_ext_getD
  · rw [decode_length, List.length_map, List.length_range]
  · intro i hi
    rw [decode_length] at hi
    rw [decode_getD _ n i hi]
    have hr : ((List.range n).map fun i => if i + 1 = v then 1 else 0).getD i 0
        = if i + 1 = v then 1 else 0 := by
      simp only [List.getD_eq_getElem?_getD, List.getElem?_map, List.getElem?_range hi,
        Option.map_some', Option.getD_some]
    rw [hr]
    apply cast_inj_of_le_one
    · rw [Nat.and_one_is_mod]; omega
    · split <;> omega
    · rw [cast_shift_and_one]
      have := gray_point_pow_pred v i
      unfold gray_point at this
      rw [this]
      split <;> simp

/-- C16. Initial derivative evaluations: on a valid system with all square slots zero, for
every `v < n` and `e < eq_num`, bit `e` of the initial `pdiff_eval[v]` (before the loop) is
the derivative of equation `e` with respect to `x_v` at `g(2^v - 1)`; that point has only
`x_{v-1}` set (it is the all-zero point for `v = 0`), and it is visited immediately before
step `2^v`, the first step that toggles `x_v` (`ctz(2^v) = v`, and `ctz(c) ≠ v` for
`1 ≤ c < 2^v`). -/
theorem init_pdiff_eval_bits (mqs : List (List Nat)) (n m T : Nat)
    (hv : ValidSystem mqs n m T) (_hsq : SquareFree mqs n) (v e : Nat) (hvn : v < n)
    (he : e < m) :
    ((search_init mqs n m T).pdiff_eval.getD v 0 >>> e) &&& 1
      = affine_eval (diff_eq (mqs.getD e []) T n v) (decode (2 ^ v - 1) n) n ∧
    decode (2 ^ v - 1) n = (List.range n).map (fun i => if i + 1 = v then 1 else 0) ∧
    ctzll (2 ^ v) = v ∧
    ∀ c, 1 ≤ c → c < 2 ^ v → ctzll c ≠ v := by
  have hinv := search_init_inv mqs n m T hv
  have hT := hv.rowlen_eq
  have h63 := hv.two_pow_le
  have h6364 : (2 : Nat) ^ 63 < 2 ^ 64 := by norm_num
  have hvlt : 2 ^ v < 2 ^ n := Nat.pow_lt_pow_right (by decide) hvn
  refine ⟨?_, decode_pow_pred v n, ?_, ?_⟩
  · apply bit_eq_affine_eval
    · intro i; rw [hT]; exact diff_eq_le_one _ n v hvn i
    · have hP : 0 < 2 ^ v := Nat.two_pow_pos v
      have h1 : (search_init mqs n m T).count < 2 ^ v * (2 * 0 + 1) := by
        show 0 < 2 ^ v * (2 * 0 + 1)
        omega
      have h2 : 2 ^ v * (2 * 0 + 1) ≤ (search_init mqs n m T).count + 2 ^ (v + 1) := by
        show 2 ^ v * (2 * 0 + 1) ≤ 0 + 2 ^ (v + 1)
        rw [pow_succ]; omega
      have := hinv.pe v 0 hvn h1 h2 e
      rw [if_pos he] at this
      have hpt : 2 ^ v * (2 * (0 - 1) + 1) - 1 = 2 ^ v - 1 := by
        have : 2 * (0 - 1) + 1 = 1 := rfl
        rw [this, Nat.mul_one]
      rw [hpt] at this
      exact this
  · have := ctzll_pow_mul v 0 (by omega)
    rw [Nat.mul_zero, Nat.zero_add, Nat.mul_one] at this
    exact this
  · intro c hc1 hc2
    obtain ⟨t, q, hcq⟩ := exists_pow_mul_odd c (by omega)
    have ht : t < v := pow_le_of_pow_mul_odd_lt (by rw [← hcq]; exact hc2)
    rw [hcq, ctzll_pow_mul t q (by rw [← hcq]; omega)]
    omega

/-! ## The Gray code and the loop counter -/

/-- C17. Gray-code toggle index: for a 64-bit count `c` with `1 ≤ c < 2^64` (in particular
for `c < 2^63`), the Gray codes `g(c-1)` and `g(c)`, with `g(k) = k XOR (k >> 1)` as at
line 278, differ in exactly one bit, the one with index `ctz(c)` (the `fp_idx` of
line 264). -/
theorem gray_toggle_index (c : Nat) (h1 : 1 ≤ c) (h2 : c < 2 ^ 64) :
    (c ^^^ (c >>> 1)) ^^^ ((c - 1) ^^^ ((c - 1) >>> 1)) = 2 ^ ctzll c ∧
    ∀ i, ((c ^^^ (c >>> 1)).testBit i ≠ ((c - 1) ^^^ ((c - 1) >>> 1)).testBit i ↔
      i = ctzll c) := by
  obtain ⟨t, q, hcq⟩ := exists_pow_mul_odd c (by omega)
  have hctz : ctzll c = t := by
    rw [hcq]; exact ctzll_pow_mul t q (by rw [← hcq]; exact h2)
  have hstep : ∀ i, (gray c).testBit i = xor ((gray (c - 1)).testBit i) (decide (i = t)) := by
    intro i
    have := testBit_gray_step t q i
    rw [← hcq] at this
    exact this
  rw [hctz]
  constructor
  · apply Nat.eq_of_testBit_eq
    intro i
    have hs := hstep i
    unfold gray at hs
    rw [Nat.testBit_xor, hs, Nat.testBit_two_pow]
    by_cases hit : i = t
    · have : t = i := hit.symm
      cases ((c - 1) ^^^ ((c - 1) >>> 1)).testBit i <;> simp [hit]
    · have : ¬ t = i := fun h => hit h.symm
      cases ((c - 1) ^^^ ((c - 1) >>> 1)).testBit i <;> simp [hit, this]
  · intro i
    have hs := hstep i
    unfold gray at hs
    rw [hs]
    by_cases hit : i = t
    · cases ((c - 1) ^^^ ((c - 1) >>> 1)).testBit i <;> simp [hit]
    · cases ((c - 1) ^^^ ((c - 1) >>> 1)).testBit i <;> simp [hit]

theorem search_bound_lt (n : Nat) : search_bound n < 2 ^ 64 := by
  unfold search_bound
  have := Nat.mod_lt (1 <<< n) (Nat.two_pow_pos 64)
  omega

theorem search_init_count (mqs : List (List Nat)) (n m T : Nat) :
    (search_init mqs n m T).count = 0 := rfl

/-- C18. Bounded enumeration: for every input with `1 ≤ var_num ≤ 63` (any system), the
`while` loop has ended after at most `2^n - 1` iterations (the loop condition is false at
the state after `2^n - 1` iterations, and more fuel does not change the state); after any
number `k` of iterations `count ≤ 2^n - 1 < 2^n` and `count ≤ k`; every iteration adds
exactly one to `count` (no 64-bit wrap-around); and if the loop exits with
`func_eval ≠ 0` then `count = 2^n - 1` and every step `c ≤ 2^n - 1` has been a value of
`count`. -/
theorem search_bounded (mqs : List (List Nat)) (n m T : Nat) (_hn1 : 1 ≤ n) (hn : n ≤ 63) :
    ¬ ((search_run mqs n m T (2 ^ n - 1)).func_eval ≠ 0 ∧
        (search_run mqs n m T (2 ^ n - 1)).count < search_bound n) ∧
    (∀ k, 2 ^ n - 1 ≤ k → search_run mqs n m T k = search_run mqs n m T (2 ^ n - 1)) ∧
    (∀ k, (search_run mqs n m T k).count ≤ 2 ^ n - 1 ∧ (search_run mqs n m T k).count < 2 ^ n ∧
      (search_run mqs n m T k).count ≤ k) ∧
    (∀ k, (search_run mqs n m T k).func_eval ≠ 0 ∧
        (search_run mqs n m T k).count < search_bound n →
      (search_run mqs n m T (k + 1)).count = (search_run mqs n m T k).count + 1) ∧
    ((search_run mqs n m T (2 ^ n - 1)).func_eval ≠ 0 →
      (search_run mqs n m T (2 ^ n - 1)).count = 2 ^ n - 1 ∧
      ∀ c, c ≤ 2 ^ n - 1 → (search_run mqs n m T c).count = c) := by
  have hbe := search_bound_eq n hn
  have hb := search_bound_lt n
  have hpos : 0 < 2 ^ n := Nat.two_pow_pos n
  have hexit := search_loop_exit (build_pdiff2 (find_partial_derivs mqs m T n) n m)
    (search_bound n) hb (search_bound n) (search_init mqs n m T) (by omega)
  have hcount := search_loop_count_le (build_pdiff2 (find_partial_derivs mqs m T n) n m)
    (search_bound n) hb (search_init mqs n m T) (Nat.zero_le _)
  unfold search_run
  simp only
  rw [← hbe]
  refine ⟨hexit, ?_, ?_, ?_, ?_⟩
  · intro k hk
    have := search_loop_stable (build_pdiff2 (find_partial_derivs mqs m T n) n m)
      (search_bound n) (search_bound n) (search_init mqs n m T) hexit (k - search_bound n)
    have hk' : search_bound n + (k - search_bound n) = k := by omega
    rw [hk'] at this
    exact this
  · intro k
    have := hcount k
    rw [search_init_count] at this
    omega
  · intro k hg
    exact (search_loop_count_succ _ _ hb _ k hg).2
  · intro hne
    have hall := search_loop_visits_all (build_pdiff2 (find_partial_derivs mqs m T n) n m)
      (search_bound n) hb (search_init mqs n m T) rfl hne
    exact ⟨hall _ (Nat.le_refl _), hall⟩

/-- C19. Normalisation is a necessary precondition of the search: for the system
`x0^2 + x0 + 1` (`n = 1`, `m = 1`, coefficients `[1, 1, 1]`, 0/1 coefficients, square
coefficient non-zero), `fast_exhaustive_search` run without `reduce_sys` reports the
solution `[1]` (`func_eval = 0`, `count = 1`), and `verify_sols` rejects it on the same
system. -/
theorem search_needs_normalisation :
    ∃ (mqs : List (List Nat)) (n m T : Nat) (solution : List Nat) (r : SearchResult),
      ValidSystem mqs n m T ∧ ¬ SquareFree mqs n ∧ solution.length = n ∧
      fast_exhaustive_search mqs n m T solution = some r ∧
      r.func_eval = 0 ∧ r.solution = [1] ∧
      verify_sols mqs r.solution n m T = false :=
  ⟨[[1, 1, 1]], 1, 1, 3, [0], { func_eval := 0, count := 1, solution := [1] }, by decide⟩

theorem search_step_length (P : List (List Nat)) (s : SearchState) :
    (search_step P s).pdiff_eval.length = s.pdiff_eval.length := by
  unfold search_step
  simp only
  split
  · rw [List.length_set]
  · rfl

theorem search_loop_length (P : List (List Nat)) (bound k : Nat) (s : SearchState) :
    (search_loop P bound k s).pdiff_eval.length = s.pdiff_eval.length := by
  induction k with
  | zero => rfl
  | succ k ih =>
    rw [search_loop_succ]
    split
    · rw [search_step_length, ih]
    · exact ih

/-- C20. Table indices in the enumeration loop stay in bounds: for `1 ≤ var_num ≤ 63` and
every count `c` with `1 ≤ c ≤ 2^n - 1`, `fp_idx = ctz(c) < n`, and whenever `c` has more than
one bit set (`c & (c-1) ≠ 0`), `pre_fp_idx = ctz(c XOR (1 << fp_idx))` satisfies
`fp_idx < pre_fp_idx < n`; `pdiff_eval` has `n` entries in every loop state and `pdiff2`
is an `n` by `n` table, so `pdiff_eval[fp_idx]` and `pdiff2[fp_idx][pre_fp_idx]` are inside
their arrays. -/
theorem loop_indices_in_bounds (n c : Nat) (_hn1 : 1 ≤ n) (hn : n ≤ 63) (hc1 : 1 ≤ c)
    (hc : c ≤ 2 ^ n - 1) :
    ctzll c < n ∧
    (c &&& (c - 1) ≠ 0 →
      ctzll c < ctzll (c ^^^ (1 <<< ctzll c) % 2 ^ 64) ∧
      ctzll (c ^^^ (1 <<< ctzll c) % 2 ^ 64) < n) ∧
    ∀ (mqs : List (List Nat)) (m T k : Nat),
      (search_run mqs n m T k).pdiff_eval.length = n ∧
      (build_pdiff2 (find_partial_derivs mqs m T n) n m).length = n ∧
      ∀ i, i < n → ((build_pdiff2 (find_partial_derivs mqs m T n) n m).getD i []).length = n := by
  have hpos : 0 < 2 ^ n := Nat.two_pow_pos n
  have h63 : 2 ^ n ≤ 2 ^ 63 := Nat.pow_le_pow_right (by decide) hn
  have h6364 : (2 : Nat) ^ 63 < 2 ^ 64 := by norm_num
  obtain ⟨fp, q, hcq⟩ := exists_pow_mul_odd c (by omega)
  have hlt : 2 ^ fp * (2 * q + 1) < 2 ^ 64 := by rw [← hcq]; omega
  obtain ⟨hctz, hpow, hpre⟩ := step_indices fp q hlt
  have hfpn : fp < n := pow_le_of_pow_mul_odd_lt (by rw [← hcq]; omega)
  rw [hcq, hctz]
  refine ⟨hfpn, fun hnz => ?_, fun mqs m T k => ⟨?_, ?_⟩⟩
  · have hq : q ≠ 0 := hpow.mp hnz
    obtain ⟨u, q', hq'⟩ := exists_pow_mul_odd q (by omega)
    rw [hpre u q' hq']
    refine ⟨by omega, ?_⟩
    apply pow_le_of_pow_mul_odd_lt (k := q')
    have h1 : 2 ^ (fp + 1 + u) * (2 * q' + 1) = 2 ^ (fp + 1) * q := by
      rw [hq', pow_add, mul_assoc]
    have h2 : 2 ^ (fp + 1) * q ≤ 2 ^ fp * (2 * q + 1) := by
      have : 2 ^ (fp + 1) * q = 2 ^ fp * (2 * q) := by rw [pow_succ]; ring
      rw [this]
      exact Nat.mul_le_mul_left _ (by omega)
    omega
  · unfold search_run
    simp only
    rw [search_loop_length]
    exact (init_pdiff_eval_getD _ _ n m).1
  · exact build_pdiff2_table _ n m

/-! ## The step and table theorems at concrete inputs -/

/-- Witness for C11: the third iteration on `x0 x1 + x1 + 1`. -/
theorem step_applies_derivative_witness :
    ValidSystem [[0, 1, 0, 0, 1, 1]] 2 1 6 ∧ SquareFree [[0, 1, 0, 0, 1, 1]] 2 ∧
    ((search_run [[0, 1, 0, 0, 1, 1]] 2 1 6 2).func_eval ≠ 0 ∧
      (search_run [[0, 1, 0, 0, 1, 1]] 2 1 6 2).count < search_bound 2) ∧
    (search_run [[0, 1, 0, 0, 1, 1]] 2 1 6 (2 + 1)
        = search_step (build_pdiff2 (find_partial_derivs [[0, 1, 0, 0, 1, 1]] 1 6 2) 2 1)
            (search_run [[0, 1, 0, 0, 1, 1]] 2 1 6 2) ∧
      (search_step (build_pdiff2 (find_partial_derivs [[0, 1, 0, 0, 1, 1]] 1 6 2) 2 1)
          (search_run [[0, 1, 0, 0, 1, 1]] 2 1 6 2)).count
        = (search_run [[0, 1, 0, 0, 1, 1]] 2 1 6 2).count + 1 ∧
      (search_step (build_pdiff2 (find_partial_derivs [[0, 1, 0, 0, 1, 1]] 1 6 2) 2 1)
          (search_run [[0, 1, 0, 0, 1, 1]] 2 1 6 2)).func_eval
        = (search_run [[0, 1, 0, 0, 1, 1]] 2 1 6 2).func_eval ^^^
          (search_step (build_pdiff2 (find_partial_derivs [[0, 1, 0, 0, 1, 1]] 1 6 2) 2 1)
            (search_run [[0, 1, 0, 0, 1, 1]] 2 1 6 2)).pdiff_eval.getD
            (ctzll (search_step (build_pdiff2 (find_partial_derivs [[0, 1, 0, 0, 1, 1]] 1 6 2) 2 1)
              (search_run [[0, 1, 0, 0, 1, 1]] 2 1 6 2)).count) 0 ∧
      (∀ e, e < 1 →
        ((search_step (build_pdiff2 (find_partial_derivs [[0, 1, 0, 0, 1, 1]] 1 6 2) 2 1)
            (search_run [[0, 1, 0, 0, 1, 1]] 2 1 6 2)).pdiff_eval.getD
            (ctzll (search_step (build_pdiff2 (find_partial_derivs [[0, 1, 0, 0, 1, 1]] 1 6 2) 2 1)
              (search_run [[0, 1, 0, 0, 1, 1]] 2 1 6 2)).count) 0 >>> e) &&& 1
          = affine_eval (diff_eq (([[0, 1, 0, 0, 1, 1]] : List (List Nat)).getD e []) 6 2
              (ctzll (search_step (build_pdiff2 (find_partial_derivs [[0, 1, 0, 0, 1, 1]] 1 6 2) 2 1)
                (search_run [[0, 1, 0, 0, 1, 1]] 2 1 6 2)).count))
              (decode ((search_step
                (build_pdiff2 (find_partial_derivs [[0, 1, 0, 0, 1, 1]] 1 6 2) 2 1)
                (search_run [[0, 1, 0, 0, 1, 1]] 2 1 6 2)).count - 1) 2) 2) ∧
      ∀ v, v ≠ ctzll (search_step (build_pdiff2 (find_partial_derivs [[0, 1, 0, 0, 1, 1]] 1 6 2) 2 1)
            (search_run [[0, 1, 0, 0, 1, 1]] 2 1 6 2)).count →
        (search_step (build_pdiff2 (find_partial_derivs [[0, 1, 0, 0, 1, 1]] 1 6 2) 2 1)
          (search_run [[0, 1, 0, 0, 1, 1]] 2 1 6 2)).pdiff_eval.getD v 0
          = (search_run [[0, 1, 0, 0, 1, 1]] 2 1 6 2).pdiff_eval.getD v 0) :=
  ⟨by decide, by decide, by decide,
    step_applies_derivative [[0, 1, 0, 0, 1, 1]] 2 1 6 (by decide) (by decide) 2 _ _ rfl
      (by decide) rfl⟩

/-- Witness for C12 (as the code behaves): the loop head with `count = 2` on
`x0 x1 + x1 + 1`, where `count + 1 = 3` is not a power of two. -/
theorem stored_derivative_witness :
    ValidSystem [[0, 1, 0, 0, 1, 1]] 2 1 6 ∧ SquareFree [[0, 1, 0, 0, 1, 1]] 2 ∧
    (search_run [[0, 1, 0, 0, 1, 1]] 2 1 6 2).count < 2 ^ 2 - 1 ∧
    (search_run [[0, 1, 0, 0, 1, 1]] 2 1 6 2).count + 1 &&&
      ((search_run [[0, 1, 0, 0, 1, 1]] 2 1 6 2).count + 1 - 1) ≠ 0 ∧
    ctzll ((search_run [[0, 1, 0, 0, 1, 1]] 2 1 6 2).count + 1) < 2 ∧
    ∀ e, e < 1 →
      (((search_run [[0, 1, 0, 0, 1, 1]] 2 1 6 2).pdiff_eval.getD
          (ctzll ((search_run [[0, 1, 0, 0, 1, 1]] 2 1 6 2).count + 1)) 0 ^^^
        get2 (build_pdiff2 (find_partial_derivs [[0, 1, 0, 0, 1, 1]] 1 6 2) 2 1)
          (ctzll ((search_run [[0, 1, 0, 0, 1, 1]] 2 1 6 2).count + 1))
          (ctzll (((search_run [[0, 1, 0, 0, 1, 1]] 2 1 6 2).count + 1) ^^^
            (1 <<< ctzll ((search_run [[0, 1, 0, 0, 1, 1]] 2 1 6 2).count + 1)) % 2 ^ 64)))
        >>> e) &&& 1
      = affine_eval (diff_eq (([[0, 1, 0, 0, 1, 1]] : List (List Nat)).getD e []) 6 2
          (ctzll ((search_run [[0, 1, 0, 0, 1, 1]] 2 1 6 2).count + 1)))
          (decode (search_run [[0, 1, 0, 0, 1, 1]] 2 1 6 2).count 2) 2 :=
  ⟨by decide, by decide, by decide, by decide,
    (stored_derivative [[0, 1, 0, 0, 1, 1]] 2 1 6 (by decide) (by decide) 2 _ rfl
      (by decide)).1,
    ((stored_derivative [[0, 1, 0, 0, 1, 1]] 2 1 6 (by decide) (by decide) 2 _ rfl
      (by decide)).2.2 (by decide)).2.2⟩

/-- Witness for C13: a row in three variables with non-zero square slots, `idx = 1`. -/
theorem diff_eq_coefficients_witness :
    (∀ c ∈ [1, 1, 0, 1, 1, 1, 1, 0, 1, 1], c ≤ 1) ∧
    (diff_eq [1, 1, 0, 1, 1, 1, 1, 0, 1, 1] (3 * (3 + 1) / 2 + 3 + 1) 3 1).length = 3 + 1 ∧
    (∀ i, i < 3 → i ≠ 1 →
      (diff_eq [1, 1, 0, 1, 1, 1, 1, 0, 1, 1] (3 * (3 + 1) / 2 + 3 + 1) 3 1).getD i 0
        = ([1, 1, 0, 1, 1, 1, 1, 0, 1, 1] : List Nat).getD
            (max i 1 * (max i 1 + 1) / 2 + min i 1) 0) ∧
    (diff_eq [1, 1, 0, 1, 1, 1, 1, 0, 1, 1] (3 * (3 + 1) / 2 + 3 + 1) 3 1).getD 1 0 = 0 ∧
    (diff_eq [1, 1, 0, 1, 1, 1, 1, 0, 1, 1] (3 * (3 + 1) / 2 + 3 + 1) 3 1).getD 3 0
      = ([1, 1, 0, 1, 1, 1, 1, 0, 1, 1] : List Nat).getD (3 * (3 + 1) / 2 + 1) 0 :=
  ⟨by decide,
    diff_eq_coefficients [1, 1, 0, 1, 1, 1, 1, 0, 1, 1] 3 1 (by decide) (by decide) (by decide)
      (by decide)⟩

/-- Witness for C14: the linear slot of `x0` in `x0^2 + x0 x1 + x1^2 + x1 + 1`. -/
theorem reduce_sys_slots_witness :
    Shape [[1, 1, 1, 0, 1, 1]] 2 1 6 ∧
    (∀ v, v < 2 → 3 = v * (v + 1) / 2 + v →
      ((reduce_sys [[1, 1, 1, 0, 1, 1]] 1 2 6).getD 0 []).getD 3 0 = 0) ∧
    (∀ v, v < 2 → 3 = 2 * (2 + 1) / 2 + v →
      ((reduce_sys [[1, 1, 1, 0, 1, 1]] 1 2 6).getD 0 []).getD 3 0
        = (([[1, 1, 1, 0, 1, 1]] : List (List Nat)).getD 0 []).getD 3 0 ^^^
          (([[1, 1, 1, 0, 1, 1]] : List (List Nat)).getD 0 []).getD (v * (v + 1) / 2 + v) 0) ∧
    ((∀ v, v < 2 → 3 ≠ v * (v + 1) / 2 + v ∧ 3 ≠ 2 * (2 + 1) / 2 + v) →
      ((reduce_sys [[1, 1, 1, 0, 1, 1]] 1 2 6).getD 0 []).getD 3 0
        = (([[1, 1, 1, 0, 1, 1]] : List (List Nat)).getD 0 []).getD 3 0) :=
  ⟨by decide,
    reduce_sys_slots [[1, 1, 1, 0, 1, 1]] 2 1 6 (by decide) 0 3 (by decide) (by decide)⟩

/-- Witness for C15: two equations in three variables, the cell `pdiff2[2][0]`, bit 1. -/
theorem pdiff2_bits_witness :
    Shape [[0, 1, 0, 1, 1, 0, 1, 0, 1, 1], [1, 0, 0, 1, 0, 1, 1, 0, 1, 1]] 3 2 10 ∧
    Coeffs01 [[0, 1, 0, 1, 1, 0, 1, 0, 1, 1], [1, 0, 0, 1, 0, 1, 1, 0, 1, 1]] ∧
    ((get2 (build_pdiff2 (find_partial_derivs
        [[0, 1, 0, 1, 1, 0, 1, 0, 1, 1], [1, 0, 0, 1, 0, 1, 1, 0, 1, 1]] 2 10 3) 3 2) 2 0).testBit 1
        = true ↔
      derivs_get (find_partial_derivs
        [[0, 1, 0, 1, 1, 0, 1, 0, 1, 1], [1, 0, 0, 1, 0, 1, 1, 0, 1, 1]] 2 10 3) 1 2 0 = 1) ∧
    (0 ≠ 2 →
      (get2 (build_pdiff2 (find_partial_derivs
        [[0, 1, 0, 1, 1, 0, 1, 0, 1, 1], [1, 0, 0, 1, 0, 1, 1, 0, 1, 1]] 2 10 3) 3 2) 2 0 >>> 1) &&& 1
        = (([[0, 1, 0, 1, 1, 0, 1, 0, 1, 1], [1, 0, 0, 1, 0, 1, 1, 0, 1, 1]] :
            List (List Nat)).getD 1 []).getD (deg2midx2 0 2) 0) :=
  ⟨by decide, by decide,
    pdiff2_bits [[0, 1, 0, 1, 1, 0, 1, 0, 1, 1], [1, 0, 0, 1, 0, 1, 1, 0, 1, 1]] 3 2 10
      (by decide) (by decide) (by decide) 0 2 1 (by decide) (by decide) (by decide)⟩

/-- Witness for C16: `pdiff_eval[1]` of `x0 x1 + x1 + 1`. -/
theorem init_pdiff_eval_bits_witness :
    ValidSystem [[0, 1, 0, 0, 1, 1]] 2 1 6 ∧ SquareFree [[0, 1, 0, 0, 1, 1]] 2 ∧
    ((search_init [[0, 1, 0, 0, 1, 1]] 2 1 6).pdiff_eval.getD 1 0 >>> 0) &&& 1
      = affine_eval (diff_eq (([[0, 1, 0, 0, 1, 1]] : List (List Nat)).getD 0 []) 6 2 1)
          (decode (2 ^ 1 - 1) 2) 2 ∧
    decode (2 ^ 1 - 1) 2 = (List.range 2).map (fun i => if i + 1 = 1 then 1 else 0) ∧
    ctzll (2 ^ 1) = 1 ∧
    ∀ c, 1 ≤ c → c < 2 ^ 1 → ctzll c ≠ 1 :=
  ⟨by decide, by decide,
    init_pdiff_eval_bits [[0, 1, 0, 0, 1, 1]] 2 1 6 (by decide) (by decide) 1 0 (by decide)
      (by decide)⟩

/-- Witness for C17: the step `c = 12`, which toggles bit 2. -/
theorem gray_toggle_index_witness :
    1 ≤ 12 ∧ 12 < 2 ^ 64 ∧
    (12 ^^^ (12 >>> 1)) ^^^ ((12 - 1) ^^^ ((12 - 1) >>> 1)) = 2 ^ ctzll 12 ∧
    ∀ i, ((12 ^^^ (12 >>> 1)).testBit i ≠ ((12 - 1) ^^^ ((12 - 1) >>> 1)).testBit i ↔
      i = ctzll 12) :=
  ⟨by decide, by decide, gray_toggle_index 12 (by decide) (by decide)⟩

/-- Witness for C18: the unsolvable system `{x0 + x1 + x2 + 1, x0 + x1 + x2}`. -/
theorem search_bounded_witness :
    1 ≤ 3 ∧ 3 ≤ 63 ∧
    ¬ ((search_run [[0, 0, 0, 0, 0, 0, 1, 1, 1, 1], [0, 0, 0, 0, 0, 0, 1, 1, 1, 0]] 3 2 10
          (2 ^ 3 - 1)).func_eval ≠ 0 ∧
        (search_run [[0, 0, 0, 0, 0, 0, 1, 1, 1, 1], [0, 0, 0, 0, 0, 0, 1, 1, 1, 0]] 3 2 10
          (2 ^ 3 - 1)).count < search_bound 3) ∧
    (∀ k, 2 ^ 3 - 1 ≤ k →
      search_run [[0, 0, 0, 0, 0, 0, 1, 1, 1, 1], [0, 0, 0, 0, 0, 0, 1, 1, 1, 0]] 3 2 10 k
        = search_run [[0, 0, 0, 0, 0, 0, 1, 1, 1, 1], [0, 0, 0, 0, 0, 0, 1, 1, 1, 0]] 3 2 10
            (2 ^ 3 - 1)) ∧
    (∀ k,
      (search_run [[0, 0, 0, 0, 0, 0, 1, 1, 1, 1], [0, 0, 0, 0, 0, 0, 1, 1, 1, 0]] 3 2 10 k).count
        ≤ 2 ^ 3 - 1 ∧
      (search_run [[0, 0, 0, 0, 0, 0, 1, 1, 1, 1], [0, 0, 0, 0, 0, 0, 1, 1, 1, 0]] 3 2 10 k).count
        < 2 ^ 3 ∧
      (search_run [[0, 0, 0, 0, 0, 0, 1, 1, 1, 1], [0, 0, 0, 0, 0, 0, 1, 1, 1, 0]] 3 2 10 k).count
        ≤ k) ∧
    (∀ k,
      (search_run [[0, 0, 0, 0, 0, 0, 1, 1, 1, 1], [0, 0, 0, 0, 0, 0, 1, 1, 1, 0]] 3 2 10
          k).func_eval ≠ 0 ∧
        (search_run [[0, 0, 0, 0, 0, 0, 1, 1, 1, 1], [0, 0, 0, 0, 0, 0, 1, 1, 1, 0]] 3 2 10
          k).count < search_bound 3 →
      (search_run [[0, 0, 0, 0, 0, 0, 1, 1, 1, 1], [0, 0, 0, 0, 0, 0, 1, 1, 1, 0]] 3 2 10
          (k + 1)).count
        = (search_run [[0, 0, 0, 0, 0, 0, 1, 1, 1, 1], [0, 0, 0, 0, 0, 0, 1, 1, 1, 0]] 3 2 10
            k).count + 1) ∧
    ((search_run [[0, 0, 0, 0, 0, 0, 1, 1, 1, 1], [0, 0, 0, 0, 0, 0, 1, 1, 1, 0]] 3 2 10
        (2 ^ 3 - 1)).func_eval ≠ 0 →
      (search_run [[0, 0, 0, 0, 0, 0, 1, 1, 1, 1], [0, 0, 0, 0, 0, 0, 1, 1, 1, 0]] 3 2 10
        (2 ^ 3 - 1)).count = 2 ^ 3 - 1 ∧
      ∀ c, c ≤ 2 ^ 3 - 1 →
        (search_run [[0, 0, 0, 0, 0, 0, 1, 1, 1, 1], [0, 0, 0, 0, 0, 0, 1, 1, 1, 0]] 3 2 10
          c).count = c) :=
  ⟨by decide, by decide,
    search_bounded [[0, 0, 0, 0, 0, 0, 1, 1, 1, 1], [0, 0, 0, 0, 0, 0, 1, 1, 1, 0]] 3 2 10
      (by decide) (by decide)⟩

/-- Witness for C20: `n = 3` and the step `c = 6`, with `fp_idx = 1` and `pre_fp_idx = 2`. -/
theorem loop_indices_in_bounds_witness :
    1 ≤ 3 ∧ 3 ≤ 63 ∧ 1 ≤ 6 ∧ 6 ≤ 2 ^ 3 - 1 ∧
    ctzll 6 < 3 ∧
    (6 &&& (6 - 1) ≠ 0 →
      ctzll 6 < ctzll (6 ^^^ (1 <<< ctzll 6) % 2 ^ 64) ∧
      ctzll (6 ^^^ (1 <<< ctzll 6) % 2 ^ 64) < 3) ∧
    ∀ (mqs : List (List Nat)) (m T k : Nat),
      (search_run mqs 3 m T k).pdiff_eval.length = 3 ∧
      (build_pdiff2 (find_partial_derivs mqs m T 3) 3 m).length = 3 ∧
      ∀ i, i < 3 → ((build_pdiff2 (find_partial_derivs mqs m T 3) 3 m).getD i []).length = 3 :=
  ⟨by decide, by decide, by decide, by decide,
    loop_indices_in_bounds 3 6 (by decide) (by decide) (by decide) (by decide)⟩

end FES
